import Mathlib

set_option maxRecDepth 100000

/-
Verification of the LAML validation-and-auto-fix engine (mcp-laml).

The document tree is a shallow embedding of the yaml library's node model as
consumed by the validators: scalars carry a value and a quoting style, maps and
sequences carry a flow (inline) flag and ordered children, aliases carry their
anchor name.  Mapping keys are modelled as plain strings: every validator in
the source guards keys with yaml.isScalar(pair.key) and compares string values,
so non-string keys never reach any behaviour under study.  JavaScript numbers
are modelled as integers (no claim depends on fractional values), string
lengths are code-point counts, and the ASCII fragments of toLowerCase and of
the character classes used by the source's regexes are modelled.

String operations are implemented structurally over character lists so that
every definition evaluates inside the kernel.

The two generations of the ledger present in the snapshot (a plain
autoFixedIssues array appended with push, and the Set-backed AutoFixManager
appended with add) are modelled by a single ledger list plus an event type:
each call site of the source produces a push event (blind append) or an add
event (append unless already present), exactly as that line of the source
does.
-/

namespace Laml

/-! ## Character and string helpers mirroring the JavaScript operations -/

/-- Test for [a-z]. -/
def isLowerAZ (c : Char) : Bool := decide ('a' ≤ c ∧ c ≤ 'z')

/-- Test for [A-Z]. -/
def isUpperAZ (c : Char) : Bool := decide ('A' ≤ c ∧ c ≤ 'Z')

/-- Test for [a-zA-Z]. -/
def isAlphaAZ (c : Char) : Bool := isLowerAZ c || isUpperAZ c

/-- Test for [0-9]. -/
def isDigit09 (c : Char) : Bool := decide ('0' ≤ c ∧ c ≤ '9')

/-- Test for [a-zA-Z0-9]. -/
def isAlnumAZ (c : Char) : Bool := isAlphaAZ c || isDigit09 c

/-- ASCII lowercasing of a character (the fragment of toLowerCase the source
relies on). -/
def charLower (c : Char) : Char :=
  if isUpperAZ c then Char.ofNat (c.toNat + 32) else c

/-- ASCII lowercasing of a character list. -/
def lcLower (l : List Char) : List Char := l.map charLower

/-- JavaScript s.startsWith(p) on character lists. -/
def lcStartsWith : List Char → List Char → Bool
  | _, [] => true
  | [], _ :: _ => false
  | c :: s, p :: ps => c == p && lcStartsWith s ps

/-- JavaScript s.includes(t) on character lists: t occurs contiguously in s. -/
def lcContains : List Char → List Char → Bool
  | [], t => t.isEmpty
  | s@(_ :: rest), t => lcStartsWith s t || lcContains rest t

/-- JavaScript String.prototype.split('.') on a character list. -/
def lcSplitDot : List Char → List (List Char)
  | [] => [[]]
  | c :: tl =>
    if c == '.' then [] :: lcSplitDot tl
    else
      match lcSplitDot tl with
      | [] => [[c]]
      | seg :: segs => (c :: seg) :: segs

/-- JavaScript whitespace test, restricted to the ASCII characters that
String.prototype.trim strips. -/
def isJsSpace (c : Char) : Bool :=
  c == ' ' || c == '\t' || c == '\n' || c == '\r' ||
    c == Char.ofNat 11 || c == Char.ofNat 12

/-- Emptiness of the JavaScript trim of a string: every character is
whitespace. -/
def lcTrimEmpty (l : List Char) : Bool := l.all isJsSpace

/-- Test of the regex ^[a-z][a-zA-Z0-9]*$ on a character list. -/
def matchCamelChars : List Char → Bool
  | [] => false
  | c :: rest => isLowerAZ c && rest.all isAlnumAZ

/-- Test of the regex ^[a-zA-Z][a-zA-Z0-9]*$ on a character list (a reference
path segment). -/
def matchSegChars : List Char → Bool
  | [] => false
  | c :: rest => isAlphaAZ c && rest.all isAlnumAZ

/-- Count of uppercase [A-Z] characters in a list. -/
def countUpper (l : List Char) : Nat := (l.filter (fun c => isUpperAZ c)).length

/-- Number of nonempty pieces of value.split(/(?=[A-Z])/).filter(nonempty):
the zero-width lookahead never splits at index 0, so a nonempty string yields
one piece per uppercase letter at a positive position, plus one. -/
def lookaheadWordCount (s : String) : Nat :=
  match s.data with
  | [] => 0
  | _ :: rest => 1 + countUpper rest

/-- JavaScript s.startsWith(p) on strings. -/
def strStartsWith (s p : String) : Bool := lcStartsWith s.data p.data

/-- JavaScript s.includes(t) on strings. -/
def strContainsStr (s t : String) : Bool := lcContains s.data t.data

/-- JavaScript s.includes(c) for a single-character needle. -/
def strContainsChar (s : String) (c : Char) : Bool := s.data.contains c

/-- Code-point length of a string. -/
def strLen (s : String) : Nat := s.data.length

/-! ## Ledger and diagnostics -/

/-- Scalar quoting style, mirroring yaml.Scalar.type (PLAIN, QUOTE_SINGLE,
QUOTE_DOUBLE, BLOCK_LITERAL, BLOCK_FOLDED) plus undef for a freshly
constructed Scalar whose type field is undefined. -/
inductive SStyle where
  | plain
  | quoteSingle
  | quoteDouble
  | blockLiteral
  | blockFolded
  | undef
  deriving DecidableEq, Repr

/-- Rendering of a style flag as it appears interpolated into ledger strings
(yaml.Scalar.QUOTE_SINGLE is the string literal "QUOTE_SINGLE"; an undefined
type interpolates as "undefined"). -/
def SStyle.styleName : SStyle → String
  | .plain => "PLAIN"
  | .quoteSingle => "QUOTE_SINGLE"
  | .quoteDouble => "QUOTE_DOUBLE"
  | .blockLiteral => "BLOCK_LITERAL"
  | .blockFolded => "BLOCK_FOLDED"
  | .undef => "undefined"

/-- Scalar payload: a JavaScript string, boolean, number or null. -/
inductive SVal where
  | str (s : String)
  | bool (b : Bool)
  | num (n : Int)
  | null
  deriving DecidableEq, Repr

/-- Template-literal rendering of a scalar payload, as in the source's
`${value}` interpolations. -/
def SVal.display : SVal → String
  | .str s => s
  | .bool true => "true"
  | .bool false => "false"
  | .num n => toString n
  | .null => "null"

/-- Document tree node: the mutable yaml node model seen by the validators. -/
inductive Node where
  | scalar (v : SVal) (style : SStyle)
  | map (flow : Bool) (items : List (String × Node))
  | seq (flow : Bool) (items : List Node)
  | aliasNode (source : String)
  deriving Repr

/-- Document contents: yaml.Document.contents, which is null for an empty
document. -/
abbrev Doc := Option Node

/-- Diagnostic recorded through session.logger: an error or warning code plus
the dynamic values interpolated into its message and context. -/
structure Diag where
  code : String
  payload : List String
  deriving DecidableEq, Repr

/-- Ledger event: push mirrors context.autoFixedIssues.push (blind append),
add mirrors context.autoFixManager.add (append unless present). -/
inductive FixEv where
  | push (msg : String)
  | add (msg : String)
  deriving DecidableEq, Repr

/-- Interpretation of a ledger event sequence, starting from ledger acc. -/
def applyFixes : List String → List FixEv → List String
  | acc, [] => acc
  | acc, .push m :: tl => applyFixes (acc ++ [m]) tl
  | acc, .add m :: tl => applyFixes (if m ∈ acc then acc else acc ++ [m]) tl

/-! ## literalUtils.ts -/

/-- isProperLiteralFormat from literalUtils.ts: camelCase word, or 2-4 segment
dotted camelCase path, or a path-shaped string without characters invalid in
file names. -/
def isProperLiteralFormat (value : String) : Bool :=
  -- Standard camelCase literal: /^[a-z][a-zA-Z0-9]*$/
  if matchCamelChars value.data then true
  -- Domain path: /^[a-z][a-zA-Z0-9]*(\.[a-z][a-zA-Z0-9]*){1,3}$/
  else if
    (let segs := lcSplitDot value.data
     2 ≤ segs.length && segs.length ≤ 4 && segs.all matchCamelChars)
  then true
  -- File path: slash, backslash, or a trailing /\.[a-zA-Z0-9]+$/ extension,
  -- rejected when it contains /[<>:"|?*]/
  else if
    strContainsChar value '/' || strContainsChar value '\\' ||
      (let rev := value.data.reverse
       let ext := rev.takeWhile isAlnumAZ
       decide (ext ≠ []) && ((rev.drop ext.length).headD ' ' == '.'))
  then
    !(value.data.any (fun c =>
      c == '<' || c == '>' || c == ':' || c == '"' || c == '|' || c == '?' || c == '*'))
  else false

/-- isLiteralValue from literalUtils.ts: short single-concept values; length at
most 50, no space or newline, no URL or at-sign, not reference-like. -/
def isLiteralValue (value : String) : Bool :=
  if strLen value > 50 || strContainsChar value ' ' || strContainsChar value '\n' then false
  else if strContainsStr value "://" || strContainsChar value '@' then false
  else if strStartsWith value "*" || strStartsWith value "\\*" then false
  else true

/-- isBooleanTrigger from literalUtils.ts: the lowercased key starts with one
of the eight boolean trigger prefixes. -/
def isBooleanTrigger (key : String) : Bool :=
  let k := lcLower key.data
  ["has", "is", "can", "should", "must", "allows", "requires", "contains"].any
    (fun trigger => lcStartsWith k trigger.data)

/-! ## domainUtils.ts -/

/-- isValidDomainFormat from domainUtils.ts: nonempty, at most 4 dot-separated
segments, each a proper literal segment. -/
def isValidDomainFormat (domain : String) : Bool :=
  if domain == "" then false
  else
    let segments := lcSplitDot domain.data
    if segments.length > 4 then false
    else segments.all (fun seg => isProperLiteralFormat (String.mk seg))

end Laml

namespace Laml

/-! ## Decidable equality for nodes -/

mutual
def Node.beq : Node → Node → Bool
  | .scalar v s, .scalar v' s' => v == v' && s == s'
  | .map f i, .map f' i' => f == f' && Node.beqE i i'
  | .seq f i, .seq f' i' => f == f' && Node.beqL i i'
  | .aliasNode a, .aliasNode a' => a == a'
  | _, _ => false
def Node.beqE : List (String × Node) → List (String × Node) → Bool
  | [], [] => true
  | (k, v) :: tl, (k', v') :: tl' => k == k' && Node.beq v v' && Node.beqE tl tl'
  | _, _ => false
def Node.beqL : List Node → List Node → Bool
  | [], [] => true
  | v :: tl, v' :: tl' => Node.beq v v' && Node.beqL tl tl'
  | _, _ => false
end

/-! ## validateYamlMergeKeys.ts -/

mutual
/-- Diagnostics of validateYamlMergeKeys: one LAML_YAML_MERGE_KEY_INVALID
error per mapping pair whose key is the merge key, in visit (preorder)
order. -/
def mergeKeyDiags : Node → List Diag
  | .scalar _ _ => []
  | .aliasNode _ => []
  | .map _ items => mergeKeyDiagsE items
  | .seq _ items => mergeKeyDiagsL items
def mergeKeyDiagsE : List (String × Node) → List Diag
  | [] => []
  | (k, v) :: tl =>
    (if k == "<<" then [⟨"LAML_YAML_MERGE_KEY_INVALID", []⟩] else [])
      ++ mergeKeyDiags v ++ mergeKeyDiagsE tl
def mergeKeyDiagsL : List Node → List Diag
  | [] => []
  | v :: tl => mergeKeyDiags v ++ mergeKeyDiagsL tl
end

/-- validateYamlMergeKeys on a document (yaml.visit walks nothing when the
contents are null). -/
def validateYamlMergeKeys : Doc → List Diag
  | none => []
  | some n => mergeKeyDiags n

mutual
/-- Presence of a mapping pair whose key is the merge key. -/
def hasMergeKey : Node → Bool
  | .scalar _ _ => false
  | .aliasNode _ => false
  | .map _ items => hasMergeKeyE items
  | .seq _ items => hasMergeKeyL items
def hasMergeKeyE : List (String × Node) → Bool
  | [] => false
  | (k, v) :: tl => k == "<<" || hasMergeKey v || hasMergeKeyE tl
def hasMergeKeyL : List Node → Bool
  | [] => false
  | v :: tl => hasMergeKey v || hasMergeKeyL tl
end

/-! ## formatDataStructures.ts -/

/-- JSON.stringify escaping of one character. -/
def jsonEscapeChar (c : Char) : List Char :=
  if c == '"' then ['\\', '"']
  else if c == '\\' then ['\\', '\\']
  else if c == Char.ofNat 8 then ['\\', 'b']
  else if c == '\t' then ['\\', 't']
  else if c == '\n' then ['\\', 'n']
  else if c == Char.ofNat 12 then ['\\', 'f']
  else if c == '\r' then ['\\', 'r']
  else if c.toNat < 32 then
    ['\\', 'u', '0', '0',
      (if c.toNat / 16 = 0 then '0' else '1'),
      (Nat.digitChar (c.toNat % 16))]
  else [c]

/-- JSON.stringify of a string: double quotes around the escaped body. -/
def jsonStringChars (s : String) : List Char :=
  '"' :: (s.data.flatMap jsonEscapeChar) ++ ['"']

/-- JSON.stringify of a scalar payload. -/
def jsonOfSVal : SVal → List Char
  | .str s => jsonStringChars s
  | v => v.display.data

/-- Comma-space join of rendered fragments. -/
def joinCommaSp : List (List Char) → List Char
  | [] => []
  | [x] => x
  | x :: tl => x ++ ',' :: ' ' :: joinCommaSp tl

mutual
/-- getNodeStringValue from formatDataStructures.ts.  A sequence rendering
includes only items carrying a value field, i.e. scalar items; an alias
reaches the String(node) fallback, modelled by the default object
rendering. -/
def getNodeStringValue : Node → List Char
  | .scalar v _ => jsonOfSVal v
  | .map _ items => Char.ofNat 123 :: ' ' :: joinCommaSp (mapPairStrings items) ++ [' ', Char.ofNat 125]
  | .seq _ items => '[' :: joinCommaSp (seqItemStrings items) ++ [']']
  | .aliasNode _ => "[object Object]".data
def mapPairStrings : List (String × Node) → List (List Char)
  | [] => []
  | (k, v) :: tl => (jsonStringChars k ++ ':' :: ' ' :: getNodeStringValue v) :: mapPairStrings tl
def seqItemStrings : List Node → List (List Char)
  | [] => []
  | .scalar v _ :: tl => jsonOfSVal v :: seqItemStrings tl
  | _ :: tl => seqItemStrings tl
end

/-- getInlineMapString from formatDataStructures.ts. -/
def getInlineMapString (items : List (String × Node)) : List Char :=
  Char.ofNat 123 :: ' ' :: joinCommaSp (mapPairStrings items) ++ [' ', Char.ofNat 125]

/-- getInlineSequenceString from formatDataStructures.ts. -/
def getInlineSequenceString (items : List Node) : List Char :=
  '[' :: joinCommaSp (seqItemStrings items) ++ [']']

/-- MAX_INLINE_LENGTH from formatDataStructures.ts. -/
def MAX_INLINE_LENGTH : Nat := 50

mutual
/-- formatDataStructures on one node: every non-empty map or sequence has its
flow flag set to (inline rendering length at most the threshold) whenever the
current flag disagrees, with one ledger add per flip, visited preorder. -/
def fmtNode : Node → Node × List FixEv
  | .scalar v s => (.scalar v s, [])
  | .aliasNode a => (.aliasNode a, [])
  | .map fl items =>
    let should := decide ((getInlineMapString items).length ≤ MAX_INLINE_LENGTH)
    let fl' := if items.isEmpty then fl else should
    let ev : List FixEv :=
      if items.isEmpty || (should == fl) then []
      else [.add "Reformatted object structure for optimal readability"]
    let r := fmtEntries items
    (.map fl' r.1, ev ++ r.2)
  | .seq fl items =>
    let should := decide ((getInlineSequenceString items).length ≤ MAX_INLINE_LENGTH)
    let fl' := if items.isEmpty then fl else should
    let ev : List FixEv :=
      if items.isEmpty || (should == fl) then []
      else [.add "Reformatted array structure for optimal readability"]
    let r := fmtList items
    (.seq fl' r.1, ev ++ r.2)
def fmtEntries : List (String × Node) → List (String × Node) × List FixEv
  | [] => ([], [])
  | (k, v) :: tl =>
    let rv := fmtNode v
    let rt := fmtEntries tl
    ((k, rv.1) :: rt.1, rv.2 ++ rt.2)
def fmtList : List Node → List Node × List FixEv
  | [] => ([], [])
  | v :: tl =>
    let rv := fmtNode v
    let rt := fmtList tl
    (rv.1 :: rt.1, rv.2 ++ rt.2)
end

/-- formatDataStructures on a document: an empty document is returned
untouched. -/
def formatDataStructures : Doc → Doc × List FixEv
  | none => (none, [])
  | some n =>
    let r := fmtNode n
    (some r.1, r.2)

mutual
/-- Layout-normalization invariant: every non-empty container is in flow form
exactly when its inline rendering fits the threshold. -/
def layoutNormalized : Node → Bool
  | .scalar _ _ => true
  | .aliasNode _ => true
  | .map fl items =>
    (items.isEmpty || (fl == decide ((getInlineMapString items).length ≤ MAX_INLINE_LENGTH)))
      && layoutNormalizedE items
  | .seq fl items =>
    (items.isEmpty || (fl == decide ((getInlineSequenceString items).length ≤ MAX_INLINE_LENGTH)))
      && layoutNormalizedL items
def layoutNormalizedE : List (String × Node) → Bool
  | [] => true
  | (_, v) :: tl => layoutNormalized v && layoutNormalizedE tl
def layoutNormalizedL : List Node → Bool
  | [] => true
  | v :: tl => layoutNormalized v && layoutNormalizedL tl
end

end Laml

namespace Laml

/-! ## referenceUtils.ts -/

/-- isValidReference from referenceUtils.ts: a star followed either by the
external form $refs.key.path (at least two segments after $refs.) or by an
internal dotted path of valid segments. -/
def isValidReference (path : String) : Bool :=
  if !(strStartsWith path "*") then false
  else
    let dotPath := path.data.drop 1
    if lcStartsWith dotPath "$refs.".data then
      let externalPath := dotPath.drop 6
      let segs := lcSplitDot externalPath
      decide (2 ≤ segs.length) && segs.all matchSegChars
    else
      (lcSplitDot dotPath).all matchSegChars

/-- Dotted segments of refPath.slice(1). -/
def refPathSegments (refPath : String) : List String :=
  (lcSplitDot (refPath.data.drop 1)).map String.mk

/-- Walk of a dotted path through nested mappings, first missing segment
fails. -/
def walkPath : Node → List String → Bool
  | _, [] => true
  | .map _ items, seg :: rest =>
    match items.find? (fun it => it.1 == seg) with
    | some it => walkPath it.2 rest
    | none => false
  | _, _ :: _ => false

/-- referenceExists from referenceUtils.ts: the dotted path of the reference
resolves from the document root through mapping entries. -/
def referenceExists (doc : Doc) (refPath : String) : Bool :=
  match doc with
  | some (Node.map fl items) => walkPath (.map fl items) (refPathSegments refPath)
  | _ => false

/-- Consumption of one [a-zA-Z][a-zA-Z0-9]* segment from the front. -/
def takeSeg : List Char → Option (List Char × List Char)
  | [] => none
  | c :: tl =>
    if isAlphaAZ c then some (c :: tl.takeWhile isAlnumAZ, tl.drop (tl.takeWhile isAlnumAZ).length)
    else none

/-- Greedy consumption of (\.[a-zA-Z][a-zA-Z0-9]*)* from the front; the fuel
only bounds recursion depth and each round consumes at least two characters,
so any fuel of at least the input length is exact. -/
def takeDotSegs : Nat → List Char → List Char × List Char
  | 0, l => ([], l)
  | fuel + 1, l =>
    match l with
    | '.' :: tl =>
      match takeSeg tl with
      | some (m, rest) =>
        let r := takeDotSegs fuel rest
        ('.' :: (m ++ r.1), r.2)
      | none => ([], l)
    | _ => ([], l)

/-- Attempted match of the reference-scan regex
\\?\*[a-zA-Z][a-zA-Z0-9]*(?:\.[a-zA-Z][a-zA-Z0-9]*)* at the head of the
input, returning the match and the rest. -/
def tryRefMatch (l : List Char) : Option (List Char × List Char) :=
  match l with
  | '\\' :: '*' :: tl =>
    match takeSeg tl with
    | some (m, rest) =>
      let r := takeDotSegs rest.length rest
      some ('\\' :: '*' :: (m ++ r.1), r.2)
    | none => none
  | '*' :: tl =>
    match takeSeg tl with
    | some (m, rest) =>
      let r := takeDotSegs rest.length rest
      some ('*' :: (m ++ r.1), r.2)
    | none => none
  | _ => none

/-- Left-to-right global scan for the reference regex; unmatched positions
advance by one character, matches continue after their end.  A fuel of the
input length is exact since every round consumes at least one character. -/
def scanRefsAux : Nat → List Char → List (List Char)
  | 0, _ => []
  | _, [] => []
  | fuel + 1, l =>
    match tryRefMatch l with
    | some (m, rest) => m :: scanRefsAux fuel rest
    | none => scanRefsAux fuel l.tail

/-- All matches of the reference regex in a scalar body. -/
def scanRefs (l : List Char) : List (List Char) := scanRefsAux l.length l

/-- References contributed by one scalar string (findAllReferences):
a value starting with an escaped star is skipped, a value starting with a star
is one whole reference, and any other value is scanned for in-prose reference
mentions, dropping escaped matches. -/
def scalarRefs (s : String) : List String :=
  if strStartsWith s "\\*" then []
  else if strStartsWith s "*" then [s]
  else (scanRefs s.data).filterMap
    (fun m => if lcStartsWith m ['\\', '*'] then none else some (String.mk m))

mutual
/-- findAllReferences traversal over every scalar of the tree in visit order;
mapping keys are scalar nodes and are visited before the pair value. -/
def refsOfNode : Node → List String
  | .scalar (.str s) _ => scalarRefs s
  | .scalar _ _ => []
  | .aliasNode _ => []
  | .map _ items => refsOfEntries items
  | .seq _ items => refsOfList items
def refsOfEntries : List (String × Node) → List String
  | [] => []
  | (k, v) :: tl => scalarRefs k ++ refsOfNode v ++ refsOfEntries tl
def refsOfList : List Node → List String
  | [] => []
  | v :: tl => refsOfNode v ++ refsOfList tl
end

/-- findAllReferences from referenceUtils.ts on a document. -/
def findAllReferences : Doc → List String
  | none => []
  | some n => refsOfNode n

/-- ExternalReferenceInfo: one $refs entry (the optional description plays no
role in validation). -/
structure ExtRef where
  key : String
  path : String
  deriving DecidableEq, Repr

/-- extractRefsSection from referenceUtils.ts: the entries of the root $refs
mapping that carry a string path field. -/
def extractRefsSection (doc : Doc) : List ExtRef :=
  match doc with
  | some (Node.map _ items) =>
    match items.find? (fun it => it.1 == "$refs") with
    | some refsItem =>
      match refsItem.2 with
      | .map _ refsItems =>
        refsItems.filterMap (fun it =>
          match it.2 with
          | .map _ entryItems =>
            match entryItems.find? (fun e => e.1 == "path") with
            | some pathItem =>
              match pathItem.2 with
              | .scalar (.str p) _ => some ⟨it.1, p⟩
              | _ => none
            | none => none
          | _ => none)
      | _ => []
    | none => []
  | _ => []

/-- Dotted join of path segments. -/
def joinDots : List String → String
  | [] => ""
  | [s] => s
  | s :: tl => s ++ "." ++ joinDots tl

/-- Result of isExternalReference. -/
structure ExtCheck where
  isExternal : Bool
  refKey : String
  localPath : String
  deriving DecidableEq, Repr

/-- isExternalReference from referenceUtils.ts: a *$refs.key.path reference
whose key is declared in $refs. -/
def isExternalReference (refPath : String) (externalRefs : List ExtRef) : ExtCheck :=
  if !(strStartsWith refPath "*$refs.") then ⟨false, "", ""⟩
  else
    let p := String.mk (refPath.data.drop 7)
    let segments := (lcSplitDot p.data).map String.mk
    if segments.length < 2 then ⟨false, "", ""⟩
    else
      let refKey := segments.headD ""
      let localPath := joinDots (segments.drop 1)
      if externalRefs.any (fun r => r.key == refKey) then ⟨true, refKey, localPath⟩
      else ⟨false, "", ""⟩

/-- Filesystem capability consumed by external-reference checking: existence
of a declared path and loading (with the process cache) of the document behind
it.  Path resolution against the base directory is modelled as the identity on
the declared path. -/
structure FsEnv where
  fileExists : String → Bool
  loadDoc : String → Option Doc

/-- Empty filesystem: no external file exists or loads. -/
def emptyFs : FsEnv := ⟨fun _ => false, fun _ => none⟩

/-- validateExternalReference from referenceUtils.ts: none for a valid
reference, or the error string otherwise. -/
def validateExternalReference (refPath : String) (externalRefs : List ExtRef)
    (env : FsEnv) : Option String :=
  let c := isExternalReference refPath externalRefs
  if !c.isExternal || c.refKey == "" || c.localPath == "" then
    some "Not a valid external reference"
  else
    match externalRefs.find? (fun r => r.key == c.refKey) with
    | none => some ("External reference key '" ++ c.refKey ++ "' not found in $refs section")
    | some extRef =>
      match env.loadDoc extRef.path with
      | none => some ("Cannot load external file: " ++ extRef.path)
      | some extDoc =>
        if !(referenceExists extDoc ("*" ++ c.localPath)) then
          some ("Reference '" ++ c.localPath ++ "' not found in external file " ++ extRef.path)
        else none

mutual
/-- findPropertyContainingReference from referenceUtils.ts: the dotted path of
the first property (preorder, descending into mappings) whose scalar value is
exactly the reference text. -/
def findPropInMap : List (String × Node) → List String → String → Option String
  | [], _, _ => none
  | (k, v) :: tl, pre, target =>
    match findPropInValue k v pre target with
    | some r => some r
    | none => findPropInMap tl pre target
def findPropInValue : String → Node → List String → String → Option String
  | k, .scalar (.str s) _, pre, target =>
    if s == target then some (joinDots (pre ++ [k])) else none
  | k, .map _ its, pre, target => findPropInMap its (pre ++ [k]) target
  | _, _, _, _ => none
end

/-- findPropertyContainingReference on a document. -/
def findPropertyContainingReference (doc : Doc) (referencePath : String) : Option String :=
  match doc with
  | some (Node.map _ items) => findPropInMap items [] referencePath
  | _ => none

/-- Insertion into the dependency graph: a JavaScript Map keeps the original
key position on overwrite and appends new keys. -/
def dgInsert : List (String × String) → String → String → List (String × String)
  | [], k, v => [(k, v)]
  | (k', v') :: tl, k, v =>
    if k' == k then (k', v) :: tl else (k', v') :: dgInsert tl k v

/-- Dependency graph of findCircularReferences: one edge per reference whose
containing property is found and whose target passed the existence check. -/
def buildDependencyGraph (doc : Doc) : List String → List (String × String) → List (String × String)
  | [], g => g
  | ref :: rest, g =>
    let refTarget := String.mk (ref.data.drop 1)
    match findPropertyContainingReference doc ref with
    | some src =>
      if referenceExists doc ref then
        buildDependencyGraph doc rest (dgInsert g src refTarget)
      else buildDependencyGraph doc rest g
    | none => buildDependencyGraph doc rest g

/-- State of the cycle DFS: the global visited set, the recursion stack and
the cycles found so far. -/
structure DfsState where
  visited : List String
  recStack : List String
  circulars : List (List String)
  deriving Repr

/-- Cycle path reported on a recursion-stack hit: the path from the first
occurrence of the node, inclusive; JavaScript's indexOf/slice pair yields the
last path element when the node is absent from the path (slice(-1)). -/
def cycleOf (path : List String) (node : String) : List String :=
  match path.indexOf? node with
  | some i => path.drop i ++ [node]
  | none => path.drop (path.length - 1) ++ [node]

/-- Lookup of the single outgoing edge of a node. -/
def dgLookup (g : List (String × String)) (k : String) : Option String :=
  (g.find? (fun p => p.1 == k)).map (fun p => p.2)

/-- detectCycle from findCircularReferences: depth-first walk with a shared
visited set and recursion stack; after a cycle is found the early returns skip
the recursion-stack cleanup, exactly as in the source.  Each recursive call
adds a new node to the visited set, so any fuel beyond the number of distinct
node names is exact. -/
def detectCycle (g : List (String × String)) :
    Nat → String → List String → DfsState → Bool × DfsState
  | 0, _, _, st => (false, st)
  | fuel + 1, node, path, st =>
    if node ∈ st.recStack then
      (true, { st with circulars := st.circulars ++ [cycleOf path node] })
    else if node ∈ st.visited then (false, st)
    else
      let st1 := { st with visited := st.visited ++ [node], recStack := st.recStack ++ [node] }
      match dgLookup g node with
      | some target =>
        match detectCycle g fuel target (path ++ [node]) st1 with
        | (true, st2) => (true, st2)
        | (false, st2) => (false, { st2 with recStack := st2.recStack.erase node })
      | none => (false, { st1 with recStack := st1.recStack.erase node })

/-- Outer loop of findCircularReferences over the graph keys in insertion
order, skipping already visited nodes. -/
def runDfs (g : List (String × String)) : List (String × String) → DfsState → DfsState
  | [], st => st
  | (k, _) :: tl, st =>
    if k ∈ st.visited then runDfs g tl st
    else runDfs g tl (detectCycle g (2 * g.length + 2) k [] st).2

/-- findCircularReferences from referenceUtils.ts. -/
def findCircularReferences (doc : Doc) (refs : List String) : List (List String) :=
  let g := buildDependencyGraph doc refs []
  (runDfs g g ⟨[], [], []⟩).circulars

end Laml

namespace Laml

/-! ## validateValueTypes.ts and validateLiteralOrDescriptiveValue.ts -/

/-- Outcome of processing one mapping pair whose value is a scalar: the new
scalar value and style plus the recorded diagnostics and ledger events. -/
structure PairOut where
  value : SVal
  style : SStyle
  errs : List Diag
  warns : List Diag
  fixes : List FixEv
  deriving Repr

/-- validateLiteralOrDescriptiveValue from values/: literal values are checked
for word count and camelCase shape and forced to single quotes; descriptive
values must be nonempty after trimming and are forced to double quotes; a
quote change is one ledger add. -/
def validateLiteralOrDescriptiveValue (k : String) (s : String) (style : SStyle) : PairOut :=
  if isLiteralValue s then
    let words := lookaheadWordCount s
    if words > 5 then
      ⟨.str s, style, [⟨"LAML_LITERAL_TOO_MANY_WORDS", [k, s, toString words]⟩], [], []⟩
    else
      let warns : List Diag :=
        if !isProperLiteralFormat s then [⟨"LAML_LITERAL_FORMAT_WARNING", [k, s]⟩] else []
      if style ≠ .quoteSingle then
        ⟨.str s, .quoteSingle, [], warns,
          [.add ("Fixed literal quote style for \"" ++ s ++ "\": " ++ style.styleName
            ++ " -> single quotes")]⟩
      else ⟨.str s, style, [], warns, []⟩
  else
    if lcTrimEmpty s.data then
      ⟨.str s, style, [⟨"LAML_DESCRIPTIVE_EMPTY", [k, s]⟩], [], []⟩
    else if style ≠ .quoteDouble then
      ⟨.str s, .quoteDouble, [], [],
        [.add ("Fixed descriptive quote style for \"" ++ s ++ "\": " ++ style.styleName
          ++ " -> double quotes")]⟩
    else ⟨.str s, style, [], [], []⟩

/-- Pair callback of validateValueTypes: reference format first, then boolean
coercion for trigger keys (strict equality, so only the six exact strings
coerce and a freshly built boolean Scalar has an undefined style), then
literal/descriptive handling for nonempty strings. -/
def processPairValue (k : String) (v : SVal) (style : SStyle) : PairOut :=
  if (match v with | .str s => strStartsWith s "*" | _ => false) then
    match v with
    | .str s =>
      if !isValidReference s then
        ⟨v, style, [⟨"LAML_INVALID_REFERENCE_FORMAT", [k, s]⟩], [], []⟩
      else ⟨v, style, [], [], []⟩
    | _ => ⟨v, style, [], [], []⟩
  else if isBooleanTrigger k then
    match v with
    | .bool b => ⟨.bool b, style, [], [], []⟩
    | .str s =>
      if s == "true" || s == "yes" || s == "1" then
        ⟨.bool true, .undef, [], [],
          [.push ("Fixed boolean value for " ++ k ++ ": " ++ s ++ " -> true")]⟩
      else if s == "false" || s == "no" || s == "0" then
        ⟨.bool false, .undef, [], [],
          [.push ("Fixed boolean value for " ++ k ++ ": " ++ s ++ " -> false")]⟩
      else ⟨v, style, [⟨"LAML_INVALID_BOOLEAN_VALUE", [k, s]⟩], [], []⟩
    | _ => ⟨v, style, [⟨"LAML_INVALID_BOOLEAN_VALUE", [k, v.display]⟩], [], []⟩
  else
    match v with
    | .str s =>
      if strLen s > 0 then validateLiteralOrDescriptiveValue k s style
      else ⟨v, style, [], [], []⟩
    | _ => ⟨v, style, [], [], []⟩

mutual
/-- validateValueTypes traversal: every mapping pair with a scalar value is
processed in visit order; other values are descended into. -/
def vtNode : Node → Node × List Diag × List Diag × List FixEv
  | .map fl items =>
    let r := vtEntries items
    (.map fl r.1, r.2)
  | .seq fl items =>
    let r := vtList items
    (.seq fl r.1, r.2)
  | n => (n, [], [], [])
def vtEntries :
    List (String × Node) → List (String × Node) × List Diag × List Diag × List FixEv
  | [] => ([], [], [], [])
  | (k, .scalar v st) :: tl =>
    let o := processPairValue k v st
    let rt := vtEntries tl
    ((k, .scalar o.value o.style) :: rt.1,
      o.errs ++ rt.2.1, o.warns ++ rt.2.2.1, o.fixes ++ rt.2.2.2)
  | (k, v) :: tl =>
    let rv := vtNode v
    let rt := vtEntries tl
    ((k, rv.1) :: rt.1,
      rv.2.1 ++ rt.2.1, rv.2.2.1 ++ rt.2.2.1, rv.2.2.2 ++ rt.2.2.2)
def vtList : List Node → List Node × List Diag × List Diag × List FixEv
  | [] => ([], [], [], [])
  | v :: tl =>
    let rv := vtNode v
    let rt := vtList tl
    (rv.1 :: rt.1, rv.2.1 ++ rt.2.1, rv.2.2.1 ++ rt.2.2.1, rv.2.2.2 ++ rt.2.2.2)
end

/-- validateValueTypes on a document. -/
def validateValueTypes : Doc → Doc × List Diag × List Diag × List FixEv
  | none => (none, [], [], [])
  | some n =>
    let r := vtNode n
    (some r.1, r.2)

/-! ## convertAliasesToReferences.ts -/

mutual
/-- findAliases: anchors of every alias node in visit order. -/
def aliasSources : Node → List String
  | .aliasNode a => [a]
  | .scalar _ _ => []
  | .map _ items => aliasSourcesE items
  | .seq _ items => aliasSourcesL items
def aliasSourcesE : List (String × Node) → List String
  | [] => []
  | (_, v) :: tl => aliasSources v ++ aliasSourcesE tl
def aliasSourcesL : List Node → List String
  | [] => []
  | v :: tl => aliasSources v ++ aliasSourcesL tl
end

mutual
/-- replaceAliasWithScalar applied to every alias: an alias in pair-value or
sequence-item position becomes the scalar *anchorName (a fresh Scalar has an
undefined style); an alias elsewhere (document root) is left alone, since the
replacement visitor only rewrites pair values and sequence items. -/
def convAliases : Node → Node
  | .map fl items => .map fl (convAliasesE items)
  | .seq fl items => .seq fl (convAliasesL items)
  | n => n
def convAliasesE : List (String × Node) → List (String × Node)
  | [] => []
  | (k, .aliasNode a) :: tl => (k, .scalar (.str ("*" ++ a)) .undef) :: convAliasesE tl
  | (k, v) :: tl => (k, convAliases v) :: convAliasesE tl
def convAliasesL : List Node → List Node
  | [] => []
  | .aliasNode a :: tl => .scalar (.str ("*" ++ a)) .undef :: convAliasesL tl
  | v :: tl => convAliases v :: convAliasesL tl
end

/-- convertAliasesToReferences on a document: every alias is replaced and one
ledger add per alias is recorded in findAliases order. -/
def convertAliasesToReferences : Doc → Doc × List FixEv
  | none => (none, [])
  | some n =>
    (some (convAliases n),
      (aliasSources n).map (fun a =>
        .add ("Converted YAML alias to LAML reference: *" ++ a ++ " -> *" ++ a)))

/-- validateStructurePrinciples has no active validations. -/
def validateStructurePrinciples : Doc → Doc := fun d => d

end Laml

namespace Laml

/-! ## validateMetaFieldValue.ts -/

/-- validateMetaFieldValue from core/: per-field shape checks of the $meta
fields (domains are validated separately); a non-scalar interpolates as the
default object rendering. -/
def validateMetaFieldValue (field : String) (v : Node) : List Diag :=
  if field == "name" then
    match v with
    | .scalar (.str s) _ =>
      if lcTrimEmpty s.data then [⟨"LAML_META_NAME_EMPTY", [field, s]⟩]
      else if !isProperLiteralFormat s then [⟨"LAML_META_NAME_INVALID_FORMAT", [field, s]⟩]
      else []
    | .scalar sv _ => [⟨"LAML_META_NAME_INVALID_TYPE", [field, sv.display]⟩]
    | _ => [⟨"LAML_META_FIELD_INVALID_TYPE", [field]⟩]
  else if field == "purpose" then
    match v with
    | .scalar (.str s) _ =>
      if lcTrimEmpty s.data then [⟨"LAML_META_PURPOSE_INVALID", [field, s]⟩] else []
    | .scalar sv _ => [⟨"LAML_META_PURPOSE_INVALID_TYPE", [field, sv.display]⟩]
    | _ => [⟨"LAML_META_FIELD_INVALID_TYPE", [field]⟩]
  else if field == "version" then
    match v with
    | .scalar (.num n) _ =>
      if n < 0 then [⟨"LAML_META_VERSION_NEGATIVE", [field, toString n]⟩] else []
    | .scalar sv _ => [⟨"LAML_META_VERSION_INVALID_TYPE", [field, sv.display]⟩]
    | _ => [⟨"LAML_META_VERSION_INVALID_TYPE", [field, "[object Object]"]⟩]
  else if field == "spec" then
    match v with
    | .scalar (.str s) _ =>
      if lcTrimEmpty s.data then [⟨"LAML_META_SPEC_INVALID", [field, s]⟩] else []
    | .scalar sv _ => [⟨"LAML_META_SPEC_INVALID_TYPE", [field, sv.display]⟩]
    | _ => [⟨"LAML_META_FIELD_INVALID_TYPE", [field]⟩]
  else if field == "goal" then
    match v with
    | .scalar (.str s) _ =>
      if !isProperLiteralFormat s then [⟨"LAML_META_GOAL_INVALID_FORMAT", [field, s]⟩] else []
    | .scalar sv _ => [⟨"LAML_META_GOAL_INVALID_TYPE", [field, sv.display]⟩]
    | _ => [⟨"LAML_META_FIELD_INVALID_TYPE", [field]⟩]
  else []

/-! ## validateDomainsField.ts -/

/-- findOverlappingDomains: every ordered pair i < j where one domain plus a
trailing dot prefixes the other. -/
def findOverlappingDomains : List String → List (String × String)
  | [] => []
  | d :: tl =>
    tl.filterMap (fun d2 =>
      if strStartsWith d (d2 ++ ".") || strStartsWith d2 (d ++ ".") then some (d, d2)
      else none)
    ++ findOverlappingDomains tl

/-- First pass of validateDomainsField over the sequence items: collected
string domains plus the per-item type and format errors in item order. -/
def domainsPass : List Node → List String × List Diag
  | [] => ([], [])
  | it :: tl =>
    let r := domainsPass tl
    match it with
    | .scalar (.str d) _ =>
      (d :: r.1,
        (if !isValidDomainFormat d then [⟨"LAML_DOMAIN_INVALID_FORMAT", [d]⟩] else []) ++ r.2)
    | _ => (r.1, ⟨"LAML_DOMAIN_INVALID_TYPE", []⟩ :: r.2)

/-- Array.from(new Set(l)): first occurrences in order. -/
def dedupFirst (l : List String) : List String :=
  l.foldl (fun acc d => if d ∈ acc then acc else acc ++ [d]) []

/-- Elements at non-first positions, in position order (the duplicates list of
the source). -/
def dupElems : List String → List String → List String
  | _, [] => []
  | seen, d :: tl => (if d ∈ seen then [d] else []) ++ dupElems (seen ++ [d]) tl

/-- Positions (indices into the string list) of non-first occurrences. -/
def dupIdxs : List String → Nat → List String → List Nat
  | _, _, [] => []
  | seen, i, d :: tl => (if d ∈ seen then [i] else []) ++ dupIdxs (seen ++ [d]) (i + 1) tl

/-- Descending splices of the collected indices out of the sequence items;
with non-string items present the positions are those of the strings-only
array, exactly as in the source. -/
def removeIdxs (items : List Node) (bad : List Nat) : List Node :=
  items.enum.filterMap (fun p => if p.1 ∈ bad then none else some p.2)

/-- Comma-space join of the duplicates list. -/
def joinCommaStr : List String → String
  | [] => ""
  | [s] => s
  | s :: tl => s ++ ", " ++ joinCommaStr tl

/-- Replacement of the value of the first entry with the given key. -/
def setFirstValue : List (String × Node) → String → Node → List (String × Node)
  | [], _, _ => []
  | (k, v) :: tl, key, nv =>
    if k == key then (k, nv) :: tl else (k, v) :: setFirstValue tl key nv

/-- Output of a validator acting on the entries of one mapping. -/
structure MapOut where
  items : List (String × Node)
  errs : List Diag
  evs : List FixEv

/-- validateDomainsField from domains/: missing, non-sequence and empty
domains are terminal errors; each item is type- and format-checked; duplicate
strings are then spliced out (keeping the positions of first occurrences in
the strings-only array) with one pushed ledger entry; the count and overlap
checks run on the deduplicated strings. -/
def validateDomainsField (metaItems : List (String × Node)) : MapOut :=
  match metaItems.find? (fun it => it.1 == "domains") with
  | none => ⟨metaItems, [⟨"LAML_META_DOMAINS_MISSING", []⟩], []⟩
  | some domItem =>
    match domItem.2 with
    | .seq fl items =>
      if items.length = 0 then ⟨metaItems, [⟨"LAML_DOMAINS_EMPTY", []⟩], []⟩
      else
        let pass := domainsPass items
        let domains := pass.1
        let dedup := dedupFirst domains
        let hasDups := decide (dedup.length ≠ domains.length)
        let newItems := if hasDups then removeIdxs items (dupIdxs [] 0 domains) else items
        let evs : List FixEv :=
          if hasDups then
            [.push ("Removed duplicate domains: " ++ joinCommaStr (dupElems [] domains))]
          else []
        let domains2 := if hasDups then dedup else domains
        let countErrs : List Diag :=
          if domains2.length > 3 then
            [⟨"LAML_DOMAINS_COUNT_EXCEEDED", [toString domains2.length]⟩]
          else []
        let overlapErrs : List Diag :=
          (findOverlappingDomains domains2).map (fun p =>
            ⟨"LAML_DOMAINS_OVERLAPPING", [p.1, p.2]⟩)
        ⟨setFirstValue metaItems "domains" (.seq fl newItems),
          pass.2 ++ countErrs ++ overlapErrs, evs⟩
    | _ => ⟨metaItems, [⟨"LAML_META_DOMAINS_INVALID_TYPE", []⟩], []⟩

/-! ## validateMetaSection.ts -/

/-- Dialect-conformant default for a missing required $meta field. -/
def metaFieldDefault (field : String) : Node :=
  if field == "name" then .scalar (.str "untitled") .quoteSingle
  else if field == "purpose" then .scalar (.str "LAML document") .quoteDouble
  else if field == "version" then .scalar (.num 1) .undef
  else if field == "spec" then .scalar (.str ".cursor/rules/g-laml.mdc") .quoteDouble
  else if field == "domains" then .seq false []
  else .scalar (.str "") .quoteSingle

/-- One round of the required-field loop of validateMetaSection: an absent
field is appended with its default and one ledger add; a present field other
than domains is value-checked. -/
def metaFieldStep (field : String) (st : MapOut) : MapOut :=
  match st.items.find? (fun it => it.1 == field) with
  | some it =>
    if field == "domains" then st
    else ⟨st.items, st.errs ++ validateMetaFieldValue field it.2, st.evs⟩
  | none =>
    ⟨st.items ++ [(field, metaFieldDefault field)], st.errs,
      st.evs ++ [.add ("Added missing required field: " ++ field)]⟩

/-- validateMetaSection from core/: a non-mapping $meta value is a terminal
type error; otherwise the five required fields are processed in order and the
domains field is then validated. -/
def validateMetaSection (metaVal : Node) : Node × List Diag × List FixEv :=
  match metaVal with
  | .map fl items =>
    let st0 : MapOut := ⟨items, [], []⟩
    let st1 := metaFieldStep "name" st0
    let st2 := metaFieldStep "purpose" st1
    let st3 := metaFieldStep "version" st2
    let st4 := metaFieldStep "spec" st3
    let st5 := metaFieldStep "domains" st4
    let st6 := validateDomainsField st5.items
    (.map fl st6.items, st5.errs ++ st6.errs, st5.evs ++ st6.evs)
  | _ => (metaVal, [⟨"LAML_META_INVALID_TYPE", []⟩], [])

/-! ## validateMandatorySections.ts and validateMetaPosition.ts -/

/-- Output of a document-level validation stage. -/
structure StageOut where
  doc : Doc
  errs : List Diag
  evs : List FixEv

/-- Index of the first entry with the given key. -/
def findKeyIdx (items : List (String × Node)) (key : String) : Option Nat :=
  items.findIdx? (fun it => it.1 == key)

/-- Move of the entry at the given index to the front (splice / unshift). -/
def moveToFront (items : List (String × Node)) (i : Nat) : List (String × Node) :=
  match items.get? i with
  | some it => it :: (items.take i ++ items.drop (i + 1))
  | none => items

/-- validateMandatorySections from core/: a non-mapping root is a terminal
error; a missing $meta mapping is synthesized at position 0 with one pushed
ledger entry; the (first) $meta entry is then validated as a meta section and
finally spliced to position 0 when it is not already first. -/
def validateMandatorySections (doc : Doc) : StageOut :=
  match doc with
  | some (Node.map fl items) =>
    let hasMeta := items.any (fun it => it.1 == "$meta")
    let items1 := if hasMeta then items else ("$meta", Node.map false []) :: items
    let evs1 : List FixEv := if hasMeta then [] else [.push "Added missing $meta section"]
    match items1.find? (fun it => it.1 == "$meta") with
    | some metaPair =>
      let m := validateMetaSection metaPair.2
      let items2 := setFirstValue items1 "$meta" m.1
      let isFirst := match items2.head? with
        | some hd => hd.1 == "$meta"
        | none => false
      let moved :=
        if isFirst then (items2, ([] : List FixEv))
        else match findKeyIdx items2 "$meta" with
          | some i =>
            if i > 0 then (moveToFront items2 i, [.push "Moved $meta section to first position"])
            else (items2, [])
          | none => (items2, [])
      ⟨some (.map fl moved.1), m.2.1, evs1 ++ m.2.2 ++ moved.2⟩
    | none => ⟨some (.map fl items1), [], evs1⟩
  | _ => ⟨doc, [⟨"LAML_INVALID_ROOT_STRUCTURE", []⟩], []⟩

/-- validateMetaPosition from structure/: on a nonempty mapping root whose
first entry is not $meta, an existing $meta entry is spliced to the front with
one ledger add, and a missing one is a terminal error. -/
def validateMetaPosition (doc : Doc) : StageOut :=
  match doc with
  | some (Node.map fl items) =>
    match items.head? with
    | none => ⟨doc, [], []⟩
    | some hd =>
      if hd.1 == "$meta" then ⟨doc, [], []⟩
      else match findKeyIdx items "$meta" with
        | some i =>
          if i > 0 then
            ⟨some (.map fl (moveToFront items i)), [],
              [.add "Moved $meta section to first position"]⟩
          else ⟨doc, [], []⟩
        | none => ⟨doc, [⟨"LAML_META_SECTION_MISSING", []⟩], []⟩
  | _ => ⟨doc, [], []⟩

end Laml

namespace Laml

/-! ## validateReferences.ts (the version with external-reference support) -/

/-- Diagnostics for one discovered reference, in source branch order: format
check, declared external reference, undeclared *$refs. reference, misplaced
$refs text, internal existence check. -/
def refDiag (doc : Doc) (externalRefs : List ExtRef) (env : FsEnv) (ref : String) : List Diag :=
  if !isValidReference ref then [⟨"LAML_INVALID_REFERENCE_FORMAT", [ref]⟩]
  else if (isExternalReference ref externalRefs).isExternal then
    match validateExternalReference ref externalRefs env with
    | some err => [⟨"LAML_EXTERNAL_REFERENCE_NOT_FOUND", [ref, err]⟩]
    | none => []
  else if strStartsWith ref "*$refs." then
    let refKey := ((lcSplitDot (ref.data.drop 7)).map String.mk).headD ""
    [⟨"LAML_EXTERNAL_REFERENCE_NOT_FOUND", [ref, refKey]⟩]
  else if strContainsStr ref "$refs" then [⟨"LAML_INVALID_REFERENCE_FORMAT", [ref]⟩]
  else if !referenceExists doc ref then [⟨"LAML_REFERENCE_NOT_FOUND", [ref]⟩]
  else []

/-- validateRefsSection: one error per declared external file that does not
exist. -/
def validateRefsSection (externalRefs : List ExtRef) (env : FsEnv) : List Diag :=
  externalRefs.filterMap (fun r =>
    if !env.fileExists r.path then some ⟨"LAML_EXTERNAL_FILE_NOT_FOUND", [r.key, r.path]⟩
    else none)

/-- validateReferences from references/: merge-key check first, then the
per-reference loop, then cycle detection restricted to internal references,
then the $refs section check.  The document is never mutated. -/
def validateReferences (env : FsEnv) (doc : Doc) : List Diag :=
  validateYamlMergeKeys doc ++
  (let externalRefs := extractRefsSection doc
   let references := findAllReferences doc
   (references.flatMap (refDiag doc externalRefs env)) ++
   (let internalReferences :=
      references.filter (fun r => !(isExternalReference r externalRefs).isExternal)
    (findCircularReferences doc internalReferences).map (fun cycle =>
      ⟨"LAML_CIRCULAR_REFERENCE", cycle⟩)) ++
   validateRefsSection externalRefs env)

/-! ## validateLaml.ts -/

/-- Classification of one yaml parser error message: merge-related messages
get the merge-key code, the rest the syntax-error code. -/
def astErrorDiag (msg : String) : Diag :=
  let lower := String.mk (lcLower msg.data)
  if strContainsStr lower "merge" || strContainsStr msg "<<" ||
      strContainsStr lower "unknown tag" then
    ⟨"LAML_YAML_MERGE_KEY_INVALID", [msg]⟩
  else ⟨"LAML_YAML_SYNTAX_ERROR", [msg]⟩

/-- Everything the validator pipeline produces from a parsed document: the
final document, errors and warnings in recording order, and the ledger events
in recording order. -/
structure PipeOut where
  doc : Doc
  errs : List Diag
  warns : List Diag
  evs : List FixEv

/-- Fixed stage order of validateLaml: mandatory sections, meta position,
merge keys, references (which re-runs the merge-key check first), value types,
alias conversion, structure principles, layout formatting. -/
def runPipeline (env : FsEnv) (d : Doc) : PipeOut :=
  let m := validateMandatorySections d
  let p := validateMetaPosition m.doc
  let e3 := validateYamlMergeKeys p.doc
  let e4 := validateReferences env p.doc
  let vt := validateValueTypes p.doc
  let al := convertAliasesToReferences vt.1
  let sp := validateStructurePrinciples al.1
  let fm := formatDataStructures sp
  ⟨fm.1,
    m.errs ++ p.errs ++ e3 ++ e4 ++ vt.2.1,
    vt.2.2.1,
    m.evs ++ p.evs ++ vt.2.2.2 ++ al.2 ++ fm.2⟩

/-- Result of validateLaml as returned to the caller. -/
structure RunResult where
  isValid : Bool
  hasFixedDocument : Bool
  doc : Doc
  errs : List Diag
  warns : List Diag
  autoFixedIssues : List String
  deriving Repr

/-- validateLaml from core/ (called without originalContent/filename, so the
yaml-wrapping step is skipped): a missing ast is a parse failure; otherwise
the ast error list is classified, the pipeline runs, the verdict is the
emptiness of the session error log (initial errors e0 included), and the
ledger is returned unconditionally.  fixedDocument is present exactly when at
least one correction was recorded. -/
def validateLaml (env : FsEnv) (ast : Option Doc) (astErrors : List String)
    (e0 : List Diag) : RunResult :=
  match ast with
  | none =>
    let errs : List Diag := [⟨"LAML_PARSE_FAILED", []⟩]
    ⟨(e0 ++ errs).isEmpty, false, none, errs, [], []⟩
  | some d =>
    let astDiags := astErrors.map astErrorDiag
    let r := runPipeline env d
    let errs := astDiags ++ r.errs
    let fixes := applyFixes [] r.evs
    ⟨(e0 ++ errs).isEmpty, !fixes.isEmpty, r.doc, errs, r.warns, fixes⟩

end Laml

namespace Laml

/-! ## Helpers and concrete documents used by the claim theorems -/

/-- Message carried by a ledger event. -/
def FixEv.msg : FixEv → String
  | .push m => m
  | .add m => m

/-- Test for an add (AutoFixManager) event. -/
def FixEv.isAdd : FixEv → Bool
  | .push _ => false
  | .add _ => true

/-- Key of the first root entry of a document. -/
def firstRootKey : Doc → Option String
  | some (.map _ ((k, _) :: _)) => some k
  | _ => none

/-- Fully valid $meta mapping used by the concrete runs. -/
def validMetaNode : Node := .map false [
  ("name", .scalar (.str "testDoc") .quoteSingle),
  ("purpose", .scalar (.str "Test document") .quoteDouble),
  ("version", .scalar (.num 1) .plain),
  ("spec", .scalar (.str "spec.mdc") .quoteSingle),
  ("domains", .seq true [.scalar (.str "test.domain") .quoteSingle])]

/-- Parse tree of the input section1:\n  property: 'value'\n. -/
def c4doc : Doc :=
  some (.map false [("section1", .map false [("property", .scalar (.str "value") .quoteSingle)])])

/-- Valid document with two sections holding the same coercible boolean pair. -/
def c3doc : Doc := some (.map false [
  ("$meta", validMetaNode),
  ("section1", .map false [("hasX", .scalar (.str "true") .quoteSingle)]),
  ("section2", .map false [("hasX", .scalar (.str "true") .quoteSingle)])])

/-- Fully valid document (no errors, no corrections). -/
def c1validDoc : Doc := some (.map false [("$meta", validMetaNode)])

/-- Document with the symmetric two-property reference cycle. -/
def c7doc1 : Doc := some (.map false [
  ("$meta", validMetaNode),
  ("section1", .map false [("ref", .scalar (.str "*section2.ref") .quoteSingle)]),
  ("section2", .map false [("ref", .scalar (.str "*section1.ref") .quoteSingle)])])

/-- Document with a self-referencing property. -/
def c7doc2 : Doc := some (.map false [
  ("$meta", validMetaNode),
  ("a", .map false [("b", .scalar (.str "*a.b") .quoteSingle)])])

/-- Meta entries whose domains sequence holds a duplicate string around a
non-string element. -/
def c6metaItems : List (String × Node) := [("domains", .seq true
  [.scalar (.str "a") .quoteSingle, .scalar (.num 5) .plain, .scalar (.str "a") .quoteSingle])]

/-- hasMergeKey on a document. -/
def hasMergeKeyDoc : Doc → Bool
  | none => false
  | some n => hasMergeKey n

/-- Removal of the domains entries of a $meta mapping value. -/
def stripMetaDomains : Node → Node
  | .map fl its => .map fl (its.filter (fun it => !(it.1 == "domains")))
  | n => n

/-- Removal of the domains entries of every root $meta mapping: the part of a
document that the duplicate-domains splice of validateDomainsField can never
delete from. -/
def stripRootMetaDomains : Doc → Doc
  | some (.map fl items) =>
    some (.map fl (items.map (fun it =>
      if it.1 == "$meta" then (it.1, stripMetaDomains it.2) else it)))
  | d => d

/-- Valid document whose only merge-key pair sits inside the $meta.domains
sequence next to a duplicated tag, where the misaligned duplicate splice
deletes it before the merge-key check runs. -/
def c9doc : Doc := some (.map false [
  ("$meta", .map false [
    ("name", .scalar (.str "testDoc") .quoteSingle),
    ("purpose", .scalar (.str "Test document") .quoteDouble),
    ("version", .scalar (.num 1) .plain),
    ("spec", .scalar (.str "spec.mdc") .quoteSingle),
    ("domains", .seq true [.scalar (.str "a") .quoteSingle,
                           .map false [("<<", .scalar (.str "x") .plain)],
                           .scalar (.str "a") .quoteSingle])])])

/-- Valid document carrying a merge-key pair in an ordinary section, outside
the root $meta.domains sequence. -/
def c9wdoc : Doc := some (.map false [
  ("$meta", validMetaNode),
  ("section1", .map false [("<<", .scalar (.str "x") .plain)])])

/-- Merge-pair predicate on one mapping entry. -/
def mergePairP (it : String × Node) : Bool := it.1 == "<<" || hasMergeKey it.2

/-- String-scalar test used by the domains analysis. -/
def isStrScalar : Node → Bool
  | .scalar (.str _) _ => true
  | _ => false

mutual
/-- Absence of YAML alias nodes anywhere in a node. -/
def aliasFree : Node → Bool
  | .scalar _ _ => true
  | .aliasNode _ => false
  | .map _ items => aliasFreeE items
  | .seq _ items => aliasFreeL items
def aliasFreeE : List (String × Node) → Bool
  | [] => true
  | (_, v) :: tl => aliasFree v && aliasFreeE tl
def aliasFreeL : List Node → Bool
  | [] => true
  | v :: tl => aliasFree v && aliasFreeL tl
end

/-- Absence of YAML alias nodes in a document. -/
def aliasFreeDoc : Doc → Bool
  | none => true
  | some n => aliasFree n

/-- Safety of a domains sequence for the duplicate splice: either the
collected string tags have no duplicates (so no splice happens), or every
item is a string scalar (so the splice indices are aligned). -/
def domainsSafe (items : List Node) : Bool :=
  (dedupFirst (domainsPass items).1).length == (domainsPass items).1.length
    || items.all isStrScalar

/-- Safety of the domains sequence of one $meta value. -/
def domainsSafeMeta : Node → Bool
  | .map _ mits =>
    (match mits.find? (fun it => it.1 == "domains") with
    | some dm =>
      match dm.2 with
      | .seq _ ds => domainsSafe ds
      | _ => true
    | none => true)
  | _ => true

/-- Safety of the domains sequence of the first root $meta entry; documents
without such a sequence are unconstrained. -/
def domainsSafeDoc : Doc → Bool
  | some (.map _ items) =>
    (match items.find? (fun it => it.1 == "$meta") with
    | some mp => domainsSafeMeta mp.2
    | none => true)
  | _ => true

/-- Value image of one mapping pair under the validateValueTypes pair
callback. -/
def vtVal (k : String) : Node → Node
  | .scalar v st => .scalar (processPairValue k v st).value (processPairValue k v st).style
  | v => (vtNode v).1

/-- Value image of one mapping pair under validateValueTypes followed by
formatDataStructures. -/
def vtFmtVal (k : String) (v : Node) : Node := (fmtNode (vtVal k v)).1

/-- dedupFirst relative to an already-seen prefix. -/
def dedupNew : List String → List String → List String
  | _, [] => []
  | seen, d :: tl => (if d ∈ seen then [] else [d]) ++ dedupNew (seen ++ [d]) tl

/-- removeIdxs with an explicit starting index. -/
def removeIdxsOff : Nat → List Node → List Nat → List Node
  | _, [], _ => []
  | i, x :: tl, bad => (if i ∈ bad then [] else [x]) ++ removeIdxsOff (i + 1) tl bad

/-- Valid document holding a YAML alias whose conversion to a reference
dangles: the anchor name is not a root property. -/
def c2doc : Doc := some (.map false [
  ("$meta", validMetaNode),
  ("x", .scalar (.str "value") .quoteSingle),
  ("y", .aliasNode "someAnchor")])

/-- Validation errors contributed by one required $meta field: those of the
first entry carrying the field name, none when the field is absent. -/
def fieldErr (its : List (String × Node)) (f : String) : List Diag :=
  match its.find? (fun it => it.1 == f) with
  | some it => validateMetaFieldValue f it.2
  | none => []

/-- Default entries appended by the required-field loop, in field order. -/
def missingDefaults (its : List (String × Node)) : List (String × Node) :=
  (["name", "purpose", "version", "spec", "domains"].filter
    (fun f => !(its.any (fun it => it.1 == f)))).map (fun f => (f, metaFieldDefault f))

/-- Format errors of a list of domain tags, in order. -/
def domFmtErrs (l : List String) : List Diag :=
  l.flatMap (fun d =>
    if !isValidDomainFormat d then [⟨"LAML_DOMAIN_INVALID_FORMAT", [d]⟩] else [])

/-! ## Theorems: decidable node equality -/

mutual
theorem Node.beq_eq : ∀ a b : Node, Node.beq a b = true ↔ a = b
  | .scalar v s, .scalar v' s' => by simp [Node.beq]
  | .scalar _ _, .map _ _ => by simp [Node.beq]
  | .scalar _ _, .seq _ _ => by simp [Node.beq]
  | .scalar _ _, .aliasNode _ => by simp [Node.beq]
  | .map _ _, .scalar _ _ => by simp [Node.beq]
  | .map f i, .map f' i' => by simp [Node.beq, Node.beqE_eq i i']
  | .map _ _, .seq _ _ => by simp [Node.beq]
  | .map _ _, .aliasNode _ => by simp [Node.beq]
  | .seq _ _, .scalar _ _ => by simp [Node.beq]
  | .seq _ _, .map _ _ => by simp [Node.beq]
  | .seq f i, .seq f' i' => by simp [Node.beq, Node.beqL_eq i i']
  | .seq _ _, .aliasNode _ => by simp [Node.beq]
  | .aliasNode _, .scalar _ _ => by simp [Node.beq]
  | .aliasNode _, .map _ _ => by simp [Node.beq]
  | .aliasNode _, .seq _ _ => by simp [Node.beq]
  | .aliasNode a, .aliasNode a' => by simp [Node.beq]
theorem Node.beqE_eq : ∀ a b : List (String × Node), Node.beqE a b = true ↔ a = b
  | [], [] => by simp [Node.beqE]
  | [], _ :: _ => by simp [Node.beqE]
  | _ :: _, [] => by simp [Node.beqE]
  | (k, v) :: tl, (k', v') :: tl' => by
      simp [Node.beqE, Node.beq_eq v v', Node.beqE_eq tl tl', and_assoc]
theorem Node.beqL_eq : ∀ a b : List Node, Node.beqL a b = true ↔ a = b
  | [], [] => by simp [Node.beqL]
  | [], _ :: _ => by simp [Node.beqL]
  | _ :: _, [] => by simp [Node.beqL]
  | v :: tl, v' :: tl' => by
      simp [Node.beqL, Node.beq_eq v v', Node.beqL_eq tl tl']
end

instance : DecidableEq Node := fun a b => decidable_of_iff _ (Node.beq_eq a b)

/-! ## Layout normalization lemmas -/

mutual
theorem render_fmt : ∀ n : Node, getNodeStringValue (fmtNode n).1 = getNodeStringValue n
  | .scalar v s => by simp [fmtNode]
  | .aliasNode a => by simp [fmtNode]
  | .map fl items => by
      simp [fmtNode, getNodeStringValue, getInlineMapString, renderE_fmt items]
  | .seq fl items => by
      simp [fmtNode, getNodeStringValue, getInlineSequenceString, renderL_fmt items]
theorem renderE_fmt : ∀ items : List (String × Node),
    mapPairStrings (fmtEntries items).1 = mapPairStrings items
  | [] => by simp [fmtEntries]
  | (k, v) :: tl => by
      simp [fmtEntries, mapPairStrings, render_fmt v, renderE_fmt tl]
theorem renderL_fmt : ∀ items : List Node,
    seqItemStrings (fmtList items).1 = seqItemStrings items
  | [] => by simp [fmtList]
  | v :: tl => by
      cases v with
      | scalar sv st => simp [fmtList, fmtNode, seqItemStrings, renderL_fmt tl]
      | aliasNode a => simp [fmtList, fmtNode, seqItemStrings, renderL_fmt tl]
      | map f i =>
          simp only [fmtList, fmtNode]
          simp [seqItemStrings, renderL_fmt tl]
      | seq f i =>
          simp only [fmtList, fmtNode]
          simp [seqItemStrings, renderL_fmt tl]
end

/-- fmtEntries preserves emptiness of the entry list. -/
theorem fmtEntries_isEmpty (items : List (String × Node)) :
    (fmtEntries items).1.isEmpty = items.isEmpty := by
  cases items with
  | nil => simp [fmtEntries]
  | cons hd tl => cases hd with | _ k v => simp [fmtEntries]

/-- fmtList preserves emptiness of the item list. -/
theorem fmtList_isEmpty (items : List Node) :
    (fmtList items).1.isEmpty = items.isEmpty := by
  cases items with
  | nil => simp [fmtList]
  | cons hd tl => simp [fmtList]

mutual
theorem fmt_normalized : ∀ n : Node, layoutNormalized (fmtNode n).1 = true
  | .scalar v s => by simp [fmtNode, layoutNormalized]
  | .aliasNode a => by simp [fmtNode, layoutNormalized]
  | .map fl items => by
      cases items with
      | nil => simp [fmtNode, fmtEntries, layoutNormalized, layoutNormalizedE]
      | cons hd tl =>
          have hren := renderE_fmt (hd :: tl)
          have hne : (fmtEntries (hd :: tl)).1.isEmpty = false := by
            rw [fmtEntries_isEmpty]; rfl
          have hnorm := fmtE_normalized (hd :: tl)
          simp only [fmtNode, layoutNormalized, List.isEmpty_cons, Bool.false_eq_true,
            if_false, getInlineMapString]
          simp only [hren, hne, hnorm]
          simp [getInlineMapString]
  | .seq fl items => by
      cases items with
      | nil => simp [fmtNode, fmtList, layoutNormalized, layoutNormalizedL]
      | cons hd tl =>
          have hren := renderL_fmt (hd :: tl)
          have hne : (fmtList (hd :: tl)).1.isEmpty = false := by
            rw [fmtList_isEmpty]; rfl
          have hnorm := fmtL_normalized (hd :: tl)
          simp only [fmtNode, layoutNormalized, List.isEmpty_cons, Bool.false_eq_true,
            if_false, getInlineSequenceString]
          simp only [hren, hne, hnorm]
          simp [getInlineSequenceString]
theorem fmtE_normalized : ∀ items : List (String × Node),
    layoutNormalizedE (fmtEntries items).1 = true
  | [] => by simp [fmtEntries, layoutNormalizedE]
  | (k, v) :: tl => by
      simp [fmtEntries, layoutNormalizedE, fmt_normalized v, fmtE_normalized tl]
theorem fmtL_normalized : ∀ items : List Node,
    layoutNormalizedL (fmtList items).1 = true
  | [] => by simp [fmtList, layoutNormalizedL]
  | v :: tl => by
      simp [fmtList, layoutNormalizedL, fmt_normalized v, fmtL_normalized tl]
end

mutual
theorem fmt_of_normalized : ∀ n : Node, layoutNormalized n = true → fmtNode n = (n, [])
  | .scalar v s, _ => by simp [fmtNode]
  | .aliasNode a, _ => by simp [fmtNode]
  | .map fl items, h => by
      cases items with
      | nil => simp [fmtNode, fmtEntries]
      | cons hd tl =>
          simp only [layoutNormalized, List.isEmpty_cons, Bool.false_or,
            Bool.and_eq_true, beq_iff_eq] at h
          have he := fmtE_of_normalized (hd :: tl) h.2
          simp [fmtNode, he, h.1]
  | .seq fl items, h => by
      cases items with
      | nil => simp [fmtNode, fmtList]
      | cons hd tl =>
          simp only [layoutNormalized, List.isEmpty_cons, Bool.false_or,
            Bool.and_eq_true, beq_iff_eq] at h
          have he := fmtL_of_normalized (hd :: tl) h.2
          simp [fmtNode, he, h.1]
theorem fmtE_of_normalized : ∀ items : List (String × Node),
    layoutNormalizedE items = true → fmtEntries items = (items, [])
  | [], _ => by simp [fmtEntries]
  | (k, v) :: tl, h => by
      simp only [layoutNormalizedE, Bool.and_eq_true] at h
      simp [fmtEntries, fmt_of_normalized v h.1, fmtE_of_normalized tl h.2]
theorem fmtL_of_normalized : ∀ items : List Node,
    layoutNormalizedL items = true → fmtList items = (items, [])
  | [], _ => by simp [fmtList]
  | v :: tl, h => by
      simp only [layoutNormalizedL, Bool.and_eq_true] at h
      simp [fmtList, fmt_of_normalized v h.1, fmtL_of_normalized tl h.2]
end

end Laml

namespace Laml

mutual
theorem normalized_of_fmt_nil : ∀ n : Node, (fmtNode n).2 = [] → layoutNormalized n = true
  | .scalar v s, _ => by simp [layoutNormalized]
  | .aliasNode a, _ => by simp [layoutNormalized]
  | .map fl items, h => by
      cases items with
      | nil => simp [layoutNormalized, layoutNormalizedE]
      | cons hd tl =>
          have hsplit : (fmtNode (Node.map fl (hd :: tl))).2
              = (if ((hd :: tl).isEmpty
                    || (decide ((getInlineMapString (hd :: tl)).length ≤ MAX_INLINE_LENGTH) == fl))
                 then ([] : List FixEv)
                 else [.add "Reformatted object structure for optimal readability"])
                ++ (fmtEntries (hd :: tl)).2 := by
            simp [fmtNode]
          rw [hsplit] at h
          rcases List.append_eq_nil.mp h with ⟨h1, h2⟩
          have h2n := normalizedE_of_fmt_nil (hd :: tl) h2
          by_cases hb : decide ((getInlineMapString (hd :: tl)).length ≤ MAX_INLINE_LENGTH) = fl
          · simp [layoutNormalized, h2n, hb.symm]
          · exfalso
            rw [if_neg] at h1
            · simp at h1
            · simp [hb]
  | .seq fl items, h => by
      cases items with
      | nil => simp [layoutNormalized, layoutNormalizedL]
      | cons hd tl =>
          have hsplit : (fmtNode (Node.seq fl (hd :: tl))).2
              = (if ((hd :: tl).isEmpty
                    || (decide ((getInlineSequenceString (hd :: tl)).length ≤ MAX_INLINE_LENGTH) == fl))
                 then ([] : List FixEv)
                 else [.add "Reformatted array structure for optimal readability"])
                ++ (fmtList (hd :: tl)).2 := by
            simp [fmtNode]
          rw [hsplit] at h
          rcases List.append_eq_nil.mp h with ⟨h1, h2⟩
          have h2n := normalizedL_of_fmt_nil (hd :: tl) h2
          by_cases hb : decide ((getInlineSequenceString (hd :: tl)).length ≤ MAX_INLINE_LENGTH) = fl
          · simp [layoutNormalized, h2n, hb.symm]
          · exfalso
            rw [if_neg] at h1
            · simp at h1
            · simp [hb]
theorem normalizedE_of_fmt_nil : ∀ items : List (String × Node),
    (fmtEntries items).2 = [] → layoutNormalizedE items = true
  | [], _ => by simp [layoutNormalizedE]
  | (k, v) :: tl, h => by
      simp only [fmtEntries, List.append_eq_nil] at h
      simp [layoutNormalizedE, normalized_of_fmt_nil v h.1, normalizedE_of_fmt_nil tl h.2]
theorem normalizedL_of_fmt_nil : ∀ items : List Node,
    (fmtList items).2 = [] → layoutNormalizedL items = true
  | [], _ => by simp [layoutNormalizedL]
  | v :: tl, h => by
      simp only [fmtList, List.append_eq_nil] at h
      simp [layoutNormalizedL, normalized_of_fmt_nil v h.1, normalizedL_of_fmt_nil tl h.2]
end

end Laml

namespace Laml

/-- C8: after formatDataStructures every non-empty mapping or sequence of the
document is in flow (inline) form exactly when its canonical single-line
rendering is at most 50 characters (layoutNormalized); a run emits no ledger
entry exactly when every container already agrees with that rule, and then
changes nothing, so flags are flipped and entries emitted only on
disagreement at the affected depth; empty containers are returned untouched;
and re-running the normalizer on its own output changes nothing and emits no
further correction. -/
theorem c8_layout_threshold (d : Doc) :
    (∀ n, (formatDataStructures d).1 = some n → layoutNormalized n = true) ∧
    (∀ n, d = some n → layoutNormalized n = true → formatDataStructures d = (d, [])) ∧
    (∀ n, d = some n → ((formatDataStructures d).2 = [] ↔ layoutNormalized n = true)) ∧
    formatDataStructures (formatDataStructures d).1 = ((formatDataStructures d).1, []) ∧
    (∀ fl, fmtNode (.map fl []) = (.map fl [], [])) ∧
    (∀ fl, fmtNode (.seq fl []) = (.seq fl [], [])) := by
  cases d with
  | none =>
      refine ⟨?_, ?_, ?_, ?_, ?_, ?_⟩
      · intro n h; simp [formatDataStructures] at h
      · intro n h; cases h
      · intro n h; cases h
      · simp [formatDataStructures]
      · intro fl; simp [fmtNode, fmtEntries]
      · intro fl; simp [fmtNode, fmtList]
  | some n0 =>
      refine ⟨?_, ?_, ?_, ?_, ?_, ?_⟩
      · intro n h
        simp only [formatDataStructures, Option.some.injEq] at h
        rw [← h]; exact fmt_normalized n0
      · intro n h hn
        cases h
        simp [formatDataStructures, fmt_of_normalized n0 hn]
      · intro n h
        cases h
        constructor
        · intro he
          exact normalized_of_fmt_nil n0 (by simpa [formatDataStructures] using he)
        · intro hn
          simp [formatDataStructures, fmt_of_normalized n0 hn]
      · simp [formatDataStructures, fmt_of_normalized (fmtNode n0).1 (fmt_normalized n0)]
      · intro fl; simp [fmtNode, fmtEntries]
      · intro fl; simp [fmtNode, fmtList]

/-- Witness for c8_layout_threshold: a short flow mapping is already
normalized and is returned untouched with no ledger entry. -/
theorem c8_layout_threshold_witness :
    formatDataStructures (some (.map true [("a", .scalar (.str "x") .quoteSingle)]))
      = (some (.map true [("a", .scalar (.str "x") .quoteSingle)]), []) :=
  (c8_layout_threshold (some (.map true [("a", .scalar (.str "x") .quoteSingle)]))).2.1
    (.map true [("a", .scalar (.str "x") .quoteSingle)]) rfl (by decide)

/-- C5: for a mapping pair whose key is a boolean trigger and whose scalar
value is text that does not start with a star, the strings true/yes/1 are
replaced by boolean true with exactly one pushed correction, false/no/0 by
boolean false with exactly one pushed correction, and any other text yields
exactly one LAML_INVALID_BOOLEAN_VALUE error, no correction, and an unchanged
value. -/
theorem c5_boolean_coercion (k s : String) (st : SStyle)
    (htrig : isBooleanTrigger k = true)
    (hstar : strStartsWith s "*" = false) :
    ((s = "true" ∨ s = "yes" ∨ s = "1") →
      processPairValue k (.str s) st =
        ⟨.bool true, .undef, [], [],
          [.push ("Fixed boolean value for " ++ k ++ ": " ++ s ++ " -> true")]⟩) ∧
    ((s = "false" ∨ s = "no" ∨ s = "0") →
      processPairValue k (.str s) st =
        ⟨.bool false, .undef, [], [],
          [.push ("Fixed boolean value for " ++ k ++ ": " ++ s ++ " -> false")]⟩) ∧
    (s ∉ (["true", "yes", "1", "false", "no", "0"] : List String) →
      processPairValue k (.str s) st =
        ⟨.str s, st, [⟨"LAML_INVALID_BOOLEAN_VALUE", [k, s]⟩], [], []⟩) := by
  refine ⟨?_, ?_, ?_⟩ <;> intro h
  · rcases h with h | h | h <;> subst h <;> simp [processPairValue, hstar, htrig]
  · rcases h with h | h | h <;> subst h <;> simp [processPairValue, hstar, htrig]
  · have h' : s ≠ "true" ∧ s ≠ "yes" ∧ s ≠ "1" ∧ s ≠ "false" ∧ s ≠ "no" ∧ s ≠ "0" := by
      simpa [not_or] using h
    simp [processPairValue, hstar, htrig, h'.1, h'.2.1, h'.2.2.1, h'.2.2.2.1,
      h'.2.2.2.2.1, h'.2.2.2.2.2]

/-- Witness for c5_boolean_coercion at key hasX and value yes. -/
theorem c5_boolean_coercion_witness :
    processPairValue "hasX" (.str "yes") .plain =
      ⟨.bool true, .undef, [], [],
        [.push ("Fixed boolean value for " ++ "hasX" ++ ": " ++ "yes" ++ " -> true")]⟩ :=
  (c5_boolean_coercion "hasX" "yes" .plain (by decide) (by decide)).1 (Or.inr (Or.inl rfl))

/-- C10: a boolean-trigger key whose scalar value is neither a boolean nor one
of the six exact coercion strings (in particular a number 1 or 0, which strict
equality never matches, or null) is not coerced: exactly one
LAML_INVALID_BOOLEAN_VALUE error is recorded and the value and style are left
unchanged. -/
theorem c10_no_boolean_coercion (k : String) (v : SVal) (st : SStyle)
    (htrig : isBooleanTrigger k = true)
    (hnb : ∀ b, v ≠ SVal.bool b)
    (hstar : ∀ s, v = SVal.str s → strStartsWith s "*" = false)
    (hnc : ∀ s, v = SVal.str s → s ∉ (["true", "yes", "1", "false", "no", "0"] : List String)) :
    processPairValue k v st =
      ⟨v, st, [⟨"LAML_INVALID_BOOLEAN_VALUE", [k, v.display]⟩], [], []⟩ := by
  cases v with
  | str s =>
      have := (c5_boolean_coercion k s st htrig (hstar s rfl)).2.2 (hnc s rfl)
      simpa [SVal.display] using this
  | bool b => exact absurd rfl (hnb b)
  | num n => simp [processPairValue, htrig]
  | null => simp [processPairValue, htrig]

/-- Witness for c10_no_boolean_coercion at key hasX and the number 1. -/
theorem c10_no_boolean_coercion_witness :
    processPairValue "hasX" (.num 1) .plain =
      ⟨.num 1, .plain, [⟨"LAML_INVALID_BOOLEAN_VALUE", ["hasX", "1"]⟩], [], []⟩ := by
  have h := c10_no_boolean_coercion "hasX" (.num 1) .plain (by decide)
    (by intro b; cases b <;> decide) (fun s h => by cases h) (fun s h => by cases h)
  simpa [SVal.display] using h

end Laml

namespace Laml

/-! ## Ledger lemmas -/

theorem applyFixes_sublist : ∀ (evs : List FixEv) (acc : List String),
    (applyFixes acc evs).Sublist (acc ++ evs.map FixEv.msg)
  | [], acc => by simp [applyFixes]
  | .push m :: tl, acc => by
      have h := applyFixes_sublist tl (acc ++ [m])
      simpa [applyFixes, FixEv.msg] using h
  | .add m :: tl, acc => by
      by_cases hm : m ∈ acc
      · have h := applyFixes_sublist tl acc
        have h2 : (acc ++ List.map FixEv.msg tl).Sublist (acc ++ m :: List.map FixEv.msg tl) :=
          List.Sublist.append_left (List.sublist_cons_self m (List.map FixEv.msg tl)) acc
        simpa [applyFixes, hm, FixEv.msg] using h.trans h2
      · have h := applyFixes_sublist tl (acc ++ [m])
        simpa [applyFixes, hm, FixEv.msg] using h

theorem applyFixes_nodup : ∀ (evs : List FixEv) (acc : List String),
    acc.Nodup → evs.all FixEv.isAdd = true → (applyFixes acc evs).Nodup
  | [], acc, hacc, _ => by simpa [applyFixes] using hacc
  | .push m :: tl, acc, hacc, hall => by simp [FixEv.isAdd] at hall
  | .add m :: tl, acc, hacc, hall => by
      simp only [List.all_cons, Bool.and_eq_true, FixEv.isAdd] at hall
      by_cases hm : m ∈ acc
      · simpa [applyFixes, hm] using applyFixes_nodup tl acc hacc hall.2
      · have hacc' : (acc ++ [m]).Nodup := by
          simp [List.nodup_append, hacc, hm]
        simpa [applyFixes, hm] using applyFixes_nodup tl (acc ++ [m]) hacc' hall.2

theorem applyFixes_mem : ∀ (evs : List FixEv) (acc : List String) (m : String),
    m ∈ applyFixes acc evs ↔ m ∈ acc ∨ ∃ ev ∈ evs, FixEv.msg ev = m
  | [], acc, m => by simp [applyFixes]
  | .push m' :: tl, acc, m => by
      rw [applyFixes, applyFixes_mem tl (acc ++ [m']) m]
      simp only [List.mem_append, List.mem_singleton, List.mem_cons]
      constructor
      · rintro ((h | h) | h)
        · exact Or.inl h
        · have h' : m = m' := by simpa using h
          exact Or.inr ⟨.push m', Or.inl rfl, by simp [FixEv.msg, h']⟩
        · rcases h with ⟨ev, hev, hmsg⟩; exact Or.inr ⟨ev, Or.inr hev, hmsg⟩
      · rintro (h | ⟨ev, (rfl | hev), hmsg⟩)
        · exact Or.inl (Or.inl h)
        · exact Or.inl (Or.inr (by simpa [FixEv.msg] using hmsg.symm))
        · exact Or.inr ⟨ev, hev, hmsg⟩
  | .add m' :: tl, acc, m => by
      by_cases hm : m' ∈ acc
      · rw [applyFixes, if_pos hm, applyFixes_mem tl acc m]
        simp only [List.mem_cons]
        constructor
        · rintro (h | ⟨ev, hev, hmsg⟩)
          · exact Or.inl h
          · exact Or.inr ⟨ev, Or.inr hev, hmsg⟩
        · rintro (h | ⟨ev, (rfl | hev), hmsg⟩)
          · exact Or.inl h
          · exact Or.inl (by simp only [FixEv.msg] at hmsg; rw [← hmsg]; exact hm)
          · exact Or.inr ⟨ev, hev, hmsg⟩
      · rw [applyFixes, if_neg hm, applyFixes_mem tl (acc ++ [m']) m]
        simp only [List.mem_append, List.mem_singleton, List.mem_cons]
        constructor
        · rintro ((h | h) | h)
          · exact Or.inl h
          · have h' : m = m' := by simpa using h
            exact Or.inr ⟨.add m', Or.inl rfl, by simp [FixEv.msg, h']⟩
          · rcases h with ⟨ev, hev, hmsg⟩; exact Or.inr ⟨ev, Or.inr hev, hmsg⟩
        · rintro (h | ⟨ev, (rfl | hev), hmsg⟩)
          · exact Or.inl (Or.inl h)
          · exact Or.inl (Or.inr (by simpa [FixEv.msg] using hmsg.symm))
          · exact Or.inr ⟨ev, hev, hmsg⟩

end Laml

namespace Laml

/-! ## Dependency-graph lemmas -/

theorem dgInsert_mem : ∀ (g : List (String × String)) (k v a b : String),
    (a, b) ∈ dgInsert g k v → (a, b) ∈ g ∨ (a = k ∧ b = v)
  | [], k, v, a, b => by
      intro h
      simp only [dgInsert, List.mem_singleton, Prod.mk.injEq] at h
      exact Or.inr h
  | (k', v') :: tl, k, v, a, b => by
      intro h
      by_cases hk : k' == k
      · rw [dgInsert, if_pos hk] at h
        rcases List.mem_cons.mp h with h | h
        · rcases Prod.mk.injEq .. ▸ h with ⟨rfl, rfl⟩
          exact Or.inr ⟨(beq_iff_eq.mp hk).symm ▸ rfl, rfl⟩
        · exact Or.inl (List.mem_cons_of_mem _ h)
      · rw [dgInsert, if_neg (by simpa using hk)] at h
        rcases List.mem_cons.mp h with h | h
        · exact Or.inl (List.mem_cons.mpr (Or.inl h))
        · rcases dgInsert_mem tl k v a b h with h | h
          · exact Or.inl (List.mem_cons_of_mem _ h)
          · exact Or.inr h

theorem buildDependencyGraph_mem (doc : Doc) : ∀ (refs : List String)
    (g0 : List (String × String)) (src tgt : String),
    (src, tgt) ∈ buildDependencyGraph doc refs g0 →
    (src, tgt) ∈ g0 ∨ ∃ ref ∈ refs, tgt = String.mk (ref.data.drop 1) ∧
      referenceExists doc ref = true ∧
      findPropertyContainingReference doc ref = some src
  | [], g0, src, tgt => by
      intro h
      exact Or.inl (by simpa [buildDependencyGraph] using h)
  | ref :: rest, g0, src, tgt => by
      intro h
      rw [buildDependencyGraph] at h
      rcases hfind : findPropertyContainingReference doc ref with _ | found
      · rw [hfind] at h
        rcases buildDependencyGraph_mem doc rest g0 src tgt h with h | ⟨r, hr, hrest⟩
        · exact Or.inl h
        · exact Or.inr ⟨r, List.mem_cons_of_mem _ hr, hrest⟩
      · rw [hfind] at h
        dsimp only at h
        by_cases hex : referenceExists doc ref
        · rw [if_pos hex] at h
          rcases buildDependencyGraph_mem doc rest (dgInsert g0 found (String.mk (ref.data.drop 1)))
              src tgt h with h | ⟨r, hr, hrest⟩
          · rcases dgInsert_mem g0 found (String.mk (ref.data.drop 1)) src tgt h with h | ⟨rfl, rfl⟩
            · exact Or.inl h
            · exact Or.inr ⟨ref, List.mem_cons_self .., rfl, hex, hfind⟩
          · exact Or.inr ⟨r, List.mem_cons_of_mem _ hr, hrest⟩
        · rw [if_neg hex] at h
          rcases buildDependencyGraph_mem doc rest g0 src tgt h with h | ⟨r, hr, hrest⟩
          · exact Or.inl h
          · exact Or.inr ⟨r, List.mem_cons_of_mem _ hr, hrest⟩

/-! ## Claim theorems C1, C3, C4, C6, C7 -/

/-- C1 (amended): the verdict of validateLaml is true exactly when the session
error log is empty at the end of the run, which for a session that starts
empty is exactly "zero errors were recorded during the run"; the ledger never
influences the verdict, and the full correction ledger of the run is returned
whatever the verdict is. -/
theorem c1_verdict_iff_no_errors (env : FsEnv) (astErrors : List String) (e0 : List Diag) :
    (∀ ast : Option Doc,
      ((validateLaml env ast astErrors e0).isValid = true ↔
        (e0 = [] ∧ (validateLaml env ast astErrors e0).errs = []))) ∧
    (∀ d : Doc,
      (validateLaml env (some d) astErrors e0).autoFixedIssues
        = applyFixes [] (runPipeline env d).evs) := by
  constructor
  · intro ast
    cases ast with
    | none => simp [validateLaml]
    | some d => simp [validateLaml]
  · intro d
    simp [validateLaml]

/-- Witness for c1_verdict_iff_no_errors on the empty environment and a
trivial document. -/
theorem c1_verdict_iff_no_errors_witness :
    ((validateLaml emptyFs (some c1validDoc) [] []).isValid = true ↔
      (([] : List Diag) = [] ∧ (validateLaml emptyFs (some c1validDoc) [] []).errs = [])) ∧
    (validateLaml emptyFs (some c1validDoc) [] []).autoFixedIssues
      = applyFixes [] (runPipeline emptyFs c1validDoc).evs :=
  ⟨(c1_verdict_iff_no_errors emptyFs [] []).1 (some c1validDoc),
    (c1_verdict_iff_no_errors emptyFs [] []).2 c1validDoc⟩

/-- C1 counterexample: a run over a fully valid document records zero errors,
yet with a session whose error log was already non-empty the returned verdict
is false, against the claim that the verdict is true iff zero errors were
recorded during that run. -/
theorem c1_counterexample :
    (validateLaml emptyFs (some c1validDoc) [] [⟨"SOME_EARLIER_ERROR", []⟩]).errs = [] ∧
    (validateLaml emptyFs (some c1validDoc) [] [⟨"SOME_EARLIER_ERROR", []⟩]).isValid = false := by
  decide

/-- C3 counterexample: a run of validateLaml in which validateValueTypes fixes
two identical boolean pairs pushes the same correction string twice, so the
returned autoFixedIssues list is not deduplicated. -/
theorem c3_counterexample :
    (validateLaml emptyFs (some c3doc) [] []).autoFixedIssues
      = ["Fixed boolean value for hasX: true -> true",
         "Fixed boolean value for hasX: true -> true",
         "Reformatted object structure for optimal readability"] ∧
    ¬ (validateLaml emptyFs (some c3doc) [] []).autoFixedIssues.Nodup := by decide

/-- C3 (amended): corrections recorded through AutoFixManager.add (the add
ledger events) are deduplicated by exact string equality with insertion order
preserved — over a run whose events are all adds the resulting ledger has no
two equal strings, is a subsequence of the event messages, and contains
exactly the added messages; corrections pushed directly onto the
autoFixedIssues array bypass this deduplication. -/
theorem c3_ledger_dedup (evs : List FixEv) (hadd : evs.all FixEv.isAdd = true) :
    (applyFixes [] evs).Nodup ∧
    (applyFixes [] evs).Sublist (evs.map FixEv.msg) ∧
    (∀ m, m ∈ applyFixes [] evs ↔ FixEv.add m ∈ evs) := by
  refine ⟨applyFixes_nodup evs [] List.nodup_nil hadd,
    by simpa using applyFixes_sublist evs [], ?_⟩
  intro m
  rw [applyFixes_mem evs [] m]
  simp only [List.not_mem_nil, false_or]
  constructor
  · rintro ⟨ev, hev, hmsg⟩
    cases ev with
    | push m' =>
        have := List.all_eq_true.mp hadd _ hev
        simp [FixEv.isAdd] at this
    | add m' => simp only [FixEv.msg] at hmsg; exact hmsg ▸ hev
  · intro h
    exact ⟨.add m, h, rfl⟩

/-- Witness for c3_ledger_dedup on a repeated add. -/
theorem c3_ledger_dedup_witness :
    (applyFixes [] [.add "a", .add "b", .add "a"]).Nodup ∧
    (applyFixes [] [.add "a", .add "b", .add "a"]).Sublist
      (List.map FixEv.msg [.add "a", .add "b", .add "a"]) ∧
    (∀ m, m ∈ applyFixes [] [.add "a", .add "b", .add "a"] ↔
      FixEv.add m ∈ ([.add "a", .add "b", .add "a"] : List FixEv)) :=
  c3_ledger_dedup [.add "a", .add "b", .add "a"] (by decide)

/-- C4: on the parse tree of section1:\n  property: 'value'\n the run is
invalid with exactly the empty-domains error, the ledger contains (in order)
the added $meta section and one entry per synthesized required field, and the
first root entry of the corrected document is $meta. -/
theorem c4_missing_meta_end_to_end :
    (validateLaml emptyFs (some c4doc) [] []).isValid = false ∧
    (validateLaml emptyFs (some c4doc) [] []).errs = [⟨"LAML_DOMAINS_EMPTY", []⟩] ∧
    (["Added missing $meta section",
      "Added missing required field: name",
      "Added missing required field: purpose",
      "Added missing required field: version",
      "Added missing required field: spec",
      "Added missing required field: domains"]).Sublist
      (validateLaml emptyFs (some c4doc) [] []).autoFixedIssues ∧
    firstRootKey (validateLaml emptyFs (some c4doc) [] []).doc = some "$meta" := by decide

/-- C6: on domains ['a', 5, 'a'] the splice removes indices computed against
the strings-only array from the raw item list, deleting the non-string element
and keeping both copies of 'a', while still pushing the dedup ledger entry —
against the claim (and the source's own comment) that exact duplicate tags are
removed keeping the first occurrence. -/
theorem c6_domains_dedup_failing_input :
    (validateDomainsField c6metaItems).items
      = [("domains", .seq true
          [.scalar (.str "a") .quoteSingle, .scalar (.str "a") .quoteSingle])] ∧
    (validateDomainsField c6metaItems).evs = [.push "Removed duplicate domains: a"] ∧
    (validateDomainsField c6metaItems).errs = [⟨"LAML_DOMAIN_INVALID_TYPE", []⟩] := by decide

/-- C7: the symmetric two-property cycle yields exactly one circular-reference
diagnostic whose cycle list has three entries (length at least 2); a
self-referencing property yields exactly one diagnostic with the 1-node cycle
listed twice; and every edge of the cycle dependency graph comes from a
discovered reference whose containing property was found and whose target
passed the existence check. -/
theorem c7_circular_references :
    ((validateLaml emptyFs (some c7doc1) [] []).errs.filter
        (fun e => e.code == "LAML_CIRCULAR_REFERENCE"))
      = [⟨"LAML_CIRCULAR_REFERENCE", ["section1.ref", "section2.ref", "section1.ref"]⟩] ∧
    ((validateLaml emptyFs (some c7doc2) [] []).errs.filter
        (fun e => e.code == "LAML_CIRCULAR_REFERENCE"))
      = [⟨"LAML_CIRCULAR_REFERENCE", ["a.b", "a.b"]⟩] ∧
    (∀ (doc : Doc) (refs : List String) (src tgt : String),
      (src, tgt) ∈ buildDependencyGraph doc refs [] →
        ∃ ref ∈ refs, tgt = String.mk (ref.data.drop 1) ∧
          referenceExists doc ref = true ∧
          findPropertyContainingReference doc ref = some src) := by
  refine ⟨by decide, by decide, ?_⟩
  intro doc refs src tgt h
  rcases buildDependencyGraph_mem doc refs [] src tgt h with h | h
  · simp at h
  · exact h

/-- Witness for c7_circular_references, applying the edge characterization to
the self-cycle document. -/
theorem c7_circular_references_witness :
    ∃ ref ∈ (["*a.b"] : List String), "a.b" = String.mk (ref.data.drop 1) ∧
      referenceExists c7doc2 ref = true ∧
      findPropertyContainingReference c7doc2 ref = some "a.b" :=
  c7_circular_references.2.2 c7doc2 ["*a.b"] "a.b" "a.b" (by decide)

end Laml

namespace Laml

/-! ## Merge-key preservation lemmas -/

theorem hasMergeKeyE_eq_any : ∀ items : List (String × Node),
    hasMergeKeyE items = items.any (fun it => it.1 == "<<" || hasMergeKey it.2)
  | [] => by simp [hasMergeKeyE]
  | (k, v) :: tl => by
      simp [hasMergeKeyE, hasMergeKeyE_eq_any tl, Bool.or_assoc]

theorem hasMergeKeyL_eq_any : ∀ items : List Node,
    hasMergeKeyL items = items.any hasMergeKey
  | [] => by simp [hasMergeKeyL]
  | v :: tl => by simp [hasMergeKeyL, hasMergeKeyL_eq_any tl]

mutual
theorem mergeKeyDiags_mem : ∀ n : Node, hasMergeKey n = true →
    (⟨"LAML_YAML_MERGE_KEY_INVALID", []⟩ : Diag) ∈ mergeKeyDiags n
  | .scalar _ _, h => by simp [hasMergeKey] at h
  | .aliasNode _, h => by simp [hasMergeKey] at h
  | .map _ items, h => by
      simp only [hasMergeKey] at h
      simpa [mergeKeyDiags] using mergeKeyDiagsE_mem items h
  | .seq _ items, h => by
      simp only [hasMergeKey] at h
      simpa [mergeKeyDiags] using mergeKeyDiagsL_mem items h
theorem mergeKeyDiagsE_mem : ∀ items : List (String × Node), hasMergeKeyE items = true →
    (⟨"LAML_YAML_MERGE_KEY_INVALID", []⟩ : Diag) ∈ mergeKeyDiagsE items
  | (k, v) :: tl, h => by
      simp only [hasMergeKeyE, Bool.or_eq_true] at h
      rcases h with (h | h) | h
      · simp [mergeKeyDiagsE, h]
      · simp [mergeKeyDiagsE, mergeKeyDiags_mem v h]
      · simp [mergeKeyDiagsE, mergeKeyDiagsE_mem tl h]
theorem mergeKeyDiagsL_mem : ∀ items : List Node, hasMergeKeyL items = true →
    (⟨"LAML_YAML_MERGE_KEY_INVALID", []⟩ : Diag) ∈ mergeKeyDiagsL items
  | v :: tl, h => by
      simp only [hasMergeKeyL, Bool.or_eq_true] at h
      rcases h with h | h
      · simp [mergeKeyDiagsL, mergeKeyDiags_mem v h]
      · simp [mergeKeyDiagsL, mergeKeyDiagsL_mem tl h]
end

mutual
theorem hasMergeKey_vt : ∀ n : Node, hasMergeKey (vtNode n).1 = hasMergeKey n
  | .scalar v s => by simp [vtNode]
  | .aliasNode a => by simp [vtNode]
  | .map fl items => by simp [vtNode, hasMergeKey, hasMergeKeyE_vt items]
  | .seq fl items => by simp [vtNode, hasMergeKey, hasMergeKeyL_vt items]
theorem hasMergeKeyE_vt : ∀ items : List (String × Node),
    hasMergeKeyE (vtEntries items).1 = hasMergeKeyE items
  | [] => by simp [vtEntries]
  | (k, v) :: tl => by
      cases v with
      | scalar sv st => simp [vtEntries, hasMergeKeyE, hasMergeKey, hasMergeKeyE_vt tl]
      | aliasNode a =>
          simp [vtEntries, hasMergeKeyE, hasMergeKey_vt (Node.aliasNode a), hasMergeKeyE_vt tl]
      | map f i =>
          simp [vtEntries, hasMergeKeyE, hasMergeKey_vt (Node.map f i), hasMergeKeyE_vt tl]
      | seq f i =>
          simp [vtEntries, hasMergeKeyE, hasMergeKey_vt (Node.seq f i), hasMergeKeyE_vt tl]
theorem hasMergeKeyL_vt : ∀ items : List Node,
    hasMergeKeyL (vtList items).1 = hasMergeKeyL items
  | [] => by simp [vtList]
  | v :: tl => by simp [vtList, hasMergeKeyL, hasMergeKey_vt v, hasMergeKeyL_vt tl]
end

mutual
theorem hasMergeKey_fmt : ∀ n : Node, hasMergeKey (fmtNode n).1 = hasMergeKey n
  | .scalar v s => by simp [fmtNode]
  | .aliasNode a => by simp [fmtNode]
  | .map fl items => by simp [fmtNode, hasMergeKey, hasMergeKeyE_fmt items]
  | .seq fl items => by simp [fmtNode, hasMergeKey, hasMergeKeyL_fmt items]
theorem hasMergeKeyE_fmt : ∀ items : List (String × Node),
    hasMergeKeyE (fmtEntries items).1 = hasMergeKeyE items
  | [] => by simp [fmtEntries]
  | (k, v) :: tl => by simp [fmtEntries, hasMergeKeyE, hasMergeKey_fmt v, hasMergeKeyE_fmt tl]
theorem hasMergeKeyL_fmt : ∀ items : List Node,
    hasMergeKeyL (fmtList items).1 = hasMergeKeyL items
  | [] => by simp [fmtList]
  | v :: tl => by simp [fmtList, hasMergeKeyL, hasMergeKey_fmt v, hasMergeKeyL_fmt tl]
end

mutual
theorem hasMergeKey_conv : ∀ n : Node, hasMergeKey (convAliases n) = hasMergeKey n
  | .scalar v s => by simp [convAliases]
  | .aliasNode a => by simp [convAliases]
  | .map fl items => by simp [convAliases, hasMergeKey, hasMergeKeyE_conv items]
  | .seq fl items => by simp [convAliases, hasMergeKey, hasMergeKeyL_conv items]
theorem hasMergeKeyE_conv : ∀ items : List (String × Node),
    hasMergeKeyE (convAliasesE items) = hasMergeKeyE items
  | [] => by simp [convAliasesE]
  | (k, v) :: tl => by
      cases v with
      | aliasNode a => simp [convAliasesE, hasMergeKeyE, hasMergeKey, hasMergeKeyE_conv tl]
      | scalar sv st => simp [convAliasesE, hasMergeKeyE, hasMergeKey_conv (Node.scalar sv st), hasMergeKeyE_conv tl]
      | map f i => simp [convAliasesE, hasMergeKeyE, hasMergeKey_conv (Node.map f i), hasMergeKeyE_conv tl]
      | seq f i => simp [convAliasesE, hasMergeKeyE, hasMergeKey_conv (Node.seq f i), hasMergeKeyE_conv tl]
theorem hasMergeKeyL_conv : ∀ items : List Node,
    hasMergeKeyL (convAliasesL items) = hasMergeKeyL items
  | [] => by simp [convAliasesL]
  | v :: tl => by
      cases v with
      | aliasNode a => simp [convAliasesL, hasMergeKeyL, hasMergeKey, hasMergeKeyL_conv tl]
      | scalar sv st => simp [convAliasesL, hasMergeKeyL, hasMergeKey_conv (Node.scalar sv st), hasMergeKeyL_conv tl]
      | map f i => simp [convAliasesL, hasMergeKeyL, hasMergeKey_conv (Node.map f i), hasMergeKeyL_conv tl]
      | seq f i => simp [convAliasesL, hasMergeKeyL, hasMergeKey_conv (Node.seq f i), hasMergeKeyL_conv tl]
end

end Laml

namespace Laml

theorem hasMergeKeyE_any_iff (items : List (String × Node)) :
    hasMergeKeyE items = true ↔ ∃ it ∈ items, mergePairP it = true := by
  rw [hasMergeKeyE_eq_any]
  exact List.any_eq_true

theorem merge_strip_mono (v : Node) (h : hasMergeKey (stripMetaDomains v) = true) :
    hasMergeKey v = true := by
  cases v with
  | map fl its =>
      simp only [stripMetaDomains, hasMergeKey] at h ⊢
      rcases (hasMergeKeyE_any_iff _).mp h with ⟨it, hmem, hp⟩
      exact (hasMergeKeyE_any_iff _).mpr ⟨it, List.mem_of_mem_filter hmem, hp⟩
  | scalar sv st => simpa [stripMetaDomains] using h
  | seq fl its => simpa [stripMetaDomains] using h
  | aliasNode a => simpa [stripMetaDomains] using h

theorem merge_stripE_mono (items : List (String × Node))
    (h : hasMergeKeyE (items.map (fun it =>
      if it.1 == "$meta" then (it.1, stripMetaDomains it.2) else it)) = true) :
    hasMergeKeyE items = true := by
  rcases (hasMergeKeyE_any_iff _).mp h with ⟨it, hmem, hp⟩
  rcases List.mem_map.mp hmem with ⟨it0, hmem0, heq⟩
  refine (hasMergeKeyE_any_iff _).mpr ⟨it0, hmem0, ?_⟩
  by_cases hk : it0.1 == "$meta"
  · rw [if_pos hk] at heq
    subst heq
    simp only [mergePairP, Bool.or_eq_true] at hp ⊢
    rcases hp with hp | hp
    · exact Or.inl hp
    · exact Or.inr (merge_strip_mono it0.2 hp)
  · rw [if_neg hk] at heq
    exact heq ▸ hp

theorem metaFieldStep_mem (field : String) (st : MapOut) {x : String × Node}
    (h : x ∈ st.items) : x ∈ (metaFieldStep field st).items := by
  rw [metaFieldStep]
  cases hf : st.items.find? (fun it => it.1 == field) with
  | some it => by_cases hd : field == "domains" <;> simp [hd, h]
  | none => simp [h]

theorem setFirstValue_mem_of_ne {items : List (String × Node)} {k : String} {v : Node}
    (key : String) (nv : Node) (h : (k, v) ∈ items) (hne : ¬(k == key)) :
    (k, v) ∈ setFirstValue items key nv := by
  induction items with
  | nil => cases h
  | cons hd tl ih =>
      cases hd with
      | _ k' v' =>
          rw [setFirstValue]
          by_cases hk : k' == key
          · rw [if_pos hk]
            rcases List.mem_cons.mp h with h | h
            · exfalso
              cases h
              exact hne hk
            · exact List.mem_cons_of_mem _ h
          · rw [if_neg hk]
            rcases List.mem_cons.mp h with h | h
            · exact h ▸ List.mem_cons_self ..
            · exact List.mem_cons_of_mem _ (ih h)

theorem validateDomainsField_items (metaItems : List (String × Node)) :
    (validateDomainsField metaItems).items = metaItems ∨
    ∃ v, (validateDomainsField metaItems).items = setFirstValue metaItems "domains" v := by
  rw [validateDomainsField]
  cases metaItems.find? (fun it => it.1 == "domains") with
  | none => exact Or.inl rfl
  | some domItem =>
      rcases domItem with ⟨dk, dv⟩
      cases dv with
      | seq fl its =>
          by_cases hlen : its.length = 0
          · simp only [hlen, if_pos rfl]
            exact Or.inl rfl
          · simp only [if_neg hlen]
            exact Or.inr ⟨_, rfl⟩
      | scalar sv st => exact Or.inl rfl
      | map f i => exact Or.inl rfl
      | aliasNode a => exact Or.inl rfl

theorem merge_domainsField_pres (metaItems : List (String × Node))
    {x : String × Node} (hx : x ∈ metaItems) (hne : ¬(x.1 == "domains"))
    (hp : mergePairP x = true) :
    hasMergeKeyE (validateDomainsField metaItems).items = true := by
  rcases validateDomainsField_items metaItems with he | ⟨v, he⟩ <;> rw [he]
  · exact (hasMergeKeyE_any_iff _).mpr ⟨x, hx, hp⟩
  · refine (hasMergeKeyE_any_iff _).mpr ⟨x, ?_, hp⟩
    rcases x with ⟨k, xv⟩
    exact setFirstValue_mem_of_ne "domains" v hx hne

theorem merge_metaSection_pres (v : Node)
    (h : hasMergeKey (stripMetaDomains v) = true) :
    hasMergeKey (validateMetaSection v).1 = true := by
  cases v with
  | map fl its =>
      simp only [stripMetaDomains, hasMergeKey] at h
      rcases (hasMergeKeyE_any_iff _).mp h with ⟨it, hmem, hp⟩
      have hne : ¬(it.1 == "domains") := by
        have := List.of_mem_filter hmem
        simpa using this
      have hmem0 : it ∈ its := List.mem_of_mem_filter hmem
      have h1 : it ∈ (metaFieldStep "spec" (metaFieldStep "version" (metaFieldStep "purpose"
          (metaFieldStep "name" ⟨its, [], []⟩)))).items :=
        metaFieldStep_mem _ _ (metaFieldStep_mem _ _ (metaFieldStep_mem _ _
          (metaFieldStep_mem _ _ hmem0)))
      have h2 : it ∈ (metaFieldStep "domains" (metaFieldStep "spec" (metaFieldStep "version"
          (metaFieldStep "purpose" (metaFieldStep "name" ⟨its, [], []⟩))))).items :=
        metaFieldStep_mem _ _ h1
      simp only [validateMetaSection, hasMergeKey]
      exact merge_domainsField_pres _ h2 hne hp
  | scalar sv st => simpa [validateMetaSection, stripMetaDomains] using h
  | seq fl its => simpa [validateMetaSection, stripMetaDomains, hasMergeKey] using h
  | aliasNode a => simpa [validateMetaSection, stripMetaDomains] using h

theorem setFirstValue_any_replace :
    ∀ (items : List (String × Node)) (mp : String × Node),
    items.find? (fun it => it.1 == "$meta") = some mp →
    hasMergeKeyE (items.map (fun it =>
      if it.1 == "$meta" then (it.1, stripMetaDomains it.2) else it)) = true →
    hasMergeKeyE (setFirstValue items "$meta" (validateMetaSection mp.2).1) = true
  | [], mp, hf, _ => by simp [List.find?] at hf
  | (k, v) :: tl, mp, hf, h => by
      by_cases hk : (k == "$meta") = true
      · rw [List.find?_cons_of_pos _ (by simpa using hk)] at hf
        have hmp := (Option.some_inj.mp hf).symm
        subst hmp
        rw [setFirstValue, if_pos hk]
        simp only [List.map_cons, if_pos hk] at h
        rw [hasMergeKeyE] at h ⊢
        simp only [Bool.or_eq_true] at h ⊢
        rcases h with (h | h) | h
        · exact Or.inl (Or.inl h)
        · exact Or.inl (Or.inr (merge_metaSection_pres v h))
        · exact Or.inr (merge_stripE_mono tl h)
      · rw [List.find?_cons_of_neg _ (by simpa using hk)] at hf
        rw [setFirstValue, if_neg hk]
        simp only [List.map_cons, if_neg hk] at h
        rw [hasMergeKeyE] at h ⊢
        simp only [Bool.or_eq_true] at h ⊢
        rcases h with h | h
        · exact Or.inl h
        · exact Or.inr (setFirstValue_any_replace tl mp hf h)

theorem any_moveToFront {p : String × Node → Bool} (items : List (String × Node)) (i : Nat)
    (h : items.any p = true) : (moveToFront items i).any p = true := by
  rw [moveToFront]
  cases hget : items.get? i with
  | none => exact h
  | some it =>
      rcases List.any_eq_true.mp h with ⟨x, hx, hpx⟩
      have hsplit : items = items.take i ++ items.drop i := (List.take_append_drop i items).symm
      have hlt : i < items.length := List.get?_eq_some.mp hget |>.1
      have hdrop : items.drop i = it :: items.drop (i + 1) := by
        rw [List.drop_eq_getElem_cons hlt]
        congr 1
        have := List.get?_eq_some.mp hget
        rcases this with ⟨hl, hgete⟩
        simpa [List.get_eq_getElem] using hgete
      rw [hsplit, List.mem_append] at hx
      rcases hx with hx | hx
      · exact List.any_eq_true.mpr ⟨x, List.mem_cons_of_mem _ (List.mem_append_left _ hx), hpx⟩
      · rw [hdrop] at hx
        rcases List.mem_cons.mp hx with hx | hx
        · exact List.any_eq_true.mpr ⟨x, hx ▸ List.mem_cons_self .., hpx⟩
        · exact List.any_eq_true.mpr ⟨x, List.mem_cons_of_mem _ (List.mem_append_right _ hx), hpx⟩

theorem hasMergeKeyE_moveToFront (items : List (String × Node)) (i : Nat)
    (h : hasMergeKeyE items = true) : hasMergeKeyE (moveToFront items i) = true := by
  rw [hasMergeKeyE_eq_any] at h ⊢
  exact any_moveToFront items i h

theorem merge_moved_pres (items2 : List (String × Node))
    (hbase : hasMergeKeyE items2 = true) :
    hasMergeKeyE (if (match items2.head? with
        | some hd => hd.1 == "$meta"
        | none => false)
      then (items2, ([] : List FixEv))
      else match findKeyIdx items2 "$meta" with
        | some i =>
          if i > 0 then (moveToFront items2 i, [.push "Moved $meta section to first position"])
          else (items2, ([] : List FixEv))
        | none => (items2, ([] : List FixEv))).1 = true := by
  by_cases hfirst : (match items2.head? with
      | some hd => hd.1 == "$meta"
      | none => false) = true
  · rw [if_pos hfirst]
    exact hbase
  · rw [if_neg hfirst]
    cases hidx : findKeyIdx items2 "$meta" with
    | none => exact hbase
    | some i =>
        dsimp only
        by_cases hi : i > 0
        · rw [if_pos hi]
          exact hasMergeKeyE_moveToFront items2 i hbase
        · rw [if_neg hi]
          exact hbase

theorem merge_mandatory_pres (d : Doc)
    (h : hasMergeKeyDoc (stripRootMetaDomains d) = true) :
    hasMergeKeyDoc (validateMandatorySections d).doc = true := by
  cases d with
  | none => simp [stripRootMetaDomains, hasMergeKeyDoc] at h
  | some n =>
      cases n with
      | scalar sv st => simpa [validateMandatorySections, stripRootMetaDomains] using h
      | seq fl its => simpa [validateMandatorySections, stripRootMetaDomains] using h
      | aliasNode a => simpa [validateMandatorySections, stripRootMetaDomains] using h
      | map fl items =>
          simp only [stripRootMetaDomains, hasMergeKeyDoc, hasMergeKey] at h
          rw [validateMandatorySections]
          by_cases hmeta : items.any (fun it => it.1 == "$meta") = true
          · simp only [hmeta, eq_self_iff_true, if_true]
            cases hf : items.find? (fun it => it.1 == "$meta") with
            | none =>
                exfalso
                rcases List.any_eq_true.mp hmeta with ⟨x, hx, hpx⟩
                exact absurd (List.find?_eq_none.mp hf x hx) (by simp [hpx])
            | some mp =>
                have hbase := setFirstValue_any_replace items mp hf h
                dsimp only
                simp only [hasMergeKeyDoc, hasMergeKey]
                exact merge_moved_pres _ hbase
          · simp only [hmeta]
            rw [if_neg (by simpa using hmeta), if_neg (by simpa using hmeta)]
            have hid : (items.map (fun it =>
                if it.1 == "$meta" then (it.1, stripMetaDomains it.2) else it)) = items := by
              conv_rhs => rw [← List.map_id items]
              apply List.map_congr_left
              intro it hit
              have hne : ¬(it.1 == "$meta") = true := fun hc =>
                hmeta (List.any_eq_true.mpr ⟨it, hit, hc⟩)
              simp [hne]
            rw [hid] at h
            rw [List.find?_cons_of_pos _ (by rfl)]
            have hbase : hasMergeKeyE (setFirstValue (("$meta", Node.map false []) :: items)
                "$meta" (validateMetaSection (Node.map false [])).1) = true := by
              rw [setFirstValue, if_pos (by rfl)]
              rw [hasMergeKeyE]
              simp [h]
            simp only [hasMergeKeyDoc, hasMergeKey]
            exact merge_moved_pres _ hbase

theorem merge_metaPosition_pres (doc : Doc)
    (h : hasMergeKeyDoc doc = true) :
    hasMergeKeyDoc (validateMetaPosition doc).doc = true := by
  cases doc with
  | none => simpa [validateMetaPosition] using h
  | some n =>
      cases n with
      | scalar sv st => simpa [validateMetaPosition] using h
      | seq fl its => simpa [validateMetaPosition] using h
      | aliasNode a => simpa [validateMetaPosition] using h
      | map fl items =>
          rw [validateMetaPosition]
          cases hh : items.head? with
          | none => simpa [hh] using h
          | some hd =>
              by_cases hk : hd.1 == "$meta"
              · simpa [hh, hk] using h
              · simp only [hh, hk]
                cases hidx : findKeyIdx items "$meta" with
                | none =>
                    simp only [Bool.false_eq_true, if_false]
                    simpa using h
                | some i =>
                    by_cases hi : i > 0
                    · simp only [Bool.false_eq_true, if_false, hi, if_pos rfl,
                        hasMergeKeyDoc, hasMergeKey]
                      simp only [hasMergeKeyDoc, hasMergeKey] at h
                      exact hasMergeKeyE_moveToFront items i h
                    · simp only [Bool.false_eq_true, if_false, hi]
                      simpa using h

theorem hasMergeKeyDoc_vt (d : Doc) :
    hasMergeKeyDoc (validateValueTypes d).1 = hasMergeKeyDoc d := by
  cases d with
  | none => rfl
  | some n => simpa [validateValueTypes, hasMergeKeyDoc] using hasMergeKey_vt n

theorem hasMergeKeyDoc_conv (d : Doc) :
    hasMergeKeyDoc (convertAliasesToReferences d).1 = hasMergeKeyDoc d := by
  cases d with
  | none => rfl
  | some n => simpa [convertAliasesToReferences, hasMergeKeyDoc] using hasMergeKey_conv n

theorem hasMergeKeyDoc_fmt (d : Doc) :
    hasMergeKeyDoc (formatDataStructures d).1 = hasMergeKeyDoc d := by
  cases d with
  | none => rfl
  | some n => simpa [formatDataStructures, hasMergeKeyDoc] using hasMergeKey_fmt n

theorem mergeKeyDiags_doc_mem (d : Doc) (h : hasMergeKeyDoc d = true) :
    (⟨"LAML_YAML_MERGE_KEY_INVALID", []⟩ : Diag) ∈ validateYamlMergeKeys d := by
  cases d with
  | none => simp [hasMergeKeyDoc] at h
  | some n =>
      simpa [validateYamlMergeKeys] using mergeKeyDiags_mem n (by simpa [hasMergeKeyDoc] using h)

/-- C9: for every parsed document in which some mapping pair's key is the
merge key '<<', provided that pair does not sit among the elements of the
root $meta.domains sequence (the part the duplicate-domains splice can
delete), the run records a LAML_YAML_MERGE_KEY_INVALID error, the verdict is
invalid whatever the initial session log and ast errors are, and the merge
key is still present in the returned document. -/
theorem c9_merge_key_rejection (env : FsEnv) (d : Doc) (astErrors : List String)
    (e0 : List Diag)
    (h : hasMergeKeyDoc (stripRootMetaDomains d) = true) :
    (⟨"LAML_YAML_MERGE_KEY_INVALID", []⟩ : Diag) ∈ (validateLaml env (some d) astErrors e0).errs ∧
    (validateLaml env (some d) astErrors e0).isValid = false ∧
    hasMergeKeyDoc (validateLaml env (some d) astErrors e0).doc = true := by
  have h1 := merge_mandatory_pres d h
  have h2 := merge_metaPosition_pres _ h1
  have hdiag := mergeKeyDiags_doc_mem _ h2
  have herr : (⟨"LAML_YAML_MERGE_KEY_INVALID", []⟩ : Diag) ∈ (runPipeline env d).errs := by
    simp only [runPipeline]
    exact List.mem_append_left _ (List.mem_append_left _ (List.mem_append_right _ hdiag))
  have hmem : (⟨"LAML_YAML_MERGE_KEY_INVALID", []⟩ : Diag) ∈
      (validateLaml env (some d) astErrors e0).errs := by
    simp only [validateLaml]
    exact List.mem_append_right _ herr
  refine ⟨hmem, ?_, ?_⟩
  · have hall : (⟨"LAML_YAML_MERGE_KEY_INVALID", []⟩ : Diag) ∈
        e0 ++ (validateLaml env (some d) astErrors e0).errs := List.mem_append_right _ hmem
    simp only [validateLaml] at hall ⊢
    cases hl : e0 ++ (astErrors.map astErrorDiag ++ (runPipeline env d).errs) with
    | nil => rw [hl] at hall; exact absurd hall (List.not_mem_nil _)
    | cons a l => rfl
  · simp only [validateLaml, runPipeline, validateStructurePrinciples]
    rw [hasMergeKeyDoc_fmt, hasMergeKeyDoc_conv, hasMergeKeyDoc_vt]
    exact h2

theorem c9_merge_key_rejection_witness :
    hasMergeKeyDoc (stripRootMetaDomains c9wdoc) = true ∧
    ((⟨"LAML_YAML_MERGE_KEY_INVALID", []⟩ : Diag) ∈
        (validateLaml emptyFs (some c9wdoc) [] []).errs ∧
      (validateLaml emptyFs (some c9wdoc) [] []).isValid = false ∧
      hasMergeKeyDoc (validateLaml emptyFs (some c9wdoc) [] []).doc = true) :=
  ⟨by decide, c9_merge_key_rejection emptyFs c9wdoc [] [] (by decide)⟩

/-- C2 counterexample: on c2doc the first run records no errors and converts
the YAML alias to the reference text *someAnchor; the second run, on the
returned document, reports LAML_REFERENCE_NOT_FOUND for that reference, so
the diagnostic sets of the two runs differ. -/
theorem c2_counterexample :
    (validateLaml emptyFs (some c2doc) [] []).errs = [] ∧
    (validateLaml emptyFs (some ((validateLaml emptyFs (some c2doc) [] []).doc)) [] []).errs.any
      (fun e => e.code == "LAML_REFERENCE_NOT_FOUND") = true := by
  decide

/-- C9 counterexample: c9doc holds its merge-key pair as an element of the
root $meta.domains sequence next to a duplicated tag; the misaligned
duplicate splice deletes it before the merge-key check runs, so no
LAML_YAML_MERGE_KEY_INVALID error is recorded and the returned document no
longer contains the merge key. -/

theorem c9_counterexample :
    hasMergeKeyDoc c9doc = true ∧
    (validateLaml emptyFs (some c9doc) [] []).errs.all
      (fun e => !(e.code == "LAML_YAML_MERGE_KEY_INVALID")) = true ∧
    hasMergeKeyDoc (validateLaml emptyFs (some c9doc) [] []).doc = false := by
  decide

/-! ## C2: representation lemmas for the traversal stages -/

theorem vtEntries_eq_map : ∀ items : List (String × Node),
    (vtEntries items).1 = items.map (fun p => (p.1, vtVal p.1 p.2))
  | [] => by simp [vtEntries]
  | (k, v) :: tl => by
      cases v with
      | scalar sv st => simp [vtEntries, vtVal, vtEntries_eq_map tl]
      | aliasNode a => simp [vtEntries, vtVal, vtEntries_eq_map tl]
      | map f i => simp [vtEntries, vtVal, vtEntries_eq_map tl]
      | seq f i => simp [vtEntries, vtVal, vtEntries_eq_map tl]

theorem vtList_eq_map : ∀ items : List Node,
    (vtList items).1 = items.map (fun v => (vtNode v).1)
  | [] => by simp [vtList]
  | v :: tl => by simp [vtList, vtList_eq_map tl]

theorem fmtEntries_eq_map : ∀ items : List (String × Node),
    (fmtEntries items).1 = items.map (fun p => (p.1, (fmtNode p.2).1))
  | [] => by simp [fmtEntries]
  | (k, v) :: tl => by simp [fmtEntries, fmtEntries_eq_map tl]

theorem fmtList_eq_map : ∀ items : List Node,
    (fmtList items).1 = items.map (fun v => (fmtNode v).1)
  | [] => by simp [fmtList]
  | v :: tl => by simp [fmtList, fmtList_eq_map tl]

theorem find?_map_fst (k : String) (f : String × Node → String × Node)
    (hf : ∀ p, (f p).1 = p.1) :
    ∀ items : List (String × Node),
    (items.map f).find? (fun it => it.1 == k) =
      (items.find? (fun it => it.1 == k)).map f
  | [] => by simp
  | p :: tl => by
      by_cases hk : (p.1 == k) = true
      · rw [List.map_cons, List.find?_cons_of_pos _ (by simpa [hf] using hk),
          List.find?_cons_of_pos _ (by simpa using hk)]
        rfl
      · rw [List.map_cons, List.find?_cons_of_neg _ (by simpa [hf] using hk),
          List.find?_cons_of_neg _ (by simpa using hk)]
        exact find?_map_fst k f hf tl

theorem setFirstValue_self : ∀ (items : List (String × Node)) (k : String)
    (it0 : String × Node),
    items.find? (fun it => it.1 == k) = some it0 →
    setFirstValue items k it0.2 = items
  | [], _, _, h => by simp at h
  | (k', v) :: tl, k, it0, h => by
      by_cases hk : (k' == k) = true
      · rw [List.find?_cons_of_pos _ (by simpa using hk)] at h
        have h' := Option.some_inj.mp h
        rw [setFirstValue, if_pos hk, ← h']
      · rw [List.find?_cons_of_neg _ (by simpa using hk)] at h
        rw [setFirstValue, if_neg hk, setFirstValue_self tl k it0 h]

theorem setFirstValue_find?_ne : ∀ (items : List (String × Node)) (key f : String)
    (v : Node), (f == key) = false →
    (setFirstValue items key v).find? (fun it => it.1 == f) =
      items.find? (fun it => it.1 == f)
  | [], _, _, _, _ => rfl
  | (k, v0) :: tl, key, f, v, hfk => by
      by_cases hk : (k == key) = true
      · have hkk : k = key := by simpa using hk
        have hne : (k == f) = false := by
          subst hkk
          have hne' : ¬ f = k := by simpa using hfk
          exact beq_eq_false_iff_ne.mpr (fun hc => hne' hc.symm)
        rw [setFirstValue, if_pos hk,
          List.find?_cons_of_neg _ (by simp [hne]),
          List.find?_cons_of_neg _ (by simp [hne])]
      · rw [setFirstValue, if_neg hk]
        by_cases hf2 : (k == f) = true
        · rw [List.find?_cons_of_pos _ (by simpa using hf2),
            List.find?_cons_of_pos _ (by simpa using hf2)]
        · rw [List.find?_cons_of_neg _ (by simpa using hf2),
            List.find?_cons_of_neg _ (by simpa using hf2)]
          exact setFirstValue_find?_ne tl key f v hfk

theorem setFirstValue_find?_self : ∀ (items : List (String × Node)) (key : String)
    (it0 : String × Node) (v : Node),
    items.find? (fun it => it.1 == key) = some it0 →
    (setFirstValue items key v).find? (fun it => it.1 == key) = some (it0.1, v)
  | [], _, _, _, h => by simp at h
  | (k, v0) :: tl, key, it0, v, h => by
      by_cases hk : (k == key) = true
      · rw [List.find?_cons_of_pos _ (by simpa using hk)] at h
        have h' := Option.some_inj.mp h
        rw [setFirstValue, if_pos hk, List.find?_cons_of_pos _ (by simpa using hk), ← h']
      · rw [List.find?_cons_of_neg _ (by simpa using hk)] at h
        rw [setFirstValue, if_neg hk, List.find?_cons_of_neg _ (by simpa using hk)]
        exact setFirstValue_find?_self tl key it0 v h

theorem setFirstValue_split : ∀ (items : List (String × Node)) (key : String)
    (mp : String × Node) (v : Node),
    items.find? (fun it => it.1 == key) = some mp →
    ∃ pre post, items = pre ++ mp :: post ∧
      (∀ q ∈ pre, (q.1 == key) = false) ∧
      setFirstValue items key v = pre ++ (mp.1, v) :: post
  | [], _, _, _, h => by simp at h
  | (k, v0) :: tl, key, mp, v, h => by
      by_cases hk : (k == key) = true
      · rw [List.find?_cons_of_pos _ (by simpa using hk)] at h
        have h' := Option.some_inj.mp h
        refine ⟨[], tl, by simp [h'], by simp, ?_⟩
        rw [setFirstValue, if_pos hk, ← h']
        simp
      · rw [List.find?_cons_of_neg _ (by simpa using hk)] at h
        obtain ⟨pre, post, he, hpre, hs⟩ := setFirstValue_split tl key mp v h
        refine ⟨(k, v0) :: pre, post, by simp [he], ?_, ?_⟩
        · intro q hq
          rcases List.mem_cons.mp hq with hq | hq
          · subst hq
            simpa using hk
          · exact hpre q hq
        · rw [setFirstValue, if_neg hk, hs]
          simp

/-! ## C2: stability of the pair callback of validateValueTypes -/

theorem vldv_value (k s : String) (st : SStyle) :
    (validateLiteralOrDescriptiveValue k s st).value = .str s := by
  unfold validateLiteralOrDescriptiveValue
  dsimp only
  repeat' split
  all_goals rfl

theorem vldv_stable (k s : String) (st : SStyle) :
    validateLiteralOrDescriptiveValue k s (validateLiteralOrDescriptiveValue k s st).style =
      ⟨.str s, (validateLiteralOrDescriptiveValue k s st).style,
        (validateLiteralOrDescriptiveValue k s st).errs,
        (validateLiteralOrDescriptiveValue k s st).warns, []⟩ := by
  generalize ho : validateLiteralOrDescriptiveValue k s st = o
  rw [validateLiteralOrDescriptiveValue] at ho
  by_cases hlit : isLiteralValue s = true
  · rw [if_pos hlit] at ho
    by_cases hw : lookaheadWordCount s > 5
    · rw [if_pos hw] at ho
      subst ho
      rw [validateLiteralOrDescriptiveValue]
      simp [hlit, hw]
    · rw [if_neg hw] at ho
      by_cases hst : st ≠ SStyle.quoteSingle
      · rw [if_pos hst] at ho
        subst ho
        rw [validateLiteralOrDescriptiveValue]
        simp [hlit, hw]
      · rw [if_neg hst] at ho
        subst ho
        rw [validateLiteralOrDescriptiveValue]
        simp [hlit, hw, hst]
  · rw [if_neg hlit] at ho
    by_cases he : lcTrimEmpty s.data = true
    · rw [if_pos he] at ho
      subst ho
      rw [validateLiteralOrDescriptiveValue]
      simp [hlit, he]
    · rw [if_neg he] at ho
      by_cases hst : st ≠ SStyle.quoteDouble
      · rw [if_pos hst] at ho
        subst ho
        rw [validateLiteralOrDescriptiveValue]
        simp [hlit, he]
      · rw [if_neg hst] at ho
        subst ho
        rw [validateLiteralOrDescriptiveValue]
        simp [hlit, he, hst]

theorem ppv_value_not_trigger (k : String) (v : SVal) (st : SStyle)
    (h : isBooleanTrigger k = false) :
    (processPairValue k v st).value = v := by
  cases v with
  | str s =>
      rw [processPairValue.eq_def]
      dsimp only
      by_cases hs : strStartsWith s "*" = true
      · rw [if_pos hs]
        split <;> rfl
      · rw [if_neg hs, h]
        simp only [Bool.false_eq_true, if_false]
        split
        · exact vldv_value k s st
        · rfl
  | bool b =>
      rw [processPairValue.eq_def]
      dsimp only
      rw [if_neg (by simp : ¬ (false = true))]
      split <;> rfl
  | num n =>
      rw [processPairValue.eq_def]
      dsimp only
      rw [if_neg (by simp : ¬ (false = true))]
      by_cases htrig : isBooleanTrigger k = true
      · rw [htrig, if_pos rfl]
      · rw [if_neg htrig]
  | null =>
      rw [processPairValue.eq_def]
      dsimp only
      rw [if_neg (by simp : ¬ (false = true))]
      by_cases htrig : isBooleanTrigger k = true
      · rw [htrig, if_pos rfl]
      · rw [if_neg htrig]

theorem ppv_stable (k : String) (v : SVal) (st : SStyle) :
    processPairValue k (processPairValue k v st).value (processPairValue k v st).style =
      ⟨(processPairValue k v st).value, (processPairValue k v st).style,
        (processPairValue k v st).errs, (processPairValue k v st).warns, []⟩ := by
  cases v with
  | str s =>
      generalize ho : processPairValue k (SVal.str s) st = o
      rw [processPairValue.eq_def] at ho
      dsimp only at ho
      by_cases hs : strStartsWith s "*" = true
      · rw [if_pos hs] at ho
        by_cases hv : (!isValidReference s) = true
        · rw [if_pos hv] at ho
          subst ho
          dsimp only
          rw [processPairValue.eq_def]
          simp [hs, hv]
        · rw [if_neg hv] at ho
          subst ho
          dsimp only
          rw [processPairValue.eq_def]
          simp [hs, hv]
      · rw [if_neg hs] at ho
        by_cases htrig : isBooleanTrigger k = true
        · rw [htrig, if_pos rfl] at ho
          by_cases h1 : (s == "true" || s == "yes" || s == "1") = true
          · rw [if_pos h1] at ho
            subst ho
            dsimp only
            rw [processPairValue.eq_def]
            simp [htrig]
          · rw [if_neg h1] at ho
            by_cases h2 : (s == "false" || s == "no" || s == "0") = true
            · rw [if_pos h2] at ho
              subst ho
              dsimp only
              rw [processPairValue.eq_def]
              simp [htrig]
            · rw [if_neg h2] at ho
              subst ho
              dsimp only
              rw [processPairValue.eq_def]
              simp [hs, htrig, h1, h2]
        · have htf : isBooleanTrigger k = false := by simpa using htrig
          rw [htf] at ho
          simp only [Bool.false_eq_true, if_false] at ho
          by_cases hl : strLen s > 0
          · rw [if_pos hl] at ho
            have hstab := vldv_stable k s st
            subst ho
            rw [processPairValue.eq_def, vldv_value]
            dsimp only
            rw [if_neg (by simp [hs] : ¬ (strStartsWith s "*" = true)), htf]
            simp only [Bool.false_eq_true, if_false]
            rw [if_pos hl]
            exact hstab
          · rw [if_neg hl] at ho
            subst ho
            dsimp only
            rw [processPairValue.eq_def]
            simp [hs, htf, hl]
  | bool b =>
      generalize ho : processPairValue k (SVal.bool b) st = o
      rw [processPairValue.eq_def] at ho
      dsimp only at ho
      rw [if_neg (by simp : ¬ (false = true))] at ho
      by_cases htrig : isBooleanTrigger k = true
      · rw [htrig, if_pos rfl] at ho
        subst ho
        dsimp only
        rw [processPairValue.eq_def]
        simp [htrig]
      · have htf : isBooleanTrigger k = false := by simpa using htrig
        rw [htf] at ho
        simp only [Bool.false_eq_true, if_false] at ho
        subst ho
        dsimp only
        rw [processPairValue.eq_def]
        simp [htf]
  | num n =>
      generalize ho : processPairValue k (SVal.num n) st = o
      rw [processPairValue.eq_def] at ho
      dsimp only at ho
      rw [if_neg (by simp : ¬ (false = true))] at ho
      by_cases htrig : isBooleanTrigger k = true
      · rw [htrig, if_pos rfl] at ho
        subst ho
        dsimp only
        rw [processPairValue.eq_def]
        simp [htrig]
      · have htf : isBooleanTrigger k = false := by simpa using htrig
        rw [htf] at ho
        simp only [Bool.false_eq_true, if_false] at ho
        subst ho
        dsimp only
        rw [processPairValue.eq_def]
        simp [htf]
  | null =>
      generalize ho : processPairValue k SVal.null st = o
      rw [processPairValue.eq_def] at ho
      dsimp only at ho
      rw [if_neg (by simp : ¬ (false = true))] at ho
      by_cases htrig : isBooleanTrigger k = true
      · rw [htrig, if_pos rfl] at ho
        subst ho
        dsimp only
        rw [processPairValue.eq_def]
        simp [htrig]
      · have htf : isBooleanTrigger k = false := by simpa using htrig
        rw [htf] at ho
        simp only [Bool.false_eq_true, if_false] at ho
        subst ho
        dsimp only
        rw [processPairValue.eq_def]
        simp [htf]

theorem ppv_value_spec (k : String) (v : SVal) (st : SStyle) :
    (processPairValue k v st).value = v ∨
    (∃ s b, v = SVal.str s ∧ (processPairValue k v st).value = SVal.bool b ∧
      (s = "true" ∨ s = "yes" ∨ s = "1" ∨ s = "false" ∨ s = "no" ∨ s = "0")) := by
  cases v with
  | str s =>
      rw [processPairValue.eq_def]
      dsimp only
      by_cases hs : strStartsWith s "*" = true
      · rw [if_pos hs]
        left
        split <;> rfl
      · rw [if_neg hs]
        by_cases htrig : isBooleanTrigger k = true
        · rw [htrig, if_pos rfl]
          by_cases h1 : (s == "true" || s == "yes" || s == "1") = true
          · rw [if_pos h1]
            refine Or.inr ⟨s, true, rfl, rfl, ?_⟩
            rcases Bool.or_eq_true_iff.mp h1 with h | h
            · rcases Bool.or_eq_true_iff.mp h with h | h
              · exact Or.inl (by simpa using h)
              · exact Or.inr (Or.inl (by simpa using h))
            · exact Or.inr (Or.inr (Or.inl (by simpa using h)))
          · rw [if_neg h1]
            by_cases h2 : (s == "false" || s == "no" || s == "0") = true
            · rw [if_pos h2]
              refine Or.inr ⟨s, false, rfl, rfl, ?_⟩
              rcases Bool.or_eq_true_iff.mp h2 with h | h
              · rcases Bool.or_eq_true_iff.mp h with h | h
                · exact Or.inr (Or.inr (Or.inr (Or.inl (by simpa using h))))
                · exact Or.inr (Or.inr (Or.inr (Or.inr (Or.inl (by simpa using h)))))
              · exact Or.inr (Or.inr (Or.inr (Or.inr (Or.inr (by simpa using h)))))
            · rw [if_neg h2]
              exact Or.inl rfl
        · have htf : isBooleanTrigger k = false := by simpa using htrig
          rw [htf]
          simp only [Bool.false_eq_true, if_false]
          split
          · exact Or.inl (vldv_value k s st)
          · exact Or.inl rfl
  | bool b =>
      left
      rw [processPairValue.eq_def]
      dsimp only
      rw [if_neg (by simp : ¬ (false = true))]
      split <;> rfl
  | num n =>
      left
      rw [processPairValue.eq_def]
      dsimp only
      rw [if_neg (by simp : ¬ (false = true))]
      split <;> first | rfl | (intro _ h; exact SVal.noConfusion h)
  | null =>
      left
      rw [processPairValue.eq_def]
      dsimp only
      rw [if_neg (by simp : ¬ (false = true))]
      split <;> first | rfl | (intro _ h; exact SVal.noConfusion h)

/-! ## C2: a second value-types pass after layout formatting is silent -/

mutual
theorem vt_fmt_vt : ∀ n : Node,
    vtNode ((fmtNode ((vtNode n).1)).1) =
      ((fmtNode ((vtNode n).1)).1, (vtNode n).2.1, (vtNode n).2.2.1, [])
  | .scalar v s => by simp [vtNode, fmtNode]
  | .aliasNode a => by simp [vtNode, fmtNode]
  | .map fl items => by simp [vtNode, fmtNode, vtE_fmt_vt items]
  | .seq fl items => by simp [vtNode, fmtNode, vtL_fmt_vt items]
theorem vtE_fmt_vt : ∀ items : List (String × Node),
    vtEntries ((fmtEntries ((vtEntries items).1)).1) =
      ((fmtEntries ((vtEntries items).1)).1, (vtEntries items).2.1,
        (vtEntries items).2.2.1, [])
  | [] => by simp [vtEntries, fmtEntries]
  | (k, .scalar sv st) :: tl => by
      simp [vtEntries, fmtEntries, fmtNode, ppv_stable k sv st, vtE_fmt_vt tl]
  | (k, .aliasNode a) :: tl => by
      simp [vtEntries, fmtEntries, fmtNode, vtNode, vtE_fmt_vt tl]
  | (k, .map f i) :: tl => by
      simp [vtEntries, fmtEntries, vtNode, fmtNode, vtE_fmt_vt i, vtE_fmt_vt tl]
  | (k, .seq f i) :: tl => by
      simp [vtEntries, fmtEntries, vtNode, fmtNode, vtL_fmt_vt i, vtE_fmt_vt tl]
theorem vtL_fmt_vt : ∀ items : List Node,
    vtList ((fmtList ((vtList items).1)).1) =
      ((fmtList ((vtList items).1)).1, (vtList items).2.1, (vtList items).2.2.1, [])
  | [] => by simp [vtList, fmtList]
  | .scalar sv st :: tl => by
      simp [vtList, fmtList, vtNode, fmtNode, vtL_fmt_vt tl]
  | .aliasNode a :: tl => by
      simp [vtList, fmtList, vtNode, fmtNode, vtL_fmt_vt tl]
  | .map f i :: tl => by
      simp [vtList, fmtList, vtNode, fmtNode, vtE_fmt_vt i, vtL_fmt_vt tl]
  | .seq f i :: tl => by
      simp [vtList, fmtList, vtNode, fmtNode, vtL_fmt_vt i, vtL_fmt_vt tl]
end

/-! ## C2: alias-free documents and the conversion stage -/

mutual
theorem conv_id : ∀ n : Node, aliasFree n = true → convAliases n = n
  | .scalar v s, _ => rfl
  | .aliasNode a, h => by simp [aliasFree] at h
  | .map fl items, h => by
      rw [aliasFree] at h
      rw [convAliases, convE_id items h]
  | .seq fl items, h => by
      rw [aliasFree] at h
      rw [convAliases, convL_id items h]
theorem convE_id : ∀ items : List (String × Node), aliasFreeE items = true →
    convAliasesE items = items
  | [], _ => rfl
  | (k, v) :: tl, h => by
      rw [aliasFreeE, Bool.and_eq_true] at h
      cases v with
      | aliasNode a => simp [aliasFree] at h
      | scalar sv st =>
          rw [convAliasesE, conv_id _ h.1, convE_id tl h.2] <;>
            (intro _ hc; exact Node.noConfusion hc)
      | map f i =>
          rw [convAliasesE, conv_id _ h.1, convE_id tl h.2] <;>
            (intro _ hc; exact Node.noConfusion hc)
      | seq f i =>
          rw [convAliasesE, conv_id _ h.1, convE_id tl h.2] <;>
            (intro _ hc; exact Node.noConfusion hc)
theorem convL_id : ∀ items : List Node, aliasFreeL items = true →
    convAliasesL items = items
  | [], _ => rfl
  | v :: tl, h => by
      rw [aliasFreeL, Bool.and_eq_true] at h
      cases v with
      | aliasNode a => simp [aliasFree] at h
      | scalar sv st =>
          rw [convAliasesL, conv_id _ h.1, convL_id tl h.2] <;>
            (intro _ hc; exact Node.noConfusion hc)
      | map f i =>
          rw [convAliasesL, conv_id _ h.1, convL_id tl h.2] <;>
            (intro _ hc; exact Node.noConfusion hc)
      | seq f i =>
          rw [convAliasesL, conv_id _ h.1, convL_id tl h.2] <;>
            (intro _ hc; exact Node.noConfusion hc)
end

mutual
theorem aliasSources_nil : ∀ n : Node, aliasFree n = true → aliasSources n = []
  | .scalar v s, _ => rfl
  | .aliasNode a, h => by simp [aliasFree] at h
  | .map fl items, h => by
      rw [aliasFree] at h
      rw [aliasSources, aliasSourcesE_nil items h]
  | .seq fl items, h => by
      rw [aliasFree] at h
      rw [aliasSources, aliasSourcesL_nil items h]
theorem aliasSourcesE_nil : ∀ items : List (String × Node), aliasFreeE items = true →
    aliasSourcesE items = []
  | [], _ => rfl
  | (k, v) :: tl, h => by
      rw [aliasFreeE, Bool.and_eq_true] at h
      rw [aliasSourcesE, aliasSources_nil v h.1, aliasSourcesE_nil tl h.2]
      rfl
theorem aliasSourcesL_nil : ∀ items : List Node, aliasFreeL items = true →
    aliasSourcesL items = []
  | [], _ => rfl
  | v :: tl, h => by
      rw [aliasFreeL, Bool.and_eq_true] at h
      rw [aliasSourcesL, aliasSources_nil v h.1, aliasSourcesL_nil tl h.2]
      rfl
end

mutual
theorem aliasFree_vt : ∀ n : Node, aliasFree ((vtNode n).1) = aliasFree n
  | .scalar v s => by simp [vtNode]
  | .aliasNode a => by simp [vtNode]
  | .map fl items => by simp [vtNode, aliasFree, aliasFreeE_vt items]
  | .seq fl items => by simp [vtNode, aliasFree, aliasFreeL_vt items]
theorem aliasFreeE_vt : ∀ items : List (String × Node),
    aliasFreeE ((vtEntries items).1) = aliasFreeE items
  | [] => by simp [vtEntries]
  | (k, .scalar sv st) :: tl => by
      simp [vtEntries, aliasFreeE, aliasFree, aliasFreeE_vt tl]
  | (k, .aliasNode a) :: tl => by
      simp [vtEntries, vtNode, aliasFreeE, aliasFreeE_vt tl]
  | (k, .map f i) :: tl => by
      simp [vtEntries, vtNode, aliasFreeE, aliasFree, aliasFreeE_vt i, aliasFreeE_vt tl]
  | (k, .seq f i) :: tl => by
      simp [vtEntries, vtNode, aliasFreeE, aliasFree, aliasFreeL_vt i, aliasFreeE_vt tl]
theorem aliasFreeL_vt : ∀ items : List Node,
    aliasFreeL ((vtList items).1) = aliasFreeL items
  | [] => by simp [vtList]
  | .scalar sv st :: tl => by
      simp [vtList, vtNode, aliasFreeL, aliasFreeL_vt tl]
  | .aliasNode a :: tl => by
      simp [vtList, vtNode, aliasFreeL, aliasFreeL_vt tl]
  | .map f i :: tl => by
      simp [vtList, vtNode, aliasFreeL, aliasFree, aliasFreeE_vt i, aliasFreeL_vt tl]
  | .seq f i :: tl => by
      simp [vtList, vtNode, aliasFreeL, aliasFree, aliasFreeL_vt i, aliasFreeL_vt tl]
end

mutual
theorem aliasFree_fmt : ∀ n : Node, aliasFree ((fmtNode n).1) = aliasFree n
  | .scalar v s => by simp [fmtNode]
  | .aliasNode a => by simp [fmtNode]
  | .map fl items => by simp [fmtNode, aliasFree, aliasFreeE_fmt items]
  | .seq fl items => by simp [fmtNode, aliasFree, aliasFreeL_fmt items]
theorem aliasFreeE_fmt : ∀ items : List (String × Node),
    aliasFreeE ((fmtEntries items).1) = aliasFreeE items
  | [] => by simp [fmtEntries]
  | (k, v) :: tl => by simp [fmtEntries, aliasFreeE, aliasFree_fmt v, aliasFreeE_fmt tl]
theorem aliasFreeL_fmt : ∀ items : List Node,
    aliasFreeL ((fmtList items).1) = aliasFreeL items
  | [] => by simp [fmtList]
  | v :: tl => by simp [fmtList, aliasFreeL, aliasFree_fmt v, aliasFreeL_fmt tl]
end

theorem aliasFreeE_eq_all : ∀ items : List (String × Node),
    aliasFreeE items = items.all (fun p => aliasFree p.2)
  | [] => by simp [aliasFreeE]
  | (k, v) :: tl => by simp [aliasFreeE, aliasFreeE_eq_all tl]

theorem aliasFreeL_eq_all : ∀ items : List Node,
    aliasFreeL items = items.all aliasFree
  | [] => by simp [aliasFreeL]
  | v :: tl => by simp [aliasFreeL, aliasFreeL_eq_all tl]

theorem aliasFreeE_mem {items : List (String × Node)} (h : aliasFreeE items = true)
    {p : String × Node} (hp : p ∈ items) : aliasFree p.2 = true := by
  rw [aliasFreeE_eq_all] at h
  exact List.all_eq_true.mp h p hp

theorem aliasFreeL_mem {items : List Node} (h : aliasFreeL items = true)
    {v : Node} (hv : v ∈ items) : aliasFree v = true := by
  rw [aliasFreeL_eq_all] at h
  exact List.all_eq_true.mp h v hv

theorem aliasFreeL_of_mem {items : List Node} (h : ∀ v ∈ items, aliasFree v = true) :
    aliasFreeL items = true := by
  rw [aliasFreeL_eq_all]
  exact List.all_eq_true.mpr h

theorem aliasFreeE_append (l1 l2 : List (String × Node)) :
    aliasFreeE (l1 ++ l2) = (aliasFreeE l1 && aliasFreeE l2) := by
  simp [aliasFreeE_eq_all, List.all_append]

theorem aliasFreeE_setFirstValue : ∀ (items : List (String × Node)) (key : String)
    (v : Node), aliasFreeE items = true → aliasFree v = true →
    aliasFreeE (setFirstValue items key v) = true
  | [], _, _, h, _ => h
  | (k, v0) :: tl, key, v, h, hv => by
      rw [aliasFreeE, Bool.and_eq_true] at h
      rw [setFirstValue]
      by_cases hk : (k == key) = true
      · rw [if_pos hk, aliasFreeE]
        simp [hv, h.2]
      · rw [if_neg hk, aliasFreeE]
        simp [h.1, aliasFreeE_setFirstValue tl key v h.2 hv]

theorem mem_moveToFront {items : List (String × Node)} {i : Nat} {x : String × Node}
    (hx : x ∈ moveToFront items i) : x ∈ items := by
  rw [moveToFront] at hx
  cases hget : items.get? i with
  | none => rwa [hget] at hx
  | some it =>
      rw [hget] at hx
      rcases List.mem_cons.mp hx with hx | hx
      · subst hx
        exact List.get?_mem hget
      · rcases List.mem_append.mp hx with hx | hx
        · exact List.take_subset _ _ hx
        · exact List.drop_subset _ _ hx

theorem removeIdxs_eq_off (bad : List Nat) :
    ∀ (i : Nat) (items : List Node),
    (items.enumFrom i).filterMap
      (fun p => if p.1 ∈ bad then none else some p.2) = removeIdxsOff i items bad
  | _, [] => rfl
  | i, x :: tl => by
      rw [List.enumFrom_cons, List.filterMap_cons, removeIdxsOff]
      by_cases hb : i ∈ bad
      · simp only [hb, if_pos rfl]
        exact removeIdxs_eq_off bad (i + 1) tl
      · simp only [hb, if_neg hb]
        rw [removeIdxs_eq_off bad (i + 1) tl]
        rfl

theorem removeIdxs_off (items : List Node) (bad : List Nat) :
    removeIdxs items bad = removeIdxsOff 0 items bad := by
  rw [removeIdxs, ← removeIdxs_eq_off bad 0 items]
  rfl

theorem mem_removeIdxsOff : ∀ (i : Nat) (items : List Node) (bad : List Nat) (x : Node),
    x ∈ removeIdxsOff i items bad → x ∈ items
  | _, [], _, _, hx => by simp [removeIdxsOff] at hx
  | i, y :: tl, bad, x, hx => by
      rw [removeIdxsOff] at hx
      by_cases hb : i ∈ bad
      · rw [if_pos hb] at hx
        exact List.mem_cons_of_mem _ (mem_removeIdxsOff (i + 1) tl bad x (by simpa using hx))
      · rw [if_neg hb] at hx
        rcases List.mem_append.mp hx with hx | hx
        · exact List.mem_cons.mpr (Or.inl (by simpa using hx))
        · exact List.mem_cons_of_mem _ (mem_removeIdxsOff (i + 1) tl bad x hx)

theorem mem_removeIdxs {items : List Node} {bad : List Nat} {x : Node}
    (hx : x ∈ removeIdxs items bad) : x ∈ items := by
  rw [removeIdxs_off] at hx
  exact mem_removeIdxsOff 0 items bad x hx

theorem aliasFree_metaFieldDefault (f : String) : aliasFree (metaFieldDefault f) = true := by
  rw [metaFieldDefault]
  repeat' split
  all_goals decide

theorem aliasFree_metaFieldStep (f : String) (st : MapOut)
    (h : aliasFreeE st.items = true) : aliasFreeE (metaFieldStep f st).items = true := by
  rw [metaFieldStep]
  cases hf : st.items.find? (fun it => it.1 == f) with
  | some it =>
      dsimp only
      by_cases hd : (f == "domains") = true
      · rw [if_pos hd]
        exact h
      · rw [if_neg hd]
        exact h
  | none =>
      dsimp only
      rw [aliasFreeE_append]
      simp [h, aliasFreeE, aliasFree_metaFieldDefault f]

theorem aliasFree_validateDomainsField {metaItems : List (String × Node)}
    (h : aliasFreeE metaItems = true) :
    aliasFreeE (validateDomainsField metaItems).items = true := by
  rw [validateDomainsField]
  cases hf : metaItems.find? (fun it => it.1 == "domains") with
  | none => exact h
  | some domItem =>
      dsimp only
      have hdom : aliasFree domItem.2 = true :=
        aliasFreeE_mem h (List.mem_of_find?_eq_some hf)
      cases hv : domItem.2 with
      | seq fl ds =>
          rw [hv, aliasFree] at hdom
          dsimp only
          by_cases hlen : ds.length = 0
          · rw [if_pos hlen]
            exact h
          · rw [if_neg hlen]
            dsimp only
            apply aliasFreeE_setFirstValue _ _ _ h
            rw [aliasFree]
            apply aliasFreeL_of_mem
            intro v hvmem
            by_cases hdups :
                decide ((dedupFirst (domainsPass ds).1).length ≠ (domainsPass ds).1.length) = true
            · rw [if_pos hdups] at hvmem
              exact aliasFreeL_mem hdom (mem_removeIdxs hvmem)
            · rw [if_neg (by simpa using hdups)] at hvmem
              exact aliasFreeL_mem hdom hvmem
      | scalar sv st => exact h
      | map f i => exact h
      | aliasNode a => exact h

theorem aliasFree_validateMetaSection (mv : Node) (h : aliasFree mv = true) :
    aliasFree (validateMetaSection mv).1 = true := by
  cases mv with
  | map fl items =>
      rw [validateMetaSection]
      dsimp only
      rw [aliasFree]
      apply aliasFree_validateDomainsField
      apply aliasFree_metaFieldStep
      apply aliasFree_metaFieldStep
      apply aliasFree_metaFieldStep
      apply aliasFree_metaFieldStep
      apply aliasFree_metaFieldStep
      rw [aliasFree] at h
      exact h
  | scalar sv st => exact h
  | seq fl items => exact h
  | aliasNode a => exact h

/-! ## C2: shape of the mandatory-sections stage output -/

theorem findIdx?_go_pre_cons {α : Type} (p : α → Bool) :
    ∀ (pre : List α) (x : α) (post : List α) (i : Nat),
    (∀ q ∈ pre, p q = false) → p x = true →
    List.findIdx? p (pre ++ x :: post) i = some (i + pre.length)
  | [], x, post, i, _, hx => by simp [List.findIdx?, hx]
  | q :: pre, x, post, i, hpre, hx => by
      rw [List.cons_append, List.findIdx?, hpre q (by simp)]
      simp only [Bool.false_eq_true, if_false]
      rw [findIdx?_go_pre_cons p pre x post (i + 1)
        (fun r hr => hpre r (by simp [hr])) hx]
      congr 1
      simp only [List.length_cons]
      omega

theorem findIdx?_pre_cons {α : Type} (p : α → Bool) (pre : List α) (x : α)
    (post : List α) (hpre : ∀ q ∈ pre, p q = false) (hx : p x = true) :
    List.findIdx? p (pre ++ x :: post) = some pre.length := by
  rw [show List.findIdx? p (pre ++ x :: post) = List.findIdx? p (pre ++ x :: post) 0 from rfl]
  rw [findIdx?_go_pre_cons p pre x post 0 hpre hx]
  simp

theorem drop_len_succ_append {α : Type} :
    ∀ (pre : List α) (x : α) (post : List α),
    (pre ++ x :: post).drop (pre.length + 1) = post
  | [], x, post => rfl
  | a :: pre, x, post => by simpa using drop_len_succ_append pre x post

theorem moveToFront_split (pre : List (String × Node)) (x : String × Node)
    (post : List (String × Node)) :
    moveToFront (pre ++ x :: post) pre.length = x :: (pre ++ post) := by
  rw [moveToFront]
  have hget : (pre ++ x :: post).get? pre.length = some x := by
    rw [List.get?_append_right (le_refl _)]
    simp
  rw [hget, List.take_left pre (x :: post), drop_len_succ_append pre x post]

theorem metaPosition_first (fl : Bool) (v : Node) (rest : List (String × Node)) :
    validateMetaPosition (some (.map fl (("$meta", v) :: rest))) =
      ⟨some (.map fl (("$meta", v) :: rest)), [], []⟩ := by
  rw [validateMetaPosition]
  simp

theorem mandatory_char (fl : Bool) (items : List (String × Node)) :
    ∃ mv rest,
      (validateMandatorySections (some (.map fl items))).doc =
        some (.map fl (("$meta", (validateMetaSection mv).1) :: rest)) ∧
      (validateMandatorySections (some (.map fl items))).errs =
        (validateMetaSection mv).2.1 ∧
      (items.find? (fun it => it.1 == "$meta") = some ("$meta", mv) ∨
        mv = Node.map false []) ∧
      (∀ q ∈ rest, q ∈ items ∨ q = ("$meta", Node.map false [])) := by
  rw [validateMandatorySections]
  by_cases hmeta : items.any (fun it => it.1 == "$meta") = true
  · simp only [hmeta, eq_self_iff_true, if_true]
    cases hf : items.find? (fun it => it.1 == "$meta") with
    | none =>
        exfalso
        rcases List.any_eq_true.mp hmeta with ⟨x, hx, hpx⟩
        exact absurd (List.find?_eq_none.mp hf x hx) (by simp [hpx])
    | some mp =>
        have hmp1 : mp.1 = "$meta" := by simpa using List.find?_some hf
        obtain ⟨pre, post, hsplit, hpre, hset⟩ :=
          setFirstValue_split items "$meta" mp (validateMetaSection mp.2).1 hf
        dsimp only
        rw [hset, hmp1]
        cases pre with
        | nil =>
            refine ⟨mp.2, post, by simp, by simp, ?_, ?_⟩
            · left
              rw [← hmp1]
            · intro q hq
              left
              rw [hsplit]
              exact List.mem_cons_of_mem _ hq
        | cons q0 pre' =>
            have hq0 : (q0.1 == "$meta") = false := hpre q0 (by simp)
            have hidx : findKeyIdx ((q0 :: pre') ++ ("$meta", (validateMetaSection mp.2).1)
                :: post) "$meta" = some (q0 :: pre').length := by
              rw [findKeyIdx]
              exact findIdx?_pre_cons _ (q0 :: pre') _ post hpre (by simp)
            have hmove := moveToFront_split (q0 :: pre')
              ("$meta", (validateMetaSection mp.2).1) post
            refine ⟨mp.2, (q0 :: pre') ++ post, ?_, ?_, ?_, ?_⟩
            · dsimp only
              simp only [List.cons_append, List.head?_cons]
              rw [hq0]
              simp only [Bool.false_eq_true, if_false]
              rw [← List.cons_append, hidx]
              dsimp only
              rw [if_pos (by simp : (q0 :: pre').length > 0), hmove]
              rfl
            · rfl
            · left
              rw [← hmp1]
            · intro q hq
              left
              rw [hsplit]
              rcases List.mem_append.mp hq with hq | hq
              · exact List.mem_append_left _ hq
              · exact List.mem_append_right _ (List.mem_cons_of_mem _ hq)
  · simp only [hmeta]
    rw [if_neg (by simpa using hmeta), if_neg (by simpa using hmeta)]
    rw [List.find?_cons_of_pos _ (by rfl)]
    dsimp only
    rw [setFirstValue, if_pos (by rfl)]
    refine ⟨Node.map false [], items, by simp, by simp, Or.inr rfl, ?_⟩
    intro q hq
    exact Or.inl hq

/-! ## C2: merge-key diagnostics are invariant under the rewriting stages -/

mutual
theorem mergeKeyDiags_vt : ∀ n : Node, mergeKeyDiags ((vtNode n).1) = mergeKeyDiags n
  | .scalar v s => by simp [vtNode]
  | .aliasNode a => by simp [vtNode]
  | .map fl items => by simp [vtNode, mergeKeyDiags, mergeKeyDiagsE_vt items]
  | .seq fl items => by simp [vtNode, mergeKeyDiags, mergeKeyDiagsL_vt items]
theorem mergeKeyDiagsE_vt : ∀ items : List (String × Node),
    mergeKeyDiagsE ((vtEntries items).1) = mergeKeyDiagsE items
  | [] => by simp [vtEntries]
  | (k, .scalar sv st) :: tl => by
      simp [vtEntries, mergeKeyDiagsE, mergeKeyDiags, mergeKeyDiagsE_vt tl]
  | (k, .aliasNode a) :: tl => by
      simp [vtEntries, vtNode, mergeKeyDiagsE, mergeKeyDiagsE_vt tl]
  | (k, .map f i) :: tl => by
      simp [vtEntries, vtNode, mergeKeyDiagsE, mergeKeyDiags, mergeKeyDiagsE_vt i,
        mergeKeyDiagsE_vt tl]
  | (k, .seq f i) :: tl => by
      simp [vtEntries, vtNode, mergeKeyDiagsE, mergeKeyDiags, mergeKeyDiagsL_vt i,
        mergeKeyDiagsE_vt tl]
theorem mergeKeyDiagsL_vt : ∀ items : List Node,
    mergeKeyDiagsL ((vtList items).1) = mergeKeyDiagsL items
  | [] => by simp [vtList]
  | .scalar sv st :: tl => by
      simp [vtList, vtNode, mergeKeyDiagsL, mergeKeyDiags, mergeKeyDiagsL_vt tl]
  | .aliasNode a :: tl => by
      simp [vtList, vtNode, mergeKeyDiagsL, mergeKeyDiags, mergeKeyDiagsL_vt tl]
  | .map f i :: tl => by
      simp [vtList, vtNode, mergeKeyDiagsL, mergeKeyDiags, mergeKeyDiagsE_vt i,
        mergeKeyDiagsL_vt tl]
  | .seq f i :: tl => by
      simp [vtList, vtNode, mergeKeyDiagsL, mergeKeyDiags, mergeKeyDiagsL_vt i,
        mergeKeyDiagsL_vt tl]
end

mutual
theorem mergeKeyDiags_fmt : ∀ n : Node, mergeKeyDiags ((fmtNode n).1) = mergeKeyDiags n
  | .scalar v s => by simp [fmtNode]
  | .aliasNode a => by simp [fmtNode]
  | .map fl items => by simp [fmtNode, mergeKeyDiags, mergeKeyDiagsE_fmt items]
  | .seq fl items => by simp [fmtNode, mergeKeyDiags, mergeKeyDiagsL_fmt items]
theorem mergeKeyDiagsE_fmt : ∀ items : List (String × Node),
    mergeKeyDiagsE ((fmtEntries items).1) = mergeKeyDiagsE items
  | [] => by simp [fmtEntries]
  | (k, v) :: tl => by
      simp [fmtEntries, mergeKeyDiagsE, mergeKeyDiags_fmt v, mergeKeyDiagsE_fmt tl]
theorem mergeKeyDiagsL_fmt : ∀ items : List Node,
    mergeKeyDiagsL ((fmtList items).1) = mergeKeyDiagsL items
  | [] => by simp [fmtList]
  | v :: tl => by
      simp [fmtList, mergeKeyDiagsL, mergeKeyDiags_fmt v, mergeKeyDiagsL_fmt tl]
end

/-! ## C2: the reference scan is invariant under the rewriting stages -/

theorem refsOfNode_ppv (k : String) (sv : SVal) (st : SStyle) :
    ∀ st1 : SStyle,
    refsOfNode (.scalar (processPairValue k sv st).value st1) =
      refsOfNode (.scalar sv st) := by
  intro st1
  rcases ppv_value_spec k sv st with h | ⟨s, b, hsv, hval, hs⟩
  · rw [h]
    cases sv <;> rfl
  · rw [hval, hsv]
    rcases hs with h | h | h | h | h | h <;> subst h <;> rfl

mutual
theorem refsOf_vt : ∀ n : Node, refsOfNode ((vtNode n).1) = refsOfNode n
  | .scalar v s => by simp [vtNode]
  | .aliasNode a => by simp [vtNode]
  | .map fl items => by simp [vtNode, refsOfNode, refsOfE_vt items]
  | .seq fl items => by simp [vtNode, refsOfNode, refsOfL_vt items]
theorem refsOfE_vt : ∀ items : List (String × Node),
    refsOfEntries ((vtEntries items).1) = refsOfEntries items
  | [] => by simp [vtEntries]
  | (k, .scalar sv st) :: tl => by
      simp [vtEntries, refsOfEntries, refsOfNode_ppv k sv st, refsOfE_vt tl]
  | (k, .aliasNode a) :: tl => by
      simp [vtEntries, vtNode, refsOfEntries, refsOfE_vt tl]
  | (k, .map f i) :: tl => by
      simp [vtEntries, vtNode, refsOfEntries, refsOfNode, refsOfE_vt i, refsOfE_vt tl]
  | (k, .seq f i) :: tl => by
      simp [vtEntries, vtNode, refsOfEntries, refsOfNode, refsOfL_vt i, refsOfE_vt tl]
theorem refsOfL_vt : ∀ items : List Node,
    refsOfList ((vtList items).1) = refsOfList items
  | [] => by simp [vtList]
  | .scalar sv st :: tl => by
      simp [vtList, vtNode, refsOfList, refsOfL_vt tl]
  | .aliasNode a :: tl => by
      simp [vtList, vtNode, refsOfList, refsOfL_vt tl]
  | .map f i :: tl => by
      simp [vtList, vtNode, refsOfList, refsOfNode, refsOfE_vt i, refsOfL_vt tl]
  | .seq f i :: tl => by
      simp [vtList, vtNode, refsOfList, refsOfNode, refsOfL_vt i, refsOfL_vt tl]
end

mutual
theorem refsOf_fmt : ∀ n : Node, refsOfNode ((fmtNode n).1) = refsOfNode n
  | .scalar v s => by simp [fmtNode]
  | .aliasNode a => by simp [fmtNode]
  | .map fl items => by simp [fmtNode, refsOfNode, refsOfE_fmt items]
  | .seq fl items => by simp [fmtNode, refsOfNode, refsOfL_fmt items]
theorem refsOfE_fmt : ∀ items : List (String × Node),
    refsOfEntries ((fmtEntries items).1) = refsOfEntries items
  | [] => by simp [fmtEntries]
  | (k, v) :: tl => by
      simp [fmtEntries, refsOfEntries, refsOf_fmt v, refsOfE_fmt tl]
theorem refsOfL_fmt : ∀ items : List Node,
    refsOfList ((fmtList items).1) = refsOfList items
  | [] => by simp [fmtList]
  | v :: tl => by simp [fmtList, refsOfList, refsOf_fmt v, refsOfL_fmt tl]
end

theorem tryRefMatch_star {l m rest : List Char} (h : tryRefMatch l = some (m, rest)) :
    (∃ t, m = Char.ofNat 92 :: '*' :: t) ∨ (∃ t, m = '*' :: t) := by
  rw [tryRefMatch.eq_def] at h
  split at h
  · rcases hts : takeSeg _ with _ | ⟨mm, r⟩ <;> rw [hts] at h
    · exact absurd h (by simp)
    · left
      refine ⟨mm ++ (takeDotSegs r.length r).1, ?_⟩
      have := (Option.some_inj.mp h)
      have h1 := congrArg Prod.fst this
      simpa using h1.symm
  · rcases hts : takeSeg _ with _ | ⟨mm, r⟩ <;> rw [hts] at h
    · exact absurd h (by simp)
    · right
      refine ⟨mm ++ (takeDotSegs r.length r).1, ?_⟩
      have := (Option.some_inj.mp h)
      have h1 := congrArg Prod.fst this
      simpa using h1.symm
  · exact absurd h (by simp)

theorem scanRefsAux_star : ∀ (fuel : Nat) (l : List Char) (m : List Char),
    m ∈ scanRefsAux fuel l →
    (∃ t, m = Char.ofNat 92 :: '*' :: t) ∨ (∃ t, m = '*' :: t)
  | 0, _, m, h => by simp [scanRefsAux] at h
  | fuel + 1, [], m, h => by simp [scanRefsAux] at h
  | fuel + 1, c :: l, m, h => by
      rw [scanRefsAux] at h
      case x_2 => simp
      cases htr : tryRefMatch (c :: l) with
      | some p =>
          rw [htr] at h
          rcases List.mem_cons.mp h with h | h
          · subst h
            exact tryRefMatch_star (by rw [htr])
          · exact scanRefsAux_star fuel p.2 m h
      | none =>
          rw [htr] at h
          exact scanRefsAux_star fuel (c :: l).tail m h

theorem scalarRefs_star {s : String} {r : String} (hr : r ∈ scalarRefs s) :
    strStartsWith r "*" = true := by
  rw [scalarRefs] at hr
  split at hr
  · simp at hr
  · split at hr
    · rcases List.mem_singleton.mp hr with rfl
      assumption
    · rcases List.mem_filterMap.mp hr with ⟨m, hm, hme⟩
      by_cases hesc : lcStartsWith m [Char.ofNat 92, '*'] = true
      · rw [if_pos hesc] at hme
        exact absurd hme (by simp)
      · rw [if_neg hesc] at hme
        have hm' := Option.some_inj.mp hme
        subst hm'
        rcases scanRefsAux_star _ _ m hm with ⟨t, ht⟩ | ⟨t, ht⟩
        · exact absurd (by rw [ht]; simp [lcStartsWith]) hesc
        · rw [ht]
          simp [strStartsWith, lcStartsWith]

mutual
theorem refsOf_star : ∀ (n : Node) (r : String), r ∈ refsOfNode n →
    strStartsWith r "*" = true
  | .scalar (.str s) st, r, h => by
      rw [refsOfNode] at h
      exact scalarRefs_star h
  | .scalar (.bool b) st, r, h => by simp [refsOfNode] at h
  | .scalar (.num n) st, r, h => by simp [refsOfNode] at h
  | .scalar .null st, r, h => by simp [refsOfNode] at h
  | .aliasNode a, r, h => by simp [refsOfNode] at h
  | .map fl items, r, h => by
      rw [refsOfNode] at h
      exact refsOfE_star items r h
  | .seq fl items, r, h => by
      rw [refsOfNode] at h
      exact refsOfL_star items r h
theorem refsOfE_star : ∀ (items : List (String × Node)) (r : String),
    r ∈ refsOfEntries items → strStartsWith r "*" = true
  | (k, v) :: tl, r, h => by
      rw [refsOfEntries] at h
      rcases List.mem_append.mp h with h | h
      · rcases List.mem_append.mp h with h | h
        · exact scalarRefs_star h
        · exact refsOf_star v r h
      · exact refsOfE_star tl r h
theorem refsOfL_star : ∀ (items : List Node) (r : String),
    r ∈ refsOfList items → strStartsWith r "*" = true
  | v :: tl, r, h => by
      rw [refsOfList] at h
      rcases List.mem_append.mp h with h | h
      · exact refsOf_star v r h
      · exact refsOfL_star tl r h
end

theorem findAllReferences_star {d : Doc} {r : String}
    (h : r ∈ findAllReferences d) : strStartsWith r "*" = true := by
  cases d with
  | none => simp [findAllReferences] at h
  | some n => exact refsOf_star n r h

/-! ## C2: path resolution is invariant under the rewriting stages -/

theorem walkPath_nil (n : Node) : walkPath n [] = true := by
  cases n <;> rfl

theorem walk_vt : ∀ (segs : List String) (k : String) (n : Node),
    walkPath (vtVal k n) segs = walkPath n segs
  | [], k, n => by rw [walkPath_nil, walkPath_nil]
  | seg :: rest, k, n => by
      cases n with
      | scalar sv st => rfl
      | aliasNode a => rfl
      | seq fl its => rfl
      | map fl its =>
          show walkPath (Node.map fl ((vtEntries its).1)) (seg :: rest) = _
          rw [walkPath, walkPath, vtEntries_eq_map its,
            find?_map_fst seg (fun p => (p.1, vtVal p.1 p.2)) (fun p => rfl)]
          cases hfind : its.find? (fun it => it.1 == seg) with
          | none => rfl
          | some p =>
              dsimp only
              exact walk_vt rest p.1 p.2

theorem walk_fmt : ∀ (segs : List String) (n : Node),
    walkPath ((fmtNode n).1) segs = walkPath n segs
  | [], n => by rw [walkPath_nil, walkPath_nil]
  | seg :: rest, n => by
      cases n with
      | scalar sv st => rfl
      | aliasNode a => rfl
      | seq fl its => rfl
      | map fl its =>
          show walkPath (Node.map _ ((fmtEntries its).1)) (seg :: rest) = _
          rw [walkPath, walkPath, fmtEntries_eq_map its,
            find?_map_fst seg (fun p => (p.1, (fmtNode p.2).1)) (fun p => rfl)]
          cases hfind : its.find? (fun it => it.1 == seg) with
          | none => rfl
          | some p =>
              dsimp only
              exact walk_fmt rest p.2

theorem referenceExists_vtDoc (n : Node) (r : String) :
    referenceExists (some ((vtNode n).1)) r = referenceExists (some n) r := by
  cases n with
  | scalar sv st => rfl
  | aliasNode a => rfl
  | seq fl its => rfl
  | map fl its =>
      show walkPath (Node.map fl ((vtEntries its).1)) (refPathSegments r) =
        walkPath (Node.map fl its) (refPathSegments r)
      exact walk_vt (refPathSegments r) "x" (Node.map fl its)

theorem referenceExists_fmtDoc (n : Node) (r : String) :
    referenceExists (some ((fmtNode n).1)) r = referenceExists (some n) r := by
  cases n with
  | scalar sv st => rfl
  | aliasNode a => rfl
  | seq fl its => rfl
  | map fl its =>
      show walkPath (Node.map _ ((fmtEntries its).1)) (refPathSegments r) =
        walkPath (Node.map fl its) (refPathSegments r)
      exact walk_fmt (refPathSegments r) (Node.map fl its)

mutual
theorem findPropV_vt : ∀ (k : String) (v : Node) (pre : List String) (target : String),
    strStartsWith target "*" = true →
    findPropInValue k (vtVal k v) pre target = findPropInValue k v pre target
  | k, .scalar sv st, pre, target, htarget => by
      rcases ppv_value_spec k sv st with hsame | ⟨s, b, hsv, hval, hs⟩
      · show findPropInValue k
            (Node.scalar (processPairValue k sv st).value (processPairValue k sv st).style)
            pre target = _
        rw [hsame]
        cases sv <;> rfl
      · subst hsv
        have hne : (s == target) = false := by
          rcases hs with h | h | h | h | h | h <;> subst h <;>
            (apply beq_eq_false_iff_ne.mpr
             intro hc
             subst hc
             simp [strStartsWith, lcStartsWith] at htarget)
        have hR : findPropInValue k (Node.scalar (SVal.str s) st) pre target = none := by
          rw [findPropInValue, hne]
          simp
        show findPropInValue k
            (Node.scalar (processPairValue k (SVal.str s) st).value
              (processPairValue k (SVal.str s) st).style) pre target = _
        rw [hval, hR]
        rfl
  | k, .aliasNode a, pre, target, _ => rfl
  | k, .seq fl its, pre, target, _ => rfl
  | k, .map fl its, pre, target, htarget => by
      show findPropInMap ((vtEntries its).1) (pre ++ [k]) target = _
      rw [findPropE_vt its (pre ++ [k]) target htarget]
      rfl
theorem findPropE_vt : ∀ (items : List (String × Node)) (pre : List String)
    (target : String), strStartsWith target "*" = true →
    findPropInMap ((vtEntries items).1) pre target = findPropInMap items pre target
  | [], _, _, _ => rfl
  | (k, v) :: tl, pre, target, htarget => by
      have hcons : (vtEntries ((k, v) :: tl)).1 = (k, vtVal k v) :: (vtEntries tl).1 := by
        rw [vtEntries_eq_map, vtEntries_eq_map, List.map_cons]
      rw [hcons, findPropInMap, findPropInMap]
      rw [findPropV_vt k v pre target htarget]
      cases hfv : findPropInValue k v pre target with
      | some r => rfl
      | none => exact findPropE_vt tl pre target htarget
end

mutual
theorem findPropV_fmt : ∀ (k : String) (v : Node) (pre : List String) (target : String),
    findPropInValue k ((fmtNode v).1) pre target = findPropInValue k v pre target
  | k, .scalar sv st, pre, target => rfl
  | k, .aliasNode a, pre, target => rfl
  | k, .seq fl its, pre, target => rfl
  | k, .map fl its, pre, target => by
      show findPropInMap ((fmtEntries its).1) (pre ++ [k]) target = _
      rw [findPropE_fmt its (pre ++ [k]) target]
      rfl
theorem findPropE_fmt : ∀ (items : List (String × Node)) (pre : List String)
    (target : String),
    findPropInMap ((fmtEntries items).1) pre target = findPropInMap items pre target
  | [], _, _ => rfl
  | (k, v) :: tl, pre, target => by
      have hcons : (fmtEntries ((k, v) :: tl)).1 = (k, (fmtNode v).1) :: (fmtEntries tl).1 := by
        rw [fmtEntries_eq_map, fmtEntries_eq_map, List.map_cons]
      rw [hcons, findPropInMap, findPropInMap]
      rw [findPropV_fmt k v pre target]
      cases hfv : findPropInValue k v pre target with
      | some r => rfl
      | none => exact findPropE_fmt tl pre target
end

theorem findProp_vtDoc (n : Node) (target : String)
    (htarget : strStartsWith target "*" = true) :
    findPropertyContainingReference (some ((vtNode n).1)) target =
      findPropertyContainingReference (some n) target := by
  cases n with
  | scalar sv st => rfl
  | aliasNode a => rfl
  | seq fl its => rfl
  | map fl its =>
      show findPropInMap ((vtEntries its).1) [] target = findPropInMap its [] target
      exact findPropE_vt its [] target htarget

theorem findProp_fmtDoc (n : Node) (target : String) :
    findPropertyContainingReference (some ((fmtNode n).1)) target =
      findPropertyContainingReference (some n) target := by
  cases n with
  | scalar sv st => rfl
  | aliasNode a => rfl
  | seq fl its => rfl
  | map fl its =>
      show findPropInMap ((fmtEntries its).1) [] target = findPropInMap its [] target
      exact findPropE_fmt its [] target

/-! ## C2: the $refs section extraction is invariant under the rewriting stages -/

theorem vtVal_scalar (k : String) (sv : SVal) (st : SStyle) :
    vtVal k (.scalar sv st) =
      .scalar (processPairValue k sv st).value (processPairValue k sv st).style := rfl

theorem vtVal_map (k : String) (fl : Bool) (its : List (String × Node)) :
    vtVal k (.map fl its) = .map fl ((vtEntries its).1) := rfl

theorem vtVal_seq (k : String) (fl : Bool) (its : List Node) :
    vtVal k (.seq fl its) = .seq fl ((vtList its).1) := rfl

theorem vtVal_alias (k : String) (a : String) :
    vtVal k (.aliasNode a) = .aliasNode a := rfl

theorem extractRefs_vt (d : Doc) :
    extractRefsSection (validateValueTypes d).1 = extractRefsSection d := by
  cases d with
  | none => rfl
  | some n =>
      cases n with
      | scalar sv st => rfl
      | aliasNode a => rfl
      | seq fl its => rfl
      | map fl its =>
          show extractRefsSection (some (Node.map fl ((vtEntries its).1))) = _
          rw [extractRefsSection, extractRefsSection]
          rw [vtEntries_eq_map its,
            find?_map_fst "$refs" (fun p => (p.1, vtVal p.1 p.2)) (fun p => rfl)]
          cases hf : its.find? (fun it => it.1 == "$refs") with
          | none => rfl
          | some rI =>
              dsimp only [Option.map]
              cases hrv : rI.2 with
              | scalar sv st => rw [vtVal_scalar]
              | aliasNode a => rfl
              | seq sfl sits => rfl
              | map rfl2 rits =>
                  rw [vtVal_map]
                  dsimp only
                  rw [vtEntries_eq_map rits, List.filterMap_map]
                  apply List.filterMap_congr
                  intro it hit
                  dsimp only [Function.comp]
                  cases hv2 : it.2 with
                  | scalar sv st => rw [vtVal_scalar]
                  | aliasNode a => rfl
                  | seq sfl sits => rfl
                  | map efl eits =>
                      rw [vtVal_map]
                      dsimp only
                      rw [vtEntries_eq_map eits,
                        find?_map_fst "path" (fun p => (p.1, vtVal p.1 p.2)) (fun p => rfl)]
                      cases hfp : eits.find? (fun e => e.1 == "path") with
                      | none => rfl
                      | some pItem =>
                          have hp1 : pItem.1 = "path" := by
                            simpa using List.find?_some hfp
                          dsimp only [Option.map]
                          rw [hp1]
                          cases hpv : pItem.2 with
                          | scalar sv st2 =>
                              rw [vtVal_scalar,
                                ppv_value_not_trigger "path" sv st2 (by decide)]
                              cases sv <;> rfl
                          | aliasNode a => rfl
                          | seq sfl sits => rfl
                          | map mfl mits => rw [vtVal_map]

theorem extractRefs_fmt (d : Doc) :
    extractRefsSection (formatDataStructures d).1 = extractRefsSection d := by
  cases d with
  | none => rfl
  | some n =>
      cases n with
      | scalar sv st => rfl
      | aliasNode a => rfl
      | seq fl its => rfl
      | map fl its =>
          show extractRefsSection (some (Node.map _ ((fmtEntries its).1))) = _
          rw [extractRefsSection, extractRefsSection]
          rw [fmtEntries_eq_map its,
            find?_map_fst "$refs" (fun p => (p.1, (fmtNode p.2).1)) (fun p => rfl)]
          cases hf : its.find? (fun it => it.1 == "$refs") with
          | none => rfl
          | some rI =>
              dsimp only [Option.map]
              cases hrv : rI.2 with
              | scalar sv st => rfl
              | aliasNode a => rfl
              | seq sfl sits => rfl
              | map rfl2 rits =>
                  dsimp only [fmtNode]
                  rw [fmtEntries_eq_map rits, List.filterMap_map]
                  apply List.filterMap_congr
                  intro it hit
                  dsimp only [Function.comp]
                  cases hv2 : it.2 with
                  | scalar sv st => rfl
                  | aliasNode a => rfl
                  | seq sfl sits => rfl
                  | map efl eits =>
                      dsimp only [fmtNode]
                      rw [fmtEntries_eq_map eits,
                        find?_map_fst "path" (fun p => (p.1, (fmtNode p.2).1)) (fun p => rfl)]
                      cases hfp : eits.find? (fun e => e.1 == "path") with
                      | none => rfl
                      | some pItem =>
                          dsimp only [Option.map]
                          cases hpv : pItem.2 with
                          | scalar sv st2 => rfl
                          | aliasNode a => rfl
                          | seq sfl sits => rfl
                          | map mfl mits => dsimp only [fmtNode]

/-! ## C2: the reference validator only sees the invariant views of the doc -/

theorem flatMap_congr_list {α β : Type} : ∀ (l : List α) (f g : α → List β),
    (∀ x ∈ l, f x = g x) → l.flatMap f = l.flatMap g
  | [], _, _, _ => rfl
  | x :: tl, f, g, h => by
      rw [List.flatMap_cons, List.flatMap_cons, h x (by simp),
        flatMap_congr_list tl f g (fun y hy => h y (by simp [hy]))]

theorem buildDependencyGraph_congr (d1 d2 : Doc) :
    ∀ (refs : List String) (g : List (String × String)),
    (∀ r ∈ refs, findPropertyContainingReference d1 r =
      findPropertyContainingReference d2 r) →
    (∀ r ∈ refs, referenceExists d1 r = referenceExists d2 r) →
    buildDependencyGraph d1 refs g = buildDependencyGraph d2 refs g
  | [], g, _, _ => rfl
  | r :: rest, g, h1, h2 => by
      rw [buildDependencyGraph, buildDependencyGraph, h1 r (by simp), h2 r (by simp)]
      cases hfp : findPropertyContainingReference d2 r with
      | none =>
          exact buildDependencyGraph_congr d1 d2 rest g
            (fun x hx => h1 x (by simp [hx])) (fun x hx => h2 x (by simp [hx]))
      | some src =>
          dsimp only
          by_cases hex : referenceExists d2 r = true
          · rw [if_pos hex, if_pos hex]
            exact buildDependencyGraph_congr d1 d2 rest _
              (fun x hx => h1 x (by simp [hx])) (fun x hx => h2 x (by simp [hx]))
          · rw [if_neg hex, if_neg hex]
            exact buildDependencyGraph_congr d1 d2 rest g
              (fun x hx => h1 x (by simp [hx])) (fun x hx => h2 x (by simp [hx]))

theorem findCircularReferences_congr (d1 d2 : Doc) (refs : List String)
    (h1 : ∀ r ∈ refs, findPropertyContainingReference d1 r =
      findPropertyContainingReference d2 r)
    (h2 : ∀ r ∈ refs, referenceExists d1 r = referenceExists d2 r) :
    findCircularReferences d1 refs = findCircularReferences d2 refs := by
  rw [findCircularReferences, findCircularReferences,
    buildDependencyGraph_congr d1 d2 refs [] h1 h2]

theorem validateReferences_congr (env : FsEnv) (d1 d2 : Doc)
    (hmr : validateYamlMergeKeys d1 = validateYamlMergeKeys d2)
    (hex : extractRefsSection d1 = extractRefsSection d2)
    (hfa : findAllReferences d1 = findAllReferences d2)
    (href : ∀ r, referenceExists d1 r = referenceExists d2 r)
    (hfp : ∀ r ∈ findAllReferences d2, findPropertyContainingReference d1 r =
      findPropertyContainingReference d2 r) :
    validateReferences env d1 = validateReferences env d2 := by
  have h4 : (findAllReferences d2).flatMap (refDiag d1 (extractRefsSection d2) env) =
      (findAllReferences d2).flatMap (refDiag d2 (extractRefsSection d2) env) :=
    flatMap_congr_list _ _ _ (fun r hr => by rw [refDiag, refDiag, href r])
  have h5 : findCircularReferences d1 ((findAllReferences d2).filter
        (fun r => !(isExternalReference r (extractRefsSection d2)).isExternal)) =
      findCircularReferences d2 ((findAllReferences d2).filter
        (fun r => !(isExternalReference r (extractRefsSection d2)).isExternal)) :=
    findCircularReferences_congr d1 d2 _
      (fun r hr => hfp r (List.mem_of_mem_filter hr)) (fun r _ => href r)
  rw [validateReferences, validateReferences]
  dsimp only
  rw [hmr, hex, hfa, h4, h5]

theorem validateReferences_vtfmt (env : FsEnv) (n : Node) :
    validateReferences env (some ((fmtNode ((vtNode n).1)).1)) =
      validateReferences env (some n) := by
  apply validateReferences_congr
  · show mergeKeyDiags _ = mergeKeyDiags n
    rw [mergeKeyDiags_fmt, mergeKeyDiags_vt]
  · exact (extractRefs_fmt (some ((vtNode n).1))).trans (extractRefs_vt (some n))
  · show refsOfNode _ = refsOfNode n
    rw [refsOf_fmt, refsOf_vt]
  · intro r
    exact (referenceExists_fmtDoc ((vtNode n).1) r).trans (referenceExists_vtDoc n r)
  · intro r hr
    exact (findProp_fmtDoc ((vtNode n).1) r).trans
      (findProp_vtDoc n r (findAllReferences_star hr))

theorem mergeKeyDiags_vtfmt (n : Node) :
    validateYamlMergeKeys (some ((fmtNode ((vtNode n).1)).1)) =
      validateYamlMergeKeys (some n) := by
  show mergeKeyDiags _ = mergeKeyDiags n
  rw [mergeKeyDiags_fmt, mergeKeyDiags_vt]

/-! ## C2: the required-field loop of validateMetaSection -/

theorem find?_none_of_all_neg {α : Type} (p : α → Bool) {l : List α}
    (h : ∀ q ∈ l, p q = false) : l.find? p = none :=
  List.find?_eq_none.mpr (fun x hx => by simp [h x hx])

theorem foldSteps_run : ∀ (fs : List String) (its ext : List (String × Node))
    (errs : List Diag) (evs : List FixEv),
    (∀ q ∈ ext, ∀ f ∈ fs, (q.1 == f) = false) → fs.Nodup →
    ∃ ext2 evs2,
      fs.foldl (fun s f => metaFieldStep f s) ⟨its ++ ext, errs, evs⟩ =
        ⟨its ++ (ext ++ ext2),
          errs ++ fs.flatMap (fun f =>
            if f == "domains" then [] else fieldErr its f),
          evs ++ evs2⟩ ∧
      (∀ f ∈ fs, (its ++ (ext ++ ext2)).find? (fun it => it.1 == f) =
        some ((its.find? (fun it => it.1 == f)).getD (f, metaFieldDefault f))) ∧
      ((∀ f ∈ fs, (its.find? (fun it => it.1 == f)).isSome = true) →
        (ext2 = [] ∧ evs2 = []))
  | [], its, ext, errs, evs, _, _ =>
      ⟨[], [], by simp, fun f hf => absurd hf (List.not_mem_nil f),
        fun _ => ⟨rfl, rfl⟩⟩
  | f :: fs', its, ext, errs, evs, hext, hnd => by
      have hextf : ext.find? (fun it => it.1 == f) = none :=
        find?_none_of_all_neg _ (fun q hq => hext q hq f (by simp))
      have hstep_items : (its ++ ext).find? (fun it => it.1 == f) =
          its.find? (fun it => it.1 == f) := by
        rw [List.find?_append, hextf, Option.or_none]
      have hnotmem : f ∉ fs' := (List.nodup_cons.mp hnd).1
      rw [List.foldl_cons]
      cases hof : its.find? (fun it => it.1 == f) with
      | some it0 =>
          have hcharf : ∀ X : List (String × Node),
              (its ++ X).find? (fun it => it.1 == f) = some it0 := fun X => by
            rw [List.find?_append, hof]
            rfl
          by_cases hdom : (f == "domains") = true
          · have hstep : metaFieldStep f ⟨its ++ ext, errs, evs⟩ =
                ⟨its ++ ext, errs, evs⟩ := by
              rw [metaFieldStep]
              dsimp only
              rw [hstep_items, hof]
              dsimp only
              rw [if_pos hdom]
            rw [hstep]
            obtain ⟨ext2, evs2, h1, h3, h4⟩ := foldSteps_run fs' its ext errs evs
              (fun q hq g hg => hext q hq g (by simp [hg])) (List.Nodup.of_cons hnd)
            refine ⟨ext2, evs2, ?_, ?_, ?_⟩
            · rw [h1, List.flatMap_cons, if_pos hdom]
              simp
            · intro g hg
              rcases List.mem_cons.mp hg with hg | hg
              · subst hg
                rw [hcharf, hof]
                rfl
              · exact h3 g hg
            · intro hp
              exact h4 (fun g hg => hp g (by simp [hg]))
          · have hstep : metaFieldStep f ⟨its ++ ext, errs, evs⟩ =
                ⟨its ++ ext, errs ++ validateMetaFieldValue f it0.2, evs⟩ := by
              rw [metaFieldStep]
              dsimp only
              rw [hstep_items, hof]
              dsimp only
              rw [if_neg hdom]
            rw [hstep]
            obtain ⟨ext2, evs2, h1, h3, h4⟩ := foldSteps_run fs' its ext
              (errs ++ validateMetaFieldValue f it0.2) evs
              (fun q hq g hg => hext q hq g (by simp [hg])) (List.Nodup.of_cons hnd)
            refine ⟨ext2, evs2, ?_, ?_, ?_⟩
            · rw [h1, List.flatMap_cons, if_neg hdom]
              rw [fieldErr, hof]
              simp
            · intro g hg
              rcases List.mem_cons.mp hg with hg | hg
              · subst hg
                rw [hcharf, hof]
                rfl
              · exact h3 g hg
            · intro hp
              exact h4 (fun g hg => hp g (by simp [hg]))
      | none =>
          have hstep : metaFieldStep f ⟨its ++ ext, errs, evs⟩ =
              ⟨its ++ (ext ++ [(f, metaFieldDefault f)]), errs,
                evs ++ [.add ("Added missing required field: " ++ f)]⟩ := by
            rw [metaFieldStep]
            dsimp only
            rw [hstep_items, hof]
            rw [List.append_assoc]
          rw [hstep]
          have hext' : ∀ q ∈ ext ++ [(f, metaFieldDefault f)], ∀ g ∈ fs',
              (q.1 == g) = false := by
            intro q hq g hg
            rcases List.mem_append.mp hq with hq | hq
            · exact hext q hq g (by simp [hg])
            · rcases List.mem_singleton.mp hq with rfl
              apply beq_eq_false_iff_ne.mpr
              intro hc
              rw [show ((f, metaFieldDefault f) : String × Node).1 = f from rfl] at hc
              exact hnotmem (hc ▸ hg)
          obtain ⟨ext2, evs2, h1, h3, h4⟩ := foldSteps_run fs' its
            (ext ++ [(f, metaFieldDefault f)]) errs
            (evs ++ [.add ("Added missing required field: " ++ f)])
            hext' (List.Nodup.of_cons hnd)
          refine ⟨(f, metaFieldDefault f) :: ext2,
            .add ("Added missing required field: " ++ f) :: evs2, ?_, ?_, ?_⟩
          · rw [h1, List.flatMap_cons]
            rw [show (if (f == "domains") = true then ([] : List Diag)
                else fieldErr its f) = [] from by
              rw [fieldErr, hof]
              split <;> rfl]
            simp
          · intro g hg
            rcases List.mem_cons.mp hg with hg | hg
            · rw [hg]
              have hx : (((ext ++ [(f, metaFieldDefault f)]) ++ ext2).find?
                  (fun it => it.1 == f)) = some (f, metaFieldDefault f) := by
                rw [List.find?_append, List.find?_append, hextf, Option.none_or]
                rw [show ([(f, metaFieldDefault f)].find? (fun it => it.1 == f)) =
                  some (f, metaFieldDefault f) from by simp]
                rfl
              rw [hof]
              have hfinal : (its ++ (ext ++ ((f, metaFieldDefault f) :: ext2))).find?
                  (fun it => it.1 == f) = some (f, metaFieldDefault f) := by
                rw [show ext ++ ((f, metaFieldDefault f) :: ext2) =
                  (ext ++ [(f, metaFieldDefault f)]) ++ ext2 from by simp]
                rw [List.find?_append, hof, Option.none_or, hx]
              rw [hfinal]
              rfl
            · have h := h3 g hg
              rw [List.append_assoc] at h
              exact h
          · intro hp
            exact absurd (hp f (by simp)) (by simp [hof])

/-! ## C2: the per-field checks are invariant under the rewriting stages -/

theorem vtFmtVal_scalar_value (k : String) (sv : SVal) (st : SStyle)
    (h : isBooleanTrigger k = false) :
    vtFmtVal k (.scalar sv st) = .scalar sv (processPairValue k sv st).style := by
  rw [vtFmtVal, vtVal_scalar, ppv_value_not_trigger k sv st h]
  rfl

theorem vtFmtVal_alias (k a : String) : vtFmtVal k (.aliasNode a) = .aliasNode a := rfl

theorem vmfv_vtFmtVal (f : String) (v : Node) (hf : isBooleanTrigger f = false) :
    validateMetaFieldValue f (vtFmtVal f v) = validateMetaFieldValue f v := by
  cases v with
  | scalar sv st =>
      rw [vtFmtVal_scalar_value f sv st hf]
      cases sv <;> rfl
  | aliasNode a => rfl
  | map fl its => rfl
  | seq fl its => rfl

/-! ## C2: the domains pass is invariant under the rewriting stages -/

theorem domainsPass_cons (it : Node) (tl : List Node) :
    domainsPass (it :: tl) = (match it with
      | .scalar (.str d) _ => (d :: (domainsPass tl).1,
          (if !isValidDomainFormat d then
            [⟨"LAML_DOMAIN_INVALID_FORMAT", [d]⟩] else []) ++ (domainsPass tl).2)
      | _ => ((domainsPass tl).1,
          ⟨"LAML_DOMAIN_INVALID_TYPE", []⟩ :: (domainsPass tl).2)) := by
  cases it with
  | scalar sv st => cases sv <;> rfl
  | aliasNode a => rfl
  | map f i => rfl
  | seq f i => rfl

theorem domainsPass_vt : ∀ items : List Node,
    domainsPass ((vtList items).1) = domainsPass items
  | [] => rfl
  | it :: tl => by
      have hcons : (vtList (it :: tl)).1 = (vtNode it).1 :: (vtList tl).1 := by
        rw [vtList_eq_map, vtList_eq_map, List.map_cons]
      rw [hcons, domainsPass_cons, domainsPass_cons, domainsPass_vt tl]
      cases it with
      | scalar sv st => cases sv <;> rfl
      | aliasNode a => rfl
      | map f i => rfl
      | seq f i => rfl

theorem domainsPass_fmt : ∀ items : List Node,
    domainsPass ((fmtList items).1) = domainsPass items
  | [] => rfl
  | it :: tl => by
      have hcons : (fmtList (it :: tl)).1 = (fmtNode it).1 :: (fmtList tl).1 := by
        rw [fmtList_eq_map, fmtList_eq_map, List.map_cons]
      rw [hcons, domainsPass_cons, domainsPass_cons, domainsPass_fmt tl]
      cases it with
      | scalar sv st => cases sv <;> rfl
      | aliasNode a => rfl
      | map f i => rfl
      | seq f i => rfl

theorem domainsPass_strings : ∀ items : List Node, items.all isStrScalar = true →
    (domainsPass items).2 = domFmtErrs (domainsPass items).1 ∧
    (domainsPass items).1.length = items.length
  | [], _ => ⟨rfl, rfl⟩
  | it :: tl, h => by
      rw [List.all_cons, Bool.and_eq_true] at h
      obtain ⟨h2, h3⟩ := domainsPass_strings tl h.2
      cases it with
      | scalar sv st =>
          cases sv with
          | str d =>
              rw [domainsPass]
              dsimp only
              constructor
              · rw [h2]
                rw [show domFmtErrs (d :: (domainsPass tl).1) =
                  (if !isValidDomainFormat d then
                    [⟨"LAML_DOMAIN_INVALID_FORMAT", [d]⟩] else []) ++
                    domFmtErrs (domainsPass tl).1 from by rw [domFmtErrs, domFmtErrs,
                      List.flatMap_cons]]
              · simp [h3]
          | bool b => simp [isStrScalar] at h
          | num n => simp [isStrScalar] at h
          | null => simp [isStrScalar] at h
      | aliasNode a => simp [isStrScalar] at h
      | map f i => simp [isStrScalar] at h
      | seq f i => simp [isStrScalar] at h

/-! ## C2: the duplicate splice converges in one pass -/

theorem dedupNew_congr : ∀ (l : List String) (s1 s2 : List String),
    (∀ x, x ∈ s1 ↔ x ∈ s2) → dedupNew s1 l = dedupNew s2 l
  | [], _, _, _ => rfl
  | d :: tl, s1, s2, h => by
      rw [dedupNew, dedupNew]
      by_cases hd : d ∈ s1
      · rw [if_pos hd, if_pos ((h d).mp hd)]
        refine congrArg _ (dedupNew_congr tl _ _ ?_)
        intro x
        simp [h x]
      · rw [if_neg hd, if_neg (fun hc => hd ((h d).mpr hc))]
        refine congrArg _ (dedupNew_congr tl _ _ ?_)
        intro x
        simp [h x]

theorem dedupFirst_eq_new : ∀ (l acc : List String),
    l.foldl (fun acc d => if d ∈ acc then acc else acc ++ [d]) acc =
      acc ++ dedupNew acc l
  | [], acc => by simp [dedupNew]
  | d :: tl, acc => by
      rw [List.foldl_cons, dedupNew]
      by_cases hd : d ∈ acc
      · rw [if_pos hd, if_pos hd, dedupFirst_eq_new tl acc]
        rw [dedupNew_congr tl acc (acc ++ [d]) (fun x => by
          simp
          intro hx
          subst hx
          exact hd)]
        simp
      · rw [if_neg hd, if_neg hd, dedupFirst_eq_new tl (acc ++ [d])]
        simp

theorem dedupFirst_new (l : List String) : dedupFirst l = dedupNew [] l := by
  rw [dedupFirst, dedupFirst_eq_new l []]
  rfl

theorem mem_dedupNew : ∀ (l seen : List String) (x : String),
    x ∈ dedupNew seen l ↔ (x ∈ l ∧ x ∉ seen)
  | [], seen, x => by simp [dedupNew]
  | d :: tl, seen, x => by
      rw [dedupNew]
      by_cases hd : d ∈ seen
      · rw [if_pos hd, List.nil_append, mem_dedupNew tl (seen ++ [d]) x]
        constructor
        · rintro ⟨hx, hns⟩
          exact ⟨List.mem_cons_of_mem _ hx, fun hc => hns (List.mem_append_left _ hc)⟩
        · rintro ⟨hx, hns⟩
          rcases List.mem_cons.mp hx with rfl | hx
          · exact absurd hd hns
          · refine ⟨hx, fun hc => ?_⟩
            rcases List.mem_append.mp hc with hc | hc
            · exact hns hc
            · rcases List.mem_singleton.mp hc with rfl
              exact hns hd
      · rw [if_neg hd, List.singleton_append]
        constructor
        · intro hx
          rcases List.mem_cons.mp hx with rfl | hx
          · exact ⟨List.mem_cons_self .., hd⟩
          · rw [mem_dedupNew tl (seen ++ [d]) x] at hx
            exact ⟨List.mem_cons_of_mem _ hx.1,
              fun hc => hx.2 (List.mem_append_left _ hc)⟩
        · rintro ⟨hx, hns⟩
          rcases List.mem_cons.mp hx with rfl | hx
          · exact List.mem_cons_self ..
          · by_cases hxd : x = d
            · subst hxd
              exact List.mem_cons_self ..
            · refine List.mem_cons_of_mem _ ?_
              rw [mem_dedupNew tl (seen ++ [d]) x]
              refine ⟨hx, fun hc => ?_⟩
              rcases List.mem_append.mp hc with hc | hc
              · exact hns hc
              · exact hxd (List.mem_singleton.mp hc)

theorem mem_dedupFirst (l : List String) (x : String) :
    x ∈ dedupFirst l ↔ x ∈ l := by
  rw [dedupFirst_new, mem_dedupNew]
  simp

theorem dedupNew_nodup : ∀ (l seen : List String), (dedupNew seen l).Nodup
  | [], _ => List.nodup_nil
  | d :: tl, seen => by
      rw [dedupNew]
      by_cases hd : d ∈ seen
      · rw [if_pos hd]
        simpa using dedupNew_nodup tl (seen ++ [d])
      · rw [if_neg hd]
        simp only [List.singleton_append, List.nodup_cons]
        refine ⟨?_, dedupNew_nodup tl (seen ++ [d])⟩
        rw [mem_dedupNew]
        rintro ⟨_, hns⟩
        exact hns (by simp)

theorem dedupNew_of_nodup : ∀ (l seen : List String), l.Nodup →
    (∀ x ∈ l, x ∉ seen) → dedupNew seen l = l
  | [], _, _, _ => rfl
  | d :: tl, seen, hnd, hs => by
      rw [dedupNew, if_neg (hs d (by simp))]
      rw [dedupNew_of_nodup tl (seen ++ [d]) (List.Nodup.of_cons hnd) ?_]
      · rfl
      · intro x hx
        simp only [List.mem_append, List.mem_singleton]
        rintro (hc | rfl)
        · exact hs x (by simp [hx]) hc
        · exact (List.nodup_cons.mp hnd).1 hx

theorem dedupFirst_of_nodup (l : List String) (h : l.Nodup) : dedupFirst l = l := by
  rw [dedupFirst_new, dedupNew_of_nodup l [] h (by simp)]

theorem dedupFirst_nodup (l : List String) : (dedupFirst l).Nodup := by
  rw [dedupFirst_new]
  exact dedupNew_nodup l []

theorem dupIdxs_lb : ∀ (l : List String) (seen : List String) (i j : Nat),
    j ∈ dupIdxs seen i l → i ≤ j
  | [], _, _, _, h => by simp [dupIdxs] at h
  | d :: tl, seen, i, j, h => by
      rw [dupIdxs] at h
      rcases List.mem_append.mp h with h | h
      · by_cases hd : d ∈ seen
        · rw [if_pos hd] at h
          rcases List.mem_singleton.mp h with rfl
          exact le_refl j
        · rw [if_neg hd] at h
          simp at h
      · exact Nat.le_of_succ_le (dupIdxs_lb tl _ (i + 1) j h)

theorem removeIdxsOff_congr : ∀ (items : List Node) (i : Nat) (bad1 bad2 : List Nat),
    (∀ j, i ≤ j → (j ∈ bad1 ↔ j ∈ bad2)) →
    removeIdxsOff i items bad1 = removeIdxsOff i items bad2
  | [], _, _, _, _ => rfl
  | x :: tl, i, bad1, bad2, h => by
      rw [removeIdxsOff, removeIdxsOff]
      have hrec := removeIdxsOff_congr tl (i + 1) bad1 bad2
        (fun j hj => h j (Nat.le_of_succ_le hj))
      by_cases hi : i ∈ bad1
      · rw [if_pos hi, if_pos ((h i (le_refl i)).mp hi), hrec]
      · rw [if_neg hi, if_neg (fun hc => hi ((h i (le_refl i)).mpr hc)), hrec]

theorem domFmtErrs_cons (d : String) (l : List String) :
    domFmtErrs (d :: l) =
      (if !isValidDomainFormat d then [⟨"LAML_DOMAIN_INVALID_FORMAT", [d]⟩] else []) ++
        domFmtErrs l := by
  rw [domFmtErrs, domFmtErrs, List.flatMap_cons]

theorem splice_dedup : ∀ (items : List Node) (seen : List String) (i : Nat),
    items.all isStrScalar = true →
    domainsPass (removeIdxsOff i items (dupIdxs seen i (domainsPass items).1)) =
      (dedupNew seen (domainsPass items).1,
        domFmtErrs (dedupNew seen (domainsPass items).1))
  | [], _, _, _ => rfl
  | it :: tl, seen, i, hall => by
      rw [List.all_cons, Bool.and_eq_true] at hall
      cases it with
      | scalar sv st =>
          cases sv with
          | str d =>
              have hp : (domainsPass (Node.scalar (SVal.str d) st :: tl)).1 =
                  d :: (domainsPass tl).1 := by
                rw [domainsPass_cons]
              rw [hp, dupIdxs, dedupNew, removeIdxsOff]
              have hih := splice_dedup tl (seen ++ [d]) (i + 1) hall.2
              by_cases hd : d ∈ seen
              · rw [if_pos hd, if_pos hd,
                  if_pos (show i ∈ [i] ++ dupIdxs (seen ++ [d]) (i + 1) (domainsPass tl).1
                    from by simp)]
                rw [removeIdxsOff_congr tl (i + 1)
                  ([i] ++ dupIdxs (seen ++ [d]) (i + 1) (domainsPass tl).1)
                  (dupIdxs (seen ++ [d]) (i + 1) (domainsPass tl).1)
                  (fun j hj => by
                    simp only [List.singleton_append, List.mem_cons]
                    constructor
                    · rintro (rfl | hx)
                      · omega
                      · exact hx
                    · exact fun hx => Or.inr hx)]
                rw [List.nil_append, List.nil_append, hih]
              · rw [if_neg hd, if_neg hd, List.nil_append,
                  if_neg (fun hc => absurd (dupIdxs_lb _ _ (i + 1) i hc) (by omega))]
                rw [List.singleton_append, List.singleton_append]
                rw [domainsPass_cons]
                dsimp only
                rw [hih, domFmtErrs_cons]
          | bool b => simp [isStrScalar] at hall
          | num n => simp [isStrScalar] at hall
          | null => simp [isStrScalar] at hall
      | aliasNode a => simp [isStrScalar] at hall
      | map f i2 => simp [isStrScalar] at hall
      | seq f i2 => simp [isStrScalar] at hall

theorem dedupFirst_ne_nil {l : List String} (h : l ≠ []) : dedupFirst l ≠ [] := by
  cases l with
  | nil => exact absurd rfl h
  | cons d tl =>
      intro hc
      have : d ∈ dedupFirst (d :: tl) := (mem_dedupFirst _ d).mpr (by simp)
      rw [hc] at this
      exact List.not_mem_nil d this

theorem all_removeIdxsOff {items : List Node} {bad : List Nat} {i : Nat}
    (h : items.all isStrScalar = true) :
    (removeIdxsOff i items bad).all isStrScalar = true := by
  rw [List.all_eq_true] at h ⊢
  exact fun x hx => h x (mem_removeIdxsOff i items bad x hx)

theorem vtList_length (l : List Node) : ((vtList l).1).length = l.length := by
  rw [vtList_eq_map, List.length_map]

theorem fmtList_length (l : List Node) : ((fmtList l).1).length = l.length := by
  rw [fmtList_eq_map, List.length_map]

theorem fmtNode_map (fl : Bool) (items : List (String × Node)) :
    ∃ fl2, (fmtNode (.map fl items)).1 = .map fl2 ((fmtEntries items).1) :=
  ⟨_, rfl⟩

theorem fmtNode_seq (fl : Bool) (items : List Node) :
    ∃ fl2, (fmtNode (.seq fl items)).1 = .seq fl2 ((fmtList items).1) :=
  ⟨_, rfl⟩

theorem vtFmtVal_map (k : String) (fl : Bool) (items : List (String × Node)) :
    ∃ fl2, vtFmtVal k (.map fl items) =
      .map fl2 (items.map (fun p => (p.1, vtFmtVal p.1 p.2))) := by
  obtain ⟨fl2, hf⟩ := fmtNode_map fl ((vtEntries items).1)
  refine ⟨fl2, ?_⟩
  rw [vtFmtVal, vtVal_map, hf, fmtEntries_eq_map, vtEntries_eq_map, List.map_map]
  rfl

theorem vtFmtVal_seq_ex (k : String) (fl : Bool) (items : List Node) :
    ∃ fl2, vtFmtVal k (.seq fl items) = .seq fl2 ((fmtList ((vtList items).1)).1) := by
  obtain ⟨fl2, hf⟩ := fmtNode_seq fl ((vtList items).1)
  exact ⟨fl2, by rw [vtFmtVal, vtVal_seq, hf]⟩

theorem mandatory_first (fl : Bool) (v : Node) (rest : List (String × Node)) :
    validateMandatorySections (some (.map fl (("$meta", v) :: rest))) =
      ⟨some (.map fl (("$meta", (validateMetaSection v).1) :: rest)),
        (validateMetaSection v).2.1, (validateMetaSection v).2.2⟩ := by
  rw [validateMandatorySections]
  have hmeta : ((("$meta", v) :: rest).any (fun it => it.1 == "$meta")) = true := by simp
  simp only [hmeta, eq_self_iff_true, if_true]
  rw [List.find?_cons_of_pos _ (by simp)]
  dsimp only
  rw [setFirstValue, if_pos (by simp : ("$meta" == "$meta") = true)]
  dsimp only [List.head?_cons]
  rw [if_pos (by simp : ("$meta" == "$meta") = true)]
  simp

theorem splice_dedup0 (items : List Node) (hall : items.all isStrScalar = true) :
    domainsPass (removeIdxs items (dupIdxs [] 0 (domainsPass items).1)) =
      (dedupFirst (domainsPass items).1, domFmtErrs (dedupFirst (domainsPass items).1)) := by
  rw [removeIdxs_off, splice_dedup items [] 0 hall, dedupFirst_new]

theorem mem_domFmtErrs (l : List Diag) (e : Diag) :
    ∀ ds : List String, e ∈ domFmtErrs ds ↔
      ∃ d, d ∈ ds ∧ (!isValidDomainFormat d) = true ∧
        e = ⟨"LAML_DOMAIN_INVALID_FORMAT", [d]⟩
  | [] => by simp [domFmtErrs]
  | d :: tl => by
      rw [domFmtErrs_cons]
      constructor
      · intro h
        rcases List.mem_append.mp h with h | h
        · by_cases hv : (!isValidDomainFormat d) = true
          · rw [if_pos hv] at h
            exact ⟨d, by simp, hv, List.mem_singleton.mp h⟩
          · rw [if_neg hv] at h
            exact absurd h (List.not_mem_nil e)
        · obtain ⟨d2, hd2, hv2, he2⟩ := (mem_domFmtErrs l e tl).mp h
          exact ⟨d2, by simp [hd2], hv2, he2⟩
      · rintro ⟨d2, hd2, hv2, he2⟩
        rcases List.mem_cons.mp hd2 with rfl | hd2
        · exact List.mem_append_left _ (by rw [if_pos hv2, he2]; simp)
        · exact List.mem_append_right _
            ((mem_domFmtErrs l e tl).mpr ⟨d2, hd2, hv2, he2⟩)

theorem domFmtErrs_dedup (ds : List String) (e : Diag) :
    e ∈ domFmtErrs (dedupFirst ds) ↔ e ∈ domFmtErrs ds := by
  rw [mem_domFmtErrs [] e, mem_domFmtErrs [] e]
  constructor
  · rintro ⟨d, hd, hv, he⟩
    exact ⟨d, (mem_dedupFirst ds d).mp hd, hv, he⟩
  · rintro ⟨d, hd, hv, he⟩
    exact ⟨d, (mem_dedupFirst ds d).mpr hd, hv, he⟩

theorem vtFmtVal_scalar_ex (k : String) (sv : SVal) (st : SStyle) :
    ∃ sv2 st2, vtFmtVal k (.scalar sv st) = .scalar sv2 st2 :=
  ⟨_, _, rfl⟩

theorem domainsPass_vtfmt (items : List Node) :
    domainsPass ((fmtList ((vtList items).1)).1) = domainsPass items := by
  rw [domainsPass_fmt, domainsPass_vt]

theorem vtfmtList_length (items : List Node) :
    ((fmtList ((vtList items).1)).1).length = items.length := by
  rw [fmtList_length, vtList_length]

theorem all_str_removeIdxs {items : List Node} {bad : List Nat}
    (h : items.all isStrScalar = true) :
    (removeIdxs items bad).all isStrScalar = true := by
  rw [removeIdxs_off]
  exact all_removeIdxsOff h

theorem VDF_missing (mits : List (String × Node))
    (hf : mits.find? (fun it => it.1 == "domains") = none) :
    validateDomainsField mits = ⟨mits, [⟨"LAML_META_DOMAINS_MISSING", []⟩], []⟩ := by
  rw [validateDomainsField, hf]

theorem VDF_nonseq (mits : List (String × Node)) (dm : String × Node)
    (hf : mits.find? (fun it => it.1 == "domains") = some dm)
    (hns : ∀ fl items, dm.2 ≠ Node.seq fl items) :
    validateDomainsField mits =
      ⟨mits, [⟨"LAML_META_DOMAINS_INVALID_TYPE", []⟩], []⟩ := by
  obtain ⟨dmk, dv⟩ := dm
  rw [validateDomainsField, hf]
  dsimp only
  cases dv with
  | scalar sv st => rfl
  | aliasNode a => rfl
  | map f i => rfl
  | seq f i => exact absurd rfl (hns f i)

theorem VDF_empty_seq (mits : List (String × Node)) (dmk : String) (fl : Bool)
    (hf : mits.find? (fun it => it.1 == "domains") = some (dmk, .seq fl [])) :
    validateDomainsField mits = ⟨mits, [⟨"LAML_DOMAINS_EMPTY", []⟩], []⟩ := by
  rw [validateDomainsField, hf]
  dsimp only
  simp

theorem VDF_nodup_seq (mits : List (String × Node)) (dmk : String) (fl : Bool)
    (items : List Node)
    (hf : mits.find? (fun it => it.1 == "domains") = some (dmk, .seq fl items))
    (hlen : items.length ≠ 0)
    (hnd : (dedupFirst (domainsPass items).1).length = (domainsPass items).1.length) :
    validateDomainsField mits =
      ⟨mits,
        (domainsPass items).2 ++
        (if (domainsPass items).1.length > 3 then
          [⟨"LAML_DOMAINS_COUNT_EXCEEDED", [toString (domainsPass items).1.length]⟩]
         else []) ++
        (findOverlappingDomains (domainsPass items).1).map (fun p =>
          ⟨"LAML_DOMAINS_OVERLAPPING", [p.1, p.2]⟩),
        []⟩ := by
  rw [validateDomainsField, hf]
  dsimp only
  rw [if_neg hlen]
  rw [show decide ((dedupFirst (domainsPass items).1).length ≠
      (domainsPass items).1.length) = false from by simp [hnd]]
  simp only [Bool.false_eq_true, if_false]
  rw [setFirstValue_self mits "domains" (dmk, .seq fl items) hf]

theorem VDF_dups_seq (mits : List (String × Node)) (dmk : String) (fl : Bool)
    (items : List Node)
    (hf : mits.find? (fun it => it.1 == "domains") = some (dmk, .seq fl items))
    (hlen : items.length ≠ 0)
    (hdups : (dedupFirst (domainsPass items).1).length ≠ (domainsPass items).1.length) :
    validateDomainsField mits =
      ⟨setFirstValue mits "domains"
          (.seq fl (removeIdxs items (dupIdxs [] 0 (domainsPass items).1))),
        (domainsPass items).2 ++
        (if (dedupFirst (domainsPass items).1).length > 3 then
          [⟨"LAML_DOMAINS_COUNT_EXCEEDED",
            [toString (dedupFirst (domainsPass items).1).length]⟩]
         else []) ++
        (findOverlappingDomains (dedupFirst (domainsPass items).1)).map (fun p =>
          ⟨"LAML_DOMAINS_OVERLAPPING", [p.1, p.2]⟩),
        [.push ("Removed duplicate domains: " ++
          joinCommaStr (dupElems [] (domainsPass items).1))]⟩ := by
  rw [validateDomainsField, hf]
  dsimp only
  rw [if_neg hlen]
  rw [show decide ((dedupFirst (domainsPass items).1).length ≠
      (domainsPass items).1.length) = true from decide_eq_true hdups]
  simp only [eq_self_iff_true, if_true]

theorem find?_img (its : List (String × Node)) (k : String) (dm : String × Node)
    (hf : its.find? (fun it => it.1 == k) = some dm) :
    (its.map (fun p => (p.1, vtFmtVal p.1 p.2))).find? (fun it => it.1 == k) =
      some (dm.1, vtFmtVal dm.1 dm.2) := by
  rw [find?_map_fst k (fun p => (p.1, vtFmtVal p.1 p.2)) (fun p => rfl) its, hf]
  rfl

theorem find?_img_none (its : List (String × Node)) (k : String)
    (hf : its.find? (fun it => it.1 == k) = none) :
    (its.map (fun p => (p.1, vtFmtVal p.1 p.2))).find? (fun it => it.1 == k) = none := by
  rw [find?_map_fst k (fun p => (p.1, vtFmtVal p.1 p.2)) (fun p => rfl) its, hf]
  rfl

theorem domainsField_run2 (its5 : List (String × Node))
    (hsafe : ∀ dm, its5.find? (fun it => it.1 == "domains") = some dm →
      ∀ fl items, dm.2 = Node.seq fl items → domainsSafe items = true) :
    (validateDomainsField ((validateDomainsField its5).items.map
        (fun p => (p.1, vtFmtVal p.1 p.2)))).items =
      (validateDomainsField its5).items.map (fun p => (p.1, vtFmtVal p.1 p.2)) ∧
    (validateDomainsField ((validateDomainsField its5).items.map
        (fun p => (p.1, vtFmtVal p.1 p.2)))).evs = [] ∧
    (∀ e, e ∈ (validateDomainsField ((validateDomainsField its5).items.map
        (fun p => (p.1, vtFmtVal p.1 p.2)))).errs ↔
      e ∈ (validateDomainsField its5).errs) := by
  cases hf : its5.find? (fun it => it.1 == "domains") with
  | none =>
      rw [VDF_missing its5 hf]
      rw [VDF_missing _ (find?_img_none its5 "domains" hf)]
      exact ⟨rfl, rfl, fun e => Iff.rfl⟩
  | some dm =>
      obtain ⟨dmk, dv⟩ := dm
      cases dv with
      | scalar sv st =>
          rw [VDF_nonseq its5 (dmk, .scalar sv st) hf
            (fun fl2 its2 h => Node.noConfusion h)]
          obtain ⟨sv2, st2, hs⟩ := vtFmtVal_scalar_ex dmk sv st
          rw [VDF_nonseq _ _ (find?_img its5 "domains" (dmk, .scalar sv st) hf)
            (fun fl2 its2 h => by rw [hs] at h; exact Node.noConfusion h)]
          exact ⟨rfl, rfl, fun e => Iff.rfl⟩
      | aliasNode a =>
          rw [VDF_nonseq its5 (dmk, .aliasNode a) hf
            (fun fl2 its2 h => Node.noConfusion h)]
          rw [VDF_nonseq _ _ (find?_img its5 "domains" (dmk, .aliasNode a) hf)
            (fun fl2 its2 h => by rw [vtFmtVal_alias] at h; exact Node.noConfusion h)]
          exact ⟨rfl, rfl, fun e => Iff.rfl⟩
      | map mfl mits =>
          rw [VDF_nonseq its5 (dmk, .map mfl mits) hf
            (fun fl2 its2 h => Node.noConfusion h)]
          obtain ⟨fl2m, hm⟩ := vtFmtVal_map dmk mfl mits
          rw [VDF_nonseq _ _ (find?_img its5 "domains" (dmk, .map mfl mits) hf)
            (fun fl2 its2 h => by rw [hm] at h; exact Node.noConfusion h)]
          exact ⟨rfl, rfl, fun e => Iff.rfl⟩
      | seq fl items =>
          have hs : domainsSafe items = true := hsafe (dmk, .seq fl items) hf fl items rfl
          by_cases hlen : items.length = 0
          · have hnil : items = [] := List.length_eq_zero.mp hlen
            subst hnil
            rw [VDF_empty_seq its5 dmk fl hf]
            obtain ⟨fl2, hs2⟩ := vtFmtVal_seq_ex dmk fl []
            rw [show ((fmtList ((vtList ([] : List Node)).1)).1) = [] from rfl] at hs2
            have hf2 := find?_img its5 "domains" (dmk, .seq fl []) hf
            rw [hs2] at hf2
            rw [VDF_empty_seq _ dmk fl2 hf2]
            exact ⟨rfl, rfl, fun e => Iff.rfl⟩
          · by_cases hdup : (dedupFirst (domainsPass items).1).length =
                (domainsPass items).1.length
            · rw [VDF_nodup_seq its5 dmk fl items hf hlen hdup]
              obtain ⟨fl2, hs2⟩ := vtFmtVal_seq_ex dmk fl items
              have hf2 := find?_img its5 "domains" (dmk, .seq fl items) hf
              rw [hs2] at hf2
              have hlen2 : ((fmtList ((vtList items).1)).1).length ≠ 0 := by
                rw [vtfmtList_length]
                exact hlen
              have hpass2 := domainsPass_vtfmt items
              have hdup2 : (dedupFirst (domainsPass
                  ((fmtList ((vtList items).1)).1)).1).length =
                  (domainsPass ((fmtList ((vtList items).1)).1)).1.length := by
                rw [hpass2]
                exact hdup
              rw [VDF_nodup_seq _ dmk fl2 _ hf2 hlen2 hdup2]
              refine ⟨rfl, rfl, fun e => ?_⟩
              rw [hpass2]
            · have hdups : (dedupFirst (domainsPass items).1).length ≠
                  (domainsPass items).1.length := hdup
              have hall : items.all isStrScalar = true := by
                rw [domainsSafe] at hs
                cases h1 : ((dedupFirst (domainsPass items).1).length ==
                    (domainsPass items).1.length) with
                | true => exact absurd (by simpa using h1) hdups
                | false =>
                    rw [h1] at hs
                    simpa using hs
              rw [VDF_dups_seq its5 dmk fl items hf hlen hdups]
              have hff := setFirstValue_find?_self its5 "domains" (dmk, .seq fl items)
                (.seq fl (removeIdxs items (dupIdxs [] 0 (domainsPass items).1))) hf
              have hf2 := find?_img _ "domains"
                (dmk, .seq fl (removeIdxs items (dupIdxs [] 0 (domainsPass items).1))) hff
              obtain ⟨fl2, hs2⟩ := vtFmtVal_seq_ex dmk fl
                (removeIdxs items (dupIdxs [] 0 (domainsPass items).1))
              rw [hs2] at hf2
              have hallnew : (removeIdxs items
                  (dupIdxs [] 0 (domainsPass items).1)).all isStrScalar = true :=
                all_str_removeIdxs hall
              have hdne : (domainsPass items).1 ≠ [] := by
                intro hc
                apply hlen
                rw [← (domainsPass_strings items hall).2, hc]
                rfl
              have hdedne : dedupFirst (domainsPass items).1 ≠ [] :=
                dedupFirst_ne_nil hdne
              have hnodup := dedupFirst_nodup (domainsPass items).1
              have hpass2 : domainsPass ((fmtList ((vtList (removeIdxs items
                  (dupIdxs [] 0 (domainsPass items).1))).1)).1) =
                  (dedupFirst (domainsPass items).1,
                    domFmtErrs (dedupFirst (domainsPass items).1)) := by
                rw [domainsPass_vtfmt, splice_dedup0 items hall]
              have h6 : (domainsPass (removeIdxs items
                  (dupIdxs [] 0 (domainsPass items).1))).1 =
                  dedupFirst (domainsPass items).1 := by
                rw [splice_dedup0 items hall]
              have hlen2 : ((fmtList ((vtList (removeIdxs items
                  (dupIdxs [] 0 (domainsPass items).1))).1)).1).length ≠ 0 := by
                rw [vtfmtList_length]
                intro hc
                apply hdedne
                apply List.length_eq_zero.mp
                rw [← h6, (domainsPass_strings _ hallnew).2]
                exact hc
              have hdup2 : (dedupFirst (domainsPass ((fmtList ((vtList (removeIdxs items
                  (dupIdxs [] 0 (domainsPass items).1))).1)).1)).1).length =
                  (domainsPass ((fmtList ((vtList (removeIdxs items
                  (dupIdxs [] 0 (domainsPass items).1))).1)).1)).1.length := by
                rw [hpass2]
                dsimp only
                rw [dedupFirst_of_nodup _ hnodup]
              rw [VDF_nodup_seq _ dmk fl2 _ hf2 hlen2 hdup2]
              refine ⟨rfl, rfl, fun e => ?_⟩
              rw [hpass2]
              dsimp only
              rw [(domainsPass_strings items hall).1]
              simp only [List.mem_append]
              rw [domFmtErrs_dedup]

theorem VDF_items_shape (mits : List (String × Node)) :
    (validateDomainsField mits).items = mits ∨
    ∃ v, (validateDomainsField mits).items = setFirstValue mits "domains" v := by
  rw [validateDomainsField]
  cases hf : mits.find? (fun it => it.1 == "domains") with
  | none => exact Or.inl rfl
  | some dm =>
      obtain ⟨dmk, dv⟩ := dm
      dsimp only
      cases dv with
      | seq fl items =>
          dsimp only
          by_cases hlen : items.length = 0
          · rw [if_pos hlen]
            exact Or.inl rfl
          · rw [if_neg hlen]
            exact Or.inr ⟨_, rfl⟩
      | scalar sv st => exact Or.inl rfl
      | aliasNode a => exact Or.inl rfl
      | map f i => exact Or.inl rfl

theorem find?_isSome_VDF (mits : List (String × Node)) (f : String)
    (h : (mits.find? (fun it => it.1 == f)).isSome = true) :
    (((validateDomainsField mits).items).find? (fun it => it.1 == f)).isSome = true := by
  rcases VDF_items_shape mits with he | ⟨v, he⟩
  · rw [he]
    exact h
  · rw [he]
    by_cases hd : (f == "domains") = true
    · have hf : f = "domains" := by simpa using hd
      subst hf
      cases hfind : mits.find? (fun it => it.1 == "domains") with
      | none =>
          rw [hfind] at h
          simp at h
      | some it0 =>
          rw [setFirstValue_find?_self mits "domains" it0 v hfind]
          rfl
    · rw [setFirstValue_find?_ne mits "domains" f v (Bool.eq_false_iff.mpr hd)]
      exact h

theorem fieldErr_run2 (mits its5 : List (String × Node)) (f : String)
    (hbt : isBooleanTrigger f = false)
    (hdefault : validateMetaFieldValue f (vtFmtVal f (metaFieldDefault f)) = [])
    (hne : (f == "domains") = false)
    (h3 : its5.find? (fun it => it.1 == f) =
      some ((mits.find? (fun it => it.1 == f)).getD (f, metaFieldDefault f))) :
    fieldErr ((validateDomainsField its5).items.map
      (fun p => (p.1, vtFmtVal p.1 p.2))) f = fieldErr mits f := by
  have hvdf : (validateDomainsField its5).items.find? (fun it => it.1 == f) =
      its5.find? (fun it => it.1 == f) := by
    rcases VDF_items_shape its5 with he | ⟨v, he⟩
    · rw [he]
    · rw [he, setFirstValue_find?_ne its5 "domains" f v hne]
  cases hm : mits.find? (fun it => it.1 == f) with
  | some y =>
      have hy1 : y.1 = f := by simpa using List.find?_some hm
      rw [hm] at h3
      rw [fieldErr, find?_map_fst f (fun p => (p.1, vtFmtVal p.1 p.2)) (fun p => rfl),
        hvdf, h3]
      dsimp only [Option.getD, Option.map]
      rw [hy1, vmfv_vtFmtVal f y.2 hbt, fieldErr, hm]
  | none =>
      rw [hm] at h3
      rw [fieldErr, find?_map_fst f (fun p => (p.1, vtFmtVal p.1 p.2)) (fun p => rfl),
        hvdf, h3]
      dsimp only [Option.getD, Option.map]
      rw [hdefault, fieldErr, hm]

theorem metaSection_second (mv : Node) (hsafe : domainsSafeMeta mv = true) :
    (validateMetaSection (vtFmtVal "$meta" (validateMetaSection mv).1)).1 =
      vtFmtVal "$meta" (validateMetaSection mv).1 ∧
    (validateMetaSection (vtFmtVal "$meta" (validateMetaSection mv).1)).2.2 = [] ∧
    (∀ e, e ∈ (validateMetaSection (vtFmtVal "$meta" (validateMetaSection mv).1)).2.1 ↔
      e ∈ (validateMetaSection mv).2.1) := by
  cases mv with
  | scalar sv st => exact ⟨rfl, rfl, fun e => Iff.rfl⟩
  | aliasNode a => exact ⟨rfl, rfl, fun e => Iff.rfl⟩
  | seq fl items => exact ⟨rfl, rfl, fun e => Iff.rfl⟩
  | map fl mits =>
      obtain ⟨ext2, evs2, h1, h3, h4⟩ := foldSteps_run
        ["name", "purpose", "version", "spec", "domains"] mits [] [] []
        (fun q hq => absurd hq (List.not_mem_nil q)) (by decide)
      simp only [List.nil_append, List.append_nil] at h1 h3
      have hfold : validateMetaSection (Node.map fl mits) =
          (let st5 := ["name", "purpose", "version", "spec", "domains"].foldl
              (fun s f => metaFieldStep f s) (⟨mits, [], []⟩ : MapOut)
           let st6 := validateDomainsField st5.items
           ((Node.map fl st6.items : Node), st5.errs ++ st6.errs,
             st5.evs ++ st6.evs)) := rfl
      rw [h1] at hfold
      dsimp only at hfold
      have hv1 : (validateMetaSection (Node.map fl mits)).1 =
          Node.map fl (validateDomainsField (mits ++ ext2)).items := by
        rw [hfold]
      have herr1 : (validateMetaSection (Node.map fl mits)).2.1 =
          (["name", "purpose", "version", "spec", "domains"].flatMap (fun f =>
            if f == "domains" then [] else fieldErr mits f)) ++
            (validateDomainsField (mits ++ ext2)).errs := by
        rw [hfold]
      have hpres5 : ∀ f ∈ ["name", "purpose", "version", "spec", "domains"],
          ((mits ++ ext2).find? (fun it => it.1 == f)).isSome = true := by
        intro f hf
        rw [h3 f hf]
        rfl
      obtain ⟨fl2, hm2⟩ := vtFmtVal_map "$meta" fl
        (validateDomainsField (mits ++ ext2)).items
      have hv' : vtFmtVal "$meta" (validateMetaSection (Node.map fl mits)).1 =
          Node.map fl2 ((validateDomainsField (mits ++ ext2)).items.map
            (fun p => (p.1, vtFmtVal p.1 p.2))) := by
        rw [hv1, hm2]
      have hpres' : ∀ f ∈ ["name", "purpose", "version", "spec", "domains"],
          (((validateDomainsField (mits ++ ext2)).items.map
            (fun p => (p.1, vtFmtVal p.1 p.2))).find?
              (fun it => it.1 == f)).isSome = true := by
        intro f hf
        obtain ⟨y, hy⟩ := Option.isSome_iff_exists.mp
          (find?_isSome_VDF (mits ++ ext2) f (hpres5 f hf))
        rw [find?_map_fst f (fun p => (p.1, vtFmtVal p.1 p.2)) (fun p => rfl), hy]
        rfl
      obtain ⟨ext2p, evs2p, h1p, h3p, h4p⟩ := foldSteps_run
        ["name", "purpose", "version", "spec", "domains"]
        ((validateDomainsField (mits ++ ext2)).items.map
          (fun p => (p.1, vtFmtVal p.1 p.2)))
        [] [] [] (fun q hq => absurd hq (List.not_mem_nil q)) (by decide)
      obtain ⟨hx0, he0⟩ := h4p hpres'
      subst hx0
      subst he0
      simp only [List.nil_append, List.append_nil] at h1p
      have hfold2 : validateMetaSection (Node.map fl2
          ((validateDomainsField (mits ++ ext2)).items.map
            (fun p => (p.1, vtFmtVal p.1 p.2)))) =
          (let st5 := ["name", "purpose", "version", "spec", "domains"].foldl
              (fun s f => metaFieldStep f s)
              (⟨(validateDomainsField (mits ++ ext2)).items.map
                (fun p => (p.1, vtFmtVal p.1 p.2)), [], []⟩ : MapOut)
           let st6 := validateDomainsField st5.items
           ((Node.map fl2 st6.items : Node), st5.errs ++ st6.errs,
             st5.evs ++ st6.evs)) := rfl
      rw [h1p] at hfold2
      dsimp only at hfold2
      have hsafe5 : ∀ dm, (mits ++ ext2).find? (fun it => it.1 == "domains") = some dm →
          ∀ flx itemsx, dm.2 = Node.seq flx itemsx → domainsSafe itemsx = true := by
        intro dm hdm flx itemsx hdx
        have h3d := h3 "domains" (by simp)
        rw [hdm] at h3d
        have hdm2 := Option.some_inj.mp h3d
        cases hmens : mits.find? (fun it => it.1 == "domains") with
        | none =>
            rw [hmens] at hdm2
            have hdx2 : Node.seq false [] = Node.seq flx itemsx := by
              rw [← hdx, hdm2]
              rfl
            injection hdx2 with hflx hitemsx
            rw [← hitemsx]
            decide
        | some y =>
            rw [hmens] at hdm2
            have hdmy : dm = y := hdm2
            rw [domainsSafeMeta, hmens] at hsafe
            dsimp only at hsafe
            rw [hdmy] at hdx
            rw [hdx] at hsafe
            dsimp only at hsafe
            exact hsafe
      obtain ⟨hitems2, hevs2, herrs2⟩ := domainsField_run2 (mits ++ ext2) hsafe5
      refine ⟨?_, ?_, ?_⟩
      · rw [hv', hfold2, hitems2]
      · rw [hv', hfold2]
        dsimp only
        exact hevs2
      · intro e
        rw [hv', hfold2, herr1]
        dsimp only
        have hflat : (["name", "purpose", "version", "spec", "domains"].flatMap (fun f =>
            if f == "domains" then [] else
              fieldErr ((validateDomainsField (mits ++ ext2)).items.map
                (fun p => (p.1, vtFmtVal p.1 p.2))) f)) =
            (["name", "purpose", "version", "spec", "domains"].flatMap (fun f =>
              if f == "domains" then [] else fieldErr mits f)) := by
          apply flatMap_congr_list
          intro f hf
          rcases (by simpa using hf : f = "name" ∨ f = "purpose" ∨ f = "version" ∨
            f = "spec" ∨ f = "domains") with rfl | rfl | rfl | rfl | rfl
          · rw [if_neg (by decide), if_neg (by decide)]
            exact fieldErr_run2 mits (mits ++ ext2) "name" (by decide) (by decide)
              (by decide) (h3 "name" (by simp))
          · rw [if_neg (by decide), if_neg (by decide)]
            exact fieldErr_run2 mits (mits ++ ext2) "purpose" (by decide) (by decide)
              (by decide) (h3 "purpose" (by simp))
          · rw [if_neg (by decide), if_neg (by decide)]
            exact fieldErr_run2 mits (mits ++ ext2) "version" (by decide) (by decide)
              (by decide) (h3 "version" (by simp))
          · rw [if_neg (by decide), if_neg (by decide)]
            exact fieldErr_run2 mits (mits ++ ext2) "spec" (by decide) (by decide)
              (by decide) (h3 "spec" (by simp))
          · rw [if_pos (by decide), if_pos (by decide)]
        rw [hflat]
        simp only [List.mem_append]
        constructor
        · rintro (h | h)
          · exact Or.inl h
          · exact Or.inr ((herrs2 e).mp h)
        · rintro (h | h)
          · exact Or.inl h
          · exact Or.inr ((herrs2 e).mpr h)

theorem pipeline_idem (env : FsEnv) (d : Doc)
    (h1 : aliasFreeDoc d = true) (h2 : domainsSafeDoc d = true) :
    (runPipeline env (runPipeline env d).doc).doc = (runPipeline env d).doc ∧
    (runPipeline env (runPipeline env d).doc).warns = (runPipeline env d).warns ∧
    (runPipeline env (runPipeline env d).doc).evs = [] ∧
    (∀ e, e ∈ (runPipeline env (runPipeline env d).doc).errs ↔
      e ∈ (runPipeline env d).errs) := by
  have hchar : ∀ dd : Doc, runPipeline env dd =
      ⟨(formatDataStructures (convertAliasesToReferences (validateValueTypes
          (validateMetaPosition (validateMandatorySections dd).doc).doc).1).1).1,
        (validateMandatorySections dd).errs ++
          (validateMetaPosition (validateMandatorySections dd).doc).errs ++
          validateYamlMergeKeys (validateMetaPosition
            (validateMandatorySections dd).doc).doc ++
          validateReferences env (validateMetaPosition
            (validateMandatorySections dd).doc).doc ++
          (validateValueTypes (validateMetaPosition
            (validateMandatorySections dd).doc).doc).2.1,
        (validateValueTypes (validateMetaPosition
          (validateMandatorySections dd).doc).doc).2.2.1,
        (validateMandatorySections dd).evs ++
          (validateMetaPosition (validateMandatorySections dd).doc).evs ++
          (validateValueTypes (validateMetaPosition
            (validateMandatorySections dd).doc).doc).2.2.2 ++
          (convertAliasesToReferences (validateValueTypes (validateMetaPosition
            (validateMandatorySections dd).doc).doc).1).2 ++
          (formatDataStructures (convertAliasesToReferences (validateValueTypes
            (validateMetaPosition (validateMandatorySections dd).doc).doc).1).1).2⟩ :=
    fun dd => rfl
  have hvt : ∀ n : Node, validateValueTypes (some n) =
      (some (vtNode n).1, (vtNode n).2.1, (vtNode n).2.2.1, (vtNode n).2.2.2) :=
    fun n => rfl
  have hal : ∀ n : Node, aliasFree n = true →
      convertAliasesToReferences (some n) = (some n, []) := fun n h => by
    rw [show convertAliasesToReferences (some n) = (some (convAliases n),
        (aliasSources n).map (fun a =>
          FixEv.add ("Converted YAML alias to LAML reference: *" ++ a ++ " -> *" ++ a)))
      from rfl, conv_id n h, aliasSources_nil n h]
    rfl
  have hfm : ∀ n : Node, formatDataStructures (some n) =
      (some (fmtNode n).1, (fmtNode n).2) := fun n => rfl
  cases d with
  | none => exact ⟨rfl, rfl, rfl, fun e => Iff.rfl⟩
  | some n =>
      cases n with
      | aliasNode a => simp [aliasFreeDoc, aliasFree] at h1
      | scalar sv st => exact ⟨rfl, rfl, rfl, fun e => Iff.rfl⟩
      | seq fl items =>
          have haf : aliasFree (Node.seq fl items) = true := h1
          have hafvt : aliasFree ((vtNode (Node.seq fl items)).1) = true := by
            rw [aliasFree_vt]
            exact haf
          have hafn4 : aliasFree ((fmtNode ((vtNode (Node.seq fl items)).1)).1) = true := by
            rw [aliasFree_fmt]
            exact hafvt
          have hfm2 : formatDataStructures
              (some ((fmtNode ((vtNode (Node.seq fl items)).1)).1)) =
              (some ((fmtNode ((vtNode (Node.seq fl items)).1)).1), []) := by
            rw [hfm ((fmtNode ((vtNode (Node.seq fl items)).1)).1),
              fmt_of_normalized _ (fmt_normalized ((vtNode (Node.seq fl items)).1))]
          obtain ⟨fl4, hsh⟩ := fmtNode_seq fl ((vtList items).1)
          have hsh2 : (fmtNode ((vtNode (Node.seq fl items)).1)).1 =
              Node.seq fl4 ((fmtList ((vtList items).1)).1) := hsh
          have hM2 : validateMandatorySections
              (some ((fmtNode ((vtNode (Node.seq fl items)).1)).1)) =
              ⟨some ((fmtNode ((vtNode (Node.seq fl items)).1)).1),
                [⟨"LAML_INVALID_ROOT_STRUCTURE", []⟩], []⟩ := by
            rw [hsh2]
            rfl
          have hP2 : validateMetaPosition
              (some ((fmtNode ((vtNode (Node.seq fl items)).1)).1)) =
              ⟨some ((fmtNode ((vtNode (Node.seq fl items)).1)).1), [], []⟩ := by
            rw [hsh2]
            rfl
          have hr1 : runPipeline env (some (Node.seq fl items)) =
              ⟨some ((fmtNode ((vtNode (Node.seq fl items)).1)).1),
                ⟨"LAML_INVALID_ROOT_STRUCTURE", []⟩ ::
                  (validateYamlMergeKeys (some (Node.seq fl items)) ++
                   validateReferences env (some (Node.seq fl items)) ++
                   (vtNode (Node.seq fl items)).2.1),
                (vtNode (Node.seq fl items)).2.2.1,
                (vtNode (Node.seq fl items)).2.2.2 ++
                  (fmtNode ((vtNode (Node.seq fl items)).1)).2⟩ := by
            rw [hchar (some (Node.seq fl items))]
            rw [show validateMandatorySections (some (Node.seq fl items)) =
              (⟨some (Node.seq fl items), [⟨"LAML_INVALID_ROOT_STRUCTURE", []⟩], []⟩ :
                StageOut) from rfl]
            dsimp only
            rw [show validateMetaPosition (some (Node.seq fl items)) =
              (⟨some (Node.seq fl items), [], []⟩ : StageOut) from rfl]
            dsimp only
            rw [hvt (Node.seq fl items)]
            dsimp only
            rw [hal _ hafvt]
            dsimp only
            rw [hfm ((vtNode (Node.seq fl items)).1)]
            dsimp only
            simp
          have hr2 : runPipeline env
              (some ((fmtNode ((vtNode (Node.seq fl items)).1)).1)) =
              ⟨some ((fmtNode ((vtNode (Node.seq fl items)).1)).1),
                ⟨"LAML_INVALID_ROOT_STRUCTURE", []⟩ ::
                  (validateYamlMergeKeys (some (Node.seq fl items)) ++
                   validateReferences env (some (Node.seq fl items)) ++
                   (vtNode (Node.seq fl items)).2.1),
                (vtNode (Node.seq fl items)).2.2.1,
                []⟩ := by
            rw [hchar (some ((fmtNode ((vtNode (Node.seq fl items)).1)).1))]
            rw [hM2]
            dsimp only
            rw [hP2]
            dsimp only
            rw [hvt ((fmtNode ((vtNode (Node.seq fl items)).1)).1)]
            rw [vt_fmt_vt (Node.seq fl items)]
            dsimp only
            rw [hal _ hafn4]
            dsimp only
            rw [hfm2]
            dsimp only
            rw [mergeKeyDiags_vtfmt (Node.seq fl items),
              validateReferences_vtfmt env (Node.seq fl items)]
            simp
          refine ⟨?_, ?_, ?_, fun e => ?_⟩
          · rw [hr1]
            dsimp only
            rw [hr2]
          · rw [hr1]
            dsimp only
            rw [hr2]
          · rw [hr1]
            dsimp only
            rw [hr2]
          · rw [hr1]
            dsimp only
            rw [hr2]
      | map fl items =>
          obtain ⟨mv, rest, hMdoc, hMerrs, hmv, hrest⟩ := mandatory_char fl items
          have hafE : aliasFreeE items = true := h1
          have hafmv : aliasFree mv = true := by
            rcases hmv with hm | hm
            · exact aliasFreeE_mem hafE (List.mem_of_find?_eq_some hm)
            · rw [hm]
              rfl
          have hafm1 : aliasFree (validateMetaSection mv).1 = true :=
            aliasFree_validateMetaSection mv hafmv
          have hafrest : ∀ q ∈ rest, aliasFree q.2 = true := by
            intro q hq
            rcases hrest q hq with hm | hm
            · exact aliasFreeE_mem hafE hm
            · rw [hm]
              rfl
          have hafroot : aliasFree (Node.map fl
              (("$meta", (validateMetaSection mv).1) :: rest)) = true := by
            show aliasFreeE (("$meta", (validateMetaSection mv).1) :: rest) = true
            rw [aliasFreeE_eq_all]
            apply List.all_eq_true.mpr
            intro q hq
            rcases List.mem_cons.mp hq with rfl | hq
            · exact hafm1
            · exact hafrest q hq
          have hdsm : domainsSafeMeta mv = true := by
            rcases hmv with hm | hm
            · have h2x : domainsSafeDoc (some (Node.map fl items)) = true := h2
              rw [domainsSafeDoc, hm] at h2x
              dsimp only at h2x
              exact h2x
            · rw [hm]
              rfl
          have hafvt : aliasFree ((vtNode (Node.map fl
              (("$meta", (validateMetaSection mv).1) :: rest))).1) = true := by
            rw [aliasFree_vt]
            exact hafroot
          have hafn4 : aliasFree ((fmtNode ((vtNode (Node.map fl
              (("$meta", (validateMetaSection mv).1) :: rest))).1)).1) = true := by
            rw [aliasFree_fmt]
            exact hafvt
          have hfm2 : formatDataStructures (some ((fmtNode ((vtNode (Node.map fl
              (("$meta", (validateMetaSection mv).1) :: rest))).1)).1)) =
              (some ((fmtNode ((vtNode (Node.map fl
                (("$meta", (validateMetaSection mv).1) :: rest))).1)).1), []) := by
            rw [hfm ((fmtNode ((vtNode (Node.map fl
                (("$meta", (validateMetaSection mv).1) :: rest))).1)).1),
              fmt_of_normalized _ (fmt_normalized ((vtNode (Node.map fl
                (("$meta", (validateMetaSection mv).1) :: rest))).1))]
          have hP1 := metaPosition_first fl (validateMetaSection mv).1 rest
          have hr1doc : (runPipeline env (some (Node.map fl items))).doc =
              some ((fmtNode ((vtNode (Node.map fl
                (("$meta", (validateMetaSection mv).1) :: rest))).1)).1) := by
            rw [hchar (some (Node.map fl items))]
            dsimp only
            rw [hMdoc, hP1]
            dsimp only
            rw [hvt (Node.map fl (("$meta", (validateMetaSection mv).1) :: rest))]
            dsimp only
            rw [hal _ hafvt]
            dsimp only
            rw [hfm ((vtNode (Node.map fl
              (("$meta", (validateMetaSection mv).1) :: rest))).1)]
          have hr1errs : (runPipeline env (some (Node.map fl items))).errs =
              (validateMetaSection mv).2.1 ++
                validateYamlMergeKeys (some (Node.map fl
                  (("$meta", (validateMetaSection mv).1) :: rest))) ++
                validateReferences env (some (Node.map fl
                  (("$meta", (validateMetaSection mv).1) :: rest))) ++
                (vtNode (Node.map fl
                  (("$meta", (validateMetaSection mv).1) :: rest))).2.1 := by
            rw [hchar (some (Node.map fl items))]
            dsimp only
            rw [hMdoc, hMerrs, hP1]
            dsimp only
            rw [hvt (Node.map fl (("$meta", (validateMetaSection mv).1) :: rest))]
            dsimp only
            simp
          have hr1warns : (runPipeline env (some (Node.map fl items))).warns =
              (vtNode (Node.map fl
                (("$meta", (validateMetaSection mv).1) :: rest))).2.2.1 := by
            rw [hchar (some (Node.map fl items))]
            dsimp only
            rw [hMdoc, hP1]
            dsimp only
            rw [hvt (Node.map fl (("$meta", (validateMetaSection mv).1) :: rest))]
          obtain ⟨fl4, hsh⟩ := vtFmtVal_map "x" fl
            (("$meta", (validateMetaSection mv).1) :: rest)
          have hsh2 : (fmtNode ((vtNode (Node.map fl
              (("$meta", (validateMetaSection mv).1) :: rest))).1)).1 =
              Node.map fl4 (("$meta", vtFmtVal "$meta" (validateMetaSection mv).1) ::
                rest.map (fun p => (p.1, vtFmtVal p.1 p.2))) := hsh
          obtain ⟨hms1, hms2, hms3⟩ := metaSection_second mv hdsm
          have hM2 : validateMandatorySections (some ((fmtNode ((vtNode (Node.map fl
              (("$meta", (validateMetaSection mv).1) :: rest))).1)).1)) =
              ⟨some ((fmtNode ((vtNode (Node.map fl
                (("$meta", (validateMetaSection mv).1) :: rest))).1)).1),
                (validateMetaSection
                  (vtFmtVal "$meta" (validateMetaSection mv).1)).2.1, []⟩ := by
            rw [hsh2, mandatory_first fl4 (vtFmtVal "$meta" (validateMetaSection mv).1)
              (rest.map (fun p => (p.1, vtFmtVal p.1 p.2))), hms1, hms2]
          have hP2 : validateMetaPosition (some ((fmtNode ((vtNode (Node.map fl
              (("$meta", (validateMetaSection mv).1) :: rest))).1)).1)) =
              ⟨some ((fmtNode ((vtNode (Node.map fl
                (("$meta", (validateMetaSection mv).1) :: rest))).1)).1), [], []⟩ := by
            rw [hsh2]
            exact metaPosition_first fl4 _ _
          have hr2doc : (runPipeline env (some ((fmtNode ((vtNode (Node.map fl
              (("$meta", (validateMetaSection mv).1) :: rest))).1)).1))).doc =
              some ((fmtNode ((vtNode (Node.map fl
                (("$meta", (validateMetaSection mv).1) :: rest))).1)).1) := by
            rw [hchar]
            dsimp only
            rw [hM2]
            dsimp only
            rw [hP2]
            dsimp only
            rw [hvt ((fmtNode ((vtNode (Node.map fl
              (("$meta", (validateMetaSection mv).1) :: rest))).1)).1)]
            rw [vt_fmt_vt (Node.map fl (("$meta", (validateMetaSection mv).1) :: rest))]
            dsimp only
            rw [hal _ hafn4]
            dsimp only
            rw [hfm2]
          have hr2errs : (runPipeline env (some ((fmtNode ((vtNode (Node.map fl
              (("$meta", (validateMetaSection mv).1) :: rest))).1)).1))).errs =
              (validateMetaSection
                  (vtFmtVal "$meta" (validateMetaSection mv).1)).2.1 ++
                validateYamlMergeKeys (some (Node.map fl
                  (("$meta", (validateMetaSection mv).1) :: rest))) ++
                validateReferences env (some (Node.map fl
                  (("$meta", (validateMetaSection mv).1) :: rest))) ++
                (vtNode (Node.map fl
                  (("$meta", (validateMetaSection mv).1) :: rest))).2.1 := by
            rw [hchar]
            dsimp only
            rw [hM2, hP2]
            dsimp only
            rw [hvt ((fmtNode ((vtNode (Node.map fl
              (("$meta", (validateMetaSection mv).1) :: rest))).1)).1)]
            rw [vt_fmt_vt (Node.map fl (("$meta", (validateMetaSection mv).1) :: rest))]
            dsimp only
            rw [mergeKeyDiags_vtfmt (Node.map fl
              (("$meta", (validateMetaSection mv).1) :: rest)),
              validateReferences_vtfmt env (Node.map fl
                (("$meta", (validateMetaSection mv).1) :: rest))]
            simp
          have hr2warns : (runPipeline env (some ((fmtNode ((vtNode (Node.map fl
              (("$meta", (validateMetaSection mv).1) :: rest))).1)).1))).warns =
              (vtNode (Node.map fl
                (("$meta", (validateMetaSection mv).1) :: rest))).2.2.1 := by
            rw [hchar]
            dsimp only
            rw [hM2]
            dsimp only
            rw [hP2]
            dsimp only
            rw [hvt ((fmtNode ((vtNode (Node.map fl
              (("$meta", (validateMetaSection mv).1) :: rest))).1)).1)]
            rw [vt_fmt_vt (Node.map fl (("$meta", (validateMetaSection mv).1) :: rest))]
          have hr2evs : (runPipeline env (some ((fmtNode ((vtNode (Node.map fl
              (("$meta", (validateMetaSection mv).1) :: rest))).1)).1))).evs = [] := by
            rw [hchar]
            dsimp only
            rw [hM2]
            dsimp only
            rw [hP2]
            dsimp only
            rw [hvt ((fmtNode ((vtNode (Node.map fl
              (("$meta", (validateMetaSection mv).1) :: rest))).1)).1)]
            rw [vt_fmt_vt (Node.map fl (("$meta", (validateMetaSection mv).1) :: rest))]
            dsimp only
            rw [hal _ hafn4]
            dsimp only
            rw [hfm2]
            simp
          refine ⟨?_, ?_, ?_, fun e => ?_⟩
          · rw [hr1doc, hr2doc]
          · rw [hr1doc, hr2warns, hr1warns]
          · rw [hr1doc, hr2evs]
          · rw [hr1doc, hr2errs, hr1errs]
            simp only [List.mem_append]
            rw [hms3 e]

theorem isEmpty_of_mem_iff {α : Type} {l1 l2 : List α} (h : ∀ e, e ∈ l1 ↔ e ∈ l2) :
    l1.isEmpty = l2.isEmpty := by
  cases l1 with
  | nil =>
      cases l2 with
      | nil => rfl
      | cons a t => exact absurd ((h a).mpr (List.mem_cons_self a t)) (List.not_mem_nil a)
  | cons a t =>
      cases l2 with
      | nil => exact absurd ((h a).mp (List.mem_cons_self a t)) (List.not_mem_nil a)
      | cons b u => rfl

/-- C2 (amended): for every document without YAML alias nodes whose root
$meta.domains sequence is safe for the duplicate splice (its string tags have
no duplicates, or all its items are string scalars), running validateLaml a
second time on the fixedDocument of a first run applies no further
corrections: the returned correction list is empty, the document, the warning
list and the verdict are unchanged, and the two runs record the same set of
errors. -/
theorem c2_idempotence (env : FsEnv) (d : Doc)
    (h1 : aliasFreeDoc d = true) (h2 : domainsSafeDoc d = true) :
    (validateLaml env (some (validateLaml env (some d) [] []).doc) [] []).autoFixedIssues
      = [] ∧
    (validateLaml env (some (validateLaml env (some d) [] []).doc) [] []).doc =
      (validateLaml env (some d) [] []).doc ∧
    (validateLaml env (some (validateLaml env (some d) [] []).doc) [] []).warns =
      (validateLaml env (some d) [] []).warns ∧
    (validateLaml env (some (validateLaml env (some d) [] []).doc) [] []).isValid =
      (validateLaml env (some d) [] []).isValid ∧
    (validateLaml env (some (validateLaml env (some d) [] []).doc) [] []).errs.all
      (fun e => decide (e ∈ (validateLaml env (some d) [] []).errs)) = true ∧
    (validateLaml env (some d) [] []).errs.all
      (fun e => decide (e ∈ (validateLaml env
        (some (validateLaml env (some d) [] []).doc) [] []).errs)) = true := by
  have hVL : ∀ dd : Doc, validateLaml env (some dd) [] [] =
      ⟨(runPipeline env dd).errs.isEmpty,
        !(applyFixes [] (runPipeline env dd).evs).isEmpty,
        (runPipeline env dd).doc,
        (runPipeline env dd).errs,
        (runPipeline env dd).warns,
        applyFixes [] (runPipeline env dd).evs⟩ := fun dd => rfl
  obtain ⟨hdoc, hwarns, hevs, herrs⟩ := pipeline_idem env d h1 h2
  rw [hVL d]
  dsimp only
  rw [hVL ((runPipeline env d).doc)]
  dsimp only
  refine ⟨?_, hdoc, hwarns, ?_, ?_, ?_⟩
  · rw [hevs]
    rfl
  · rw [isEmpty_of_mem_iff herrs]
  · exact List.all_eq_true.mpr (fun e he => decide_eq_true ((herrs e).mp he))
  · exact List.all_eq_true.mpr (fun e he => decide_eq_true ((herrs e).mpr he))

theorem c2_idempotence_witness :
    (aliasFreeDoc c9wdoc = true ∧ domainsSafeDoc c9wdoc = true) ∧
    ((validateLaml emptyFs (some (validateLaml emptyFs (some c9wdoc) [] []).doc)
        [] []).autoFixedIssues = [] ∧
      (validateLaml emptyFs (some (validateLaml emptyFs (some c9wdoc) [] []).doc)
        [] []).doc = (validateLaml emptyFs (some c9wdoc) [] []).doc ∧
      (validateLaml emptyFs (some (validateLaml emptyFs (some c9wdoc) [] []).doc)
        [] []).warns = (validateLaml emptyFs (some c9wdoc) [] []).warns ∧
      (validateLaml emptyFs (some (validateLaml emptyFs (some c9wdoc) [] []).doc)
        [] []).isValid = (validateLaml emptyFs (some c9wdoc) [] []).isValid ∧
      (validateLaml emptyFs (some (validateLaml emptyFs (some c9wdoc) [] []).doc)
        [] []).errs.all (fun e =>
          decide (e ∈ (validateLaml emptyFs (some c9wdoc) [] []).errs)) = true ∧
      (validateLaml emptyFs (some c9wdoc) [] []).errs.all (fun e =>
        decide (e ∈ (validateLaml emptyFs
          (some (validateLaml emptyFs (some c9wdoc) [] []).doc) [] []).errs)) = true) :=
  ⟨⟨by decide, by decide⟩, c2_idempotence emptyFs c9wdoc (by decide) (by decide)⟩

end Laml
